import Mathlib

/-!
# developer-defense-kit: rate limiter, CSRF tokens, sanitizers, CORS and security headers

A shallow embedding of `Rate Limiter/c/rate_limiter.c`, of the token
comparison of `CSRF_Token_Manager`, of the log sanitizer of
`Suspicious_Activity_Logger`, of the filters of `Input Sanitizer`, of
`CORS_Configurator/c/cors_headers.c` and of
`Secure Headers Injector/c/secure_headers.c`, with theorems about them. The definitions of all components come first, one
namespace per component; the theorems follow.

Modelling conventions of the rate limiter (the other components state theirs
at the head of their namespace).

* A C string is the list of its characters before the terminating NUL, each
  character given as the `int` value the C code reads from it (`List Int`).
* `time_t`, `int` and array indices are unbounded integers; the clock reading
  `time(NULL)` of a call is an explicit argument `current_time`.
* The outcome of the allocator in one call is an explicit argument (`Alloc`):
  whether `malloc`/`realloc` succeed, and the uninitialised contents of fresh
  memory.
* The hash table is a function from the 1024 bucket indices to chains; a
  chain is the list of the nodes linked through `next`, head first. A pointer
  to a node of a chain is the node together with the nodes before and after it.
* The `timestamps` array of a node is the list of its allocated slots. Reading
  or writing a slot outside the allocation is undefined behaviour in C: the
  embedding then gives no result (`none`).
* The mutex is not part of the state: a call is one atomic step. What a call
  does with the mutex is given apart, as the events of the call
  (`check_rate_limit_c_events`).
-/

namespace RateLimiter

/-! ## Data model (`rate_limiter.h`) -/

/-- Size of the `ip_address` buffer of a node (`#define MAX_IP_LEN 16`). -/
abbrev MAX_IP_LEN : Nat := 16

/-- Number of buckets (`#define HASH_TABLE_SIZE 1024`). -/
abbrev HASH_TABLE_SIZE : Nat := 1024

/-- A C string: its characters before the terminating NUL. -/
abbrev CString := List Int

/-- Node of the hash table (`struct HT_Node`); `next` is the rest of the chain
the node is in. `timestamps` is the allocated array, one entry per slot. -/
structure HT_Node where
  ip_address : CString
  timestamps : List Int
  count : Nat
  capacity : Nat
deriving DecidableEq, Repr

/-- Rate limiter state (`RateLimiterC`), without the mutex. -/
structure RateLimiterC where
  table : Fin HASH_TABLE_SIZE → List HT_Node
  max_requests : Int
  window_seconds : Int

/-- What the allocator does during one call of `check_rate_limit_c`. -/
structure Alloc where
  /-- Whether `malloc(sizeof(HT_Node))` succeeds. -/
  node_ok : Bool
  /-- Whether `malloc(capacity * sizeof(time_t))` succeeds. -/
  ts_ok : Bool
  /-- Whether `realloc(timestamps, ...)` succeeds. -/
  grow_ok : Bool
  /-- Contents of uninitialised slots of freshly allocated memory. -/
  junk : Nat → Int

/-- An allocator outcome in which every allocation succeeds. -/
def Alloc.ok (junk : Nat → Int) : Alloc :=
  { node_ok := true, ts_ok := true, grow_ok := true, junk := junk }

/-! ## The code -/

/-- The loop of `hash_ip`: `hash = ((hash << 5) + hash) + c` on `unsigned long`
(64 bits). -/
def hash_ip_loop : Int → CString → Int
  | hash, [] => hash
  | hash, c :: str => hash_ip_loop ((((hash * 32) % 2 ^ 64 + hash) % 2 ^ 64 + c) % 2 ^ 64) str

/-- Function `hash_ip` (djb2): `hash % HASH_TABLE_SIZE`, starting from 5381. -/
def hash_ip (str : CString) : Fin HASH_TABLE_SIZE :=
  Fin.ofNat (hash_ip_loop 5381 str).toNat

/-- The search loop of `find_or_create_node`: walks the chain and stops at the
first node whose `ip_address` compares equal (`strcmp == 0`) to the key. The
result is that node with the nodes before it and after it in the chain. -/
def find_node (ip_address : CString) :
    List HT_Node → Option (List HT_Node × HT_Node × List HT_Node)
  | [] => none
  | current :: next =>
    if current.ip_address = ip_address then some ([], current, next)
    else
      match find_node ip_address next with
      | none => none
      | some (before, node, after) => some (current :: before, node, after)

/-- Freshly allocated array of `n` slots with uninitialised contents. -/
def fresh_array (junk : Nat → Int) (n : Nat) : List Int :=
  (List.range n).map junk

/-- The node built by `find_or_create_node` for a key that was not found:
`strncpy` of at most `MAX_IP_LEN - 1` characters, `count = 0`, `capacity = 8`. -/
def new_node (ip_address : CString) (junk : Nat → Int) : HT_Node :=
  { ip_address := ip_address.take (MAX_IP_LEN - 1)
    timestamps := fresh_array junk 8
    count := 0
    capacity := 8 }

/-- Function `find_or_create_node`. `none` is the `NULL` result (an allocation
failed; the limiter is unchanged). Otherwise the result is the limiter (with
the new node linked at the head of its bucket when one was created) and the
returned node with its place in the chain of bucket `hash_ip ip_address`. -/
def find_or_create_node (limiter : RateLimiterC) (ip_address : CString) (a : Alloc) :
    Option (RateLimiterC × List HT_Node × HT_Node × List HT_Node) :=
  let index := hash_ip ip_address
  match find_node ip_address (limiter.table index) with
  | some (before, node, after) => some (limiter, before, node, after)
  | none =>
    if a.node_ok = false then none
    else if a.ts_ok = false then none
    else
      let node := new_node ip_address a.junk
      some ({ limiter with table := Function.update limiter.table index (node :: limiter.table index) },
            [], node, limiter.table index)

/-- The pruning loop of `check_rate_limit_c`
(`for (i = 0; i < count; ++i) if (ts[i] > window_start) ts[valid_index++] = ts[i];`).
The first argument is the number of iterations left (`count - i`). The result
is the final `valid_index` and the array; `none` when a slot outside the
allocation is read. -/
def prune_loop (window_start : Int) : Nat → Nat → Nat → List Int → Option (Nat × List Int)
  | 0, _, valid_index, ts => some (valid_index, ts)
  | n + 1, i, valid_index, ts =>
    match ts[i]? with
    | none => none
    | some t =>
      if t > window_start then prune_loop window_start n (i + 1) (valid_index + 1) (ts.set valid_index t)
      else prune_loop window_start n (i + 1) valid_index ts

/-- Successful `realloc` of an array to `n` slots: the old contents up to the
smaller of the two sizes, then uninitialised slots. -/
def realloc_array (junk : Nat → Int) (ts : List Int) (n : Nat) : List Int :=
  (List.range n).map (fun j => (ts[j]?).getD (junk j))

/-- Stores the node back at its place in the chain of bucket `index`. -/
def store_node (limiter : RateLimiterC) (index : Fin HASH_TABLE_SIZE)
    (before : List HT_Node) (node : HT_Node) (after : List HT_Node) : RateLimiterC :=
  { limiter with table := Function.update limiter.table index (before ++ node :: after) }

/-- Function `check_rate_limit_c`, called when the clock reads `current_time`.
The result is the limiter afterwards and the returned `int` (1 allowed,
0 blocked); `none` when the call reads or writes outside an allocation. -/
def check_rate_limit_c (limiter : RateLimiterC) (ip_address : CString) (current_time : Int)
    (a : Alloc) : Option (RateLimiterC × Int) :=
  match find_or_create_node limiter ip_address a with
  | none => some (limiter, 0)
  | some (limiter1, before, ip_node, after) =>
    let index := hash_ip ip_address
    let window_start := current_time - limiter1.window_seconds
    match prune_loop window_start ip_node.count 0 0 ip_node.timestamps with
    | none => none
    | some (valid_index, ts) =>
      let pruned : HT_Node := { ip_node with timestamps := ts, count := valid_index }
      if (pruned.count : Int) < limiter1.max_requests then
        if pruned.count ≥ pruned.capacity then
          let capacity := pruned.capacity * 2
          if a.grow_ok = false then
            some (store_node limiter1 index before { pruned with capacity := capacity } after, 1)
          else
            let new_ts := realloc_array a.junk pruned.timestamps capacity
            if pruned.count < new_ts.length then
              some (store_node limiter1 index before
                { pruned with capacity := capacity, timestamps := new_ts.set pruned.count current_time,
                              count := pruned.count + 1 } after, 1)
            else none
        else if pruned.count < pruned.timestamps.length then
          some (store_node limiter1 index before
            { pruned with timestamps := pruned.timestamps.set pruned.count current_time,
                          count := pruned.count + 1 } after, 1)
        else none
      else some (store_node limiter1 index before pruned after, 0)

/-- Function `init_limiter`: `none` when `calloc` fails (the process exits),
otherwise a limiter with 1024 empty buckets and the two values stored as given. -/
def init_limiter (calloc_ok : Bool) (max_requests window_seconds : Int) : Option RateLimiterC :=
  if calloc_ok = false then none
  else some { table := fun _ => [], max_requests := max_requests, window_seconds := window_seconds }

/-! ## Sequences of calls and the view of a record -/

/-- One call of `check_rate_limit_c`: the key, the clock reading during the
call and what the allocator does during it. -/
structure Call where
  ip_address : CString
  current_time : Int
  alloc : Alloc

/-- Successive calls of `check_rate_limit_c` on one limiter; the result is the
final limiter and the returned values in call order. -/
def run : RateLimiterC → List Call → Option (RateLimiterC × List Int)
  | limiter, [] => some (limiter, [])
  | limiter, c :: cs =>
    match check_rate_limit_c limiter c.ip_address c.current_time c.alloc with
    | none => none
    | some (limiter1, r) =>
      match run limiter1 cs with
      | none => none
      | some (limiter2, rs) => some (limiter2, r :: rs)

/-- The timestamps a node currently stores: `timestamps[0 .. count)`. -/
def HT_Node.live (node : HT_Node) : List Int :=
  node.timestamps.take node.count

/-- The record the limiter finds for a key: the node the search loop of
`find_or_create_node` stops at, if any. -/
def record_of (limiter : RateLimiterC) (ip_address : CString) : Option HT_Node :=
  match find_node ip_address (limiter.table (hash_ip ip_address)) with
  | none => none
  | some (_, node, _) => some node

/-- The timestamps recorded for a key (none for a key without record). -/
def timestamps_of (limiter : RateLimiterC) (ip_address : CString) : List Int :=
  match record_of limiter ip_address with
  | none => []
  | some node => node.live

/-- The timestamps of a list that lie after `window_start`, in order. -/
def survivors (window_start : Int) (ts : List Int) : List Int :=
  ts.filter (fun t => decide (t > window_start))

/-- A node whose fields mean what the header says: `count` timestamps are
stored, `capacity` slots are allocated, and the array is not empty. -/
def HT_Node.wf (node : HT_Node) : Prop :=
  node.count ≤ node.capacity ∧ 0 < node.capacity ∧ node.capacity = node.timestamps.length

/-- A limiter all of whose nodes are well formed. -/
def RateLimiterC.wf (limiter : RateLimiterC) : Prop :=
  ∀ i, ∀ node ∈ limiter.table i, node.wf

/-- The key `192.168.1.1` used by `main`. -/
def key_main : CString := [49, 57, 50, 46, 49, 54, 56, 46, 49, 46, 49]

/-- The 15-character key `192.168.100.101`. -/
def key_short : CString := [49, 57, 50, 46, 49, 54, 56, 46, 49, 48, 48, 46, 49, 48, 49]

/-- The 20-character key `192.168.100.101:5001`; its first 15 characters are
`key_short` and it hashes to the same bucket. -/
def key_long : CString :=
  [49, 57, 50, 46, 49, 54, 56, 46, 49, 48, 48, 46, 49, 48, 49, 58, 53, 48, 48, 49]

/-- An allocator outcome in which everything succeeds and fresh memory reads 0. -/
def alloc_ok : Alloc := Alloc.ok (fun _ => 0)

/-- The node after the pruning loop: kept timestamps first, `count` adjusted. -/
def pruned_node (window_start : Int) (node : HT_Node) : HT_Node :=
  { node with
    timestamps := survivors window_start node.live
      ++ node.timestamps.drop (survivors window_start node.live).length
    count := (survivors window_start node.live).length }

/-- The limiter `init_limiter` builds when `calloc` succeeds. -/
def fresh_limiter (max_requests window_seconds : Int) : RateLimiterC :=
  { table := fun _ => [], max_requests := max_requests, window_seconds := window_seconds }

/-- Every stored count is within the allocation and within the quota. -/
def RateLimiterC.bounded (limiter : RateLimiterC) : Prop :=
  ∀ i, ∀ node ∈ limiter.table i,
    node.count ≤ node.timestamps.length ∧ (node.count : Int) ≤ limiter.max_requests

/-- The limiter left by one call (the limiter itself when the call has no
result). -/
def limiter_after (limiter : RateLimiterC) (ip_address : CString) (current_time : Int)
    (a : Alloc) : RateLimiterC :=
  match check_rate_limit_c limiter ip_address current_time a with
  | none => limiter
  | some (limiter1, _) => limiter1

/-- The limiter left by a sequence of calls (the limiter itself when some call
has no result). -/
def limiter_after_calls (limiter : RateLimiterC) (calls : List Call) : RateLimiterC :=
  match run limiter calls with
  | none => limiter
  | some (limiter1, _) => limiter1

/-- An allocator outcome in which growing an array fails. -/
def alloc_grow_fails : Alloc :=
  { node_ok := true, ts_ok := true, grow_ok := false, junk := fun _ => 0 }

/-- Quota 1, window 10 seconds, after one call for `key_main` at reading 0. -/
def limiter_one : RateLimiterC :=
  limiter_after (fresh_limiter 1 10) key_main 0 alloc_ok

/-- The node of `key_main` in `limiter_one`. -/
def node_one : HT_Node :=
  { ip_address := key_main, timestamps := [0, 0, 0, 0, 0, 0, 0, 0], count := 1, capacity := 8 }

/-- Quota 9, window 10 seconds, after eight calls for `key_main` at reading 0. -/
def limiter_eight : RateLimiterC :=
  limiter_after_calls (fresh_limiter 9 10) (List.replicate 8 ⟨key_main, 0, alloc_ok⟩)

/-- The node of `key_main` in `limiter_eight`: its eight slots are in use. -/
def node_eight : HT_Node :=
  { ip_address := key_main, timestamps := [0, 0, 0, 0, 0, 0, 0, 0], count := 8, capacity := 8 }

/-- Seven calls for `key_main` in the manner of `main`, 100 ms apart: the clock
reads a whole number of seconds, here 0 four times and then 1. -/
def scenario_A_calls : List Call :=
  [⟨key_main, 0, alloc_ok⟩, ⟨key_main, 0, alloc_ok⟩, ⟨key_main, 0, alloc_ok⟩,
   ⟨key_main, 0, alloc_ok⟩, ⟨key_main, 1, alloc_ok⟩, ⟨key_main, 1, alloc_ok⟩,
   ⟨key_main, 1, alloc_ok⟩]

/-- The clock readings of the calls for a key that returned 1, in call order,
given the calls and the values they returned. -/
def allowed_times (key : CString) : List Call → List Int → List Int
  | c :: cs, r :: rs =>
    if c.ip_address = key ∧ r = 1 then c.current_time :: allowed_times key cs rs
    else allowed_times key cs rs
  | _, _ => []

/-- How many of the readings lie in the window `(T - w, T]`. -/
def in_window (w T : Int) (ts : List Int) : Nat :=
  ts.countP (fun t => decide (T - w < t ∧ t ≤ T))

/-- Five further calls for `key_main` in the manner of `main`, one second
apart, the first when the clock reads 11. -/
def scenario_B_calls : List Call :=
  [⟨key_main, 11, alloc_ok⟩, ⟨key_main, 12, alloc_ok⟩, ⟨key_main, 13, alloc_ok⟩,
   ⟨key_main, 14, alloc_ok⟩, ⟨key_main, 15, alloc_ok⟩]

/-- Quota 1, window 0 seconds, after one call for `key_main` at reading 0. -/
def limiter_zero_window : RateLimiterC :=
  limiter_after (fresh_limiter 1 0) key_main 0 alloc_ok

/-- Quota 2, window 10 seconds, after calls for `key_main` at readings 0 and 5. -/
def limiter_two : RateLimiterC :=
  limiter_after_calls (fresh_limiter 2 10) [⟨key_main, 0, alloc_ok⟩, ⟨key_main, 5, alloc_ok⟩]

/-- Quota 1, window -1 seconds, after one call for `key_main` at reading 0. -/
def limiter_negative_window : RateLimiterC :=
  limiter_after (fresh_limiter 1 (-1)) key_main 0 alloc_ok

/-- Every stored count is within the allocation and every stored timestamp is
at most `bound`. -/
def RateLimiterC.not_after (limiter : RateLimiterC) (bound : Int) : Prop :=
  ∀ i, ∀ node ∈ limiter.table i,
    node.count ≤ node.timestamps.length ∧ ∀ t ∈ node.live, t ≤ bound

/-- Every record's stored timestamps are in non-decreasing order and none is
later than `bound`. -/
def RateLimiterC.ordered (limiter : RateLimiterC) (bound : Int) : Prop :=
  ∀ i, ∀ node ∈ limiter.table i,
    node.live.Pairwise (fun s t => s ≤ t) ∧ ∀ t ∈ node.live, t ≤ bound

/-- Pruning as the specification words it: the longest prefix of timestamps
`t` with `t ≤ window_start` is removed. -/
def expired_prefix_removed (window_start : Int) (ts : List Int) : List Int :=
  ts.dropWhile (fun t => decide (t ≤ window_start))

/-- Every stored key fits the `ip_address` buffer: at most 15 characters. -/
def RateLimiterC.keys_fit (limiter : RateLimiterC) : Prop :=
  ∀ i, ∀ node ∈ limiter.table i, node.ip_address.length ≤ MAX_IP_LEN - 1

/-- Nine calls for `key_main` at reading 0 with a quota of 9: the first eight
fill the eight slots of the record, and growing the array fails in the ninth. -/
def failed_growth_calls : List Call :=
  List.replicate 8 ⟨key_main, 0, alloc_ok⟩ ++ [⟨key_main, 0, alloc_grow_fails⟩]

/-- The limiter after `failed_growth_calls`. -/
def limiter_failed_growth : RateLimiterC :=
  limiter_after_calls (fresh_limiter 9 10) failed_growth_calls

/-- An allocator outcome in which the node cannot be allocated. -/
def alloc_node_fails : Alloc :=
  { node_ok := false, ts_ok := true, grow_ok := true, junk := fun _ => 0 }

/-- The limiter with a node linked at the head of the chain of a bucket
(`new_node->next = limiter->table[index]; limiter->table[index] = new_node;`). -/
def link_node (limiter : RateLimiterC) (index : Fin HASH_TABLE_SIZE) (node : HT_Node) :
    RateLimiterC :=
  { limiter with table := Function.update limiter.table index (node :: limiter.table index) }

/-- A node without stored timestamps after `timestamps[count++] = current_time`. -/
def first_admission (node : HT_Node) (current_time : Int) : HT_Node :=
  { node with timestamps := node.timestamps.set 0 current_time, count := 1 }

/-! ## The mutex -/

/-- What a call of `check_rate_limit_c` does with the mutex and with the data
the mutex protects, one event per statement (per iteration for the loop). -/
inductive Event where
  /-- The call `pthread_mutex_lock(&limiter->mutex)`. -/
  | lock
  /-- The call `pthread_mutex_unlock(&limiter->mutex)`. -/
  | unlock
  /-- A read or write of `limiter->table` or of a chain: `find_or_create_node`. -/
  | table
  /-- A read or write of a field of `ip_node` or of its `timestamps` array. -/
  | record
deriving DecidableEq, Repr

/-- Function `check_rate_limit_c` again, statement by statement, with the
events of the call in program order next to its result. The events stop
where the call reads or writes outside an allocation. -/
def check_rate_limit_c_events (limiter : RateLimiterC) (ip_address : CString)
    (current_time : Int) (a : Alloc) : List Event × Option (RateLimiterC × Int) :=
  -- pthread_mutex_lock; ip_node = find_or_create_node(limiter, ip_address)
  let e0 := [Event.lock, Event.table]
  match find_or_create_node limiter ip_address a with
  | none =>
    -- pthread_mutex_unlock; return 0
    (e0 ++ [Event.unlock], some (limiter, 0))
  | some (limiter1, before, ip_node, after) =>
    let index := hash_ip ip_address
    let window_start := current_time - limiter1.window_seconds
    -- for (i = 0; i < ip_node->count; ++i) ...
    let e1 := e0 ++ List.replicate ip_node.count Event.record
    match prune_loop window_start ip_node.count 0 0 ip_node.timestamps with
    | none => (e1, none)
    | some (valid_index, ts) =>
      let pruned : HT_Node := { ip_node with timestamps := ts, count := valid_index }
      -- ip_node->count = valid_index; if (ip_node->count < limiter->max_requests)
      let e2 := e1 ++ [Event.record, Event.record]
      if (pruned.count : Int) < limiter1.max_requests then
        -- if (ip_node->count >= ip_node->capacity)
        let e3 := e2 ++ [Event.record]
        if pruned.count ≥ pruned.capacity then
          let capacity := pruned.capacity * 2
          -- ip_node->capacity *= 2; realloc(ip_node->timestamps, ...)
          let e4 := e3 ++ [Event.record, Event.record]
          if a.grow_ok = false then
            -- pthread_mutex_unlock; return 1
            (e4 ++ [Event.unlock],
              some (store_node limiter1 index before { pruned with capacity := capacity } after, 1))
          else
            let new_ts := realloc_array a.junk pruned.timestamps capacity
            -- ip_node->timestamps = new_ts
            let e5 := e4 ++ [Event.record]
            if pruned.count < new_ts.length then
              -- ip_node->timestamps[ip_node->count++] = current_time; pthread_mutex_unlock; return 1
              (e5 ++ [Event.record, Event.unlock],
                some (store_node limiter1 index before
                  { pruned with capacity := capacity, timestamps := new_ts.set pruned.count current_time,
                                count := pruned.count + 1 } after, 1))
            else (e5, none)
        else if pruned.count < pruned.timestamps.length then
          -- ip_node->timestamps[ip_node->count++] = current_time; pthread_mutex_unlock; return 1
          (e3 ++ [Event.record, Event.unlock],
            some (store_node limiter1 index before
              { pruned with timestamps := pruned.timestamps.set pruned.count current_time,
                            count := pruned.count + 1 } after, 1))
        else (e3, none)
      else
        -- pthread_mutex_unlock; return 0
        (e2 ++ [Event.unlock], some (store_node limiter1 index before pruned after, 0))

/-- Whether a call of `check_rate_limit_c` reaches the growth of the array
(`ip_node->capacity *= 2; realloc(...)`): the node was returned, and after the
pruning loop `count < max_requests` and `count >= capacity`. -/
def growth_attempted (limiter : RateLimiterC) (ip_address : CString) (current_time : Int)
    (a : Alloc) : Bool :=
  match find_or_create_node limiter ip_address a with
  | none => false
  | some (limiter1, _, ip_node, _) =>
    match prune_loop (current_time - limiter1.window_seconds) ip_node.count 0 0
        ip_node.timestamps with
    | none => false
    | some (valid_index, _) =>
      decide ((valid_index : Int) < limiter1.max_requests ∧ valid_index ≥ ip_node.capacity)

/-- Every node is well formed and has the initial capacity of 8 slots. -/
def RateLimiterC.initial_capacity (limiter : RateLimiterC) : Prop :=
  ∀ i, ∀ node ∈ limiter.table i, node.wf ∧ node.capacity = 8

/-- Every node lies in the bucket of its key and no two nodes of a bucket
have the same key. -/
def RateLimiterC.index_wf (limiter : RateLimiterC) : Prop :=
  ∀ i, ((limiter.table i).map HT_Node.ip_address).Nodup ∧
    ∀ node ∈ limiter.table i, hash_ip node.ip_address = i

/-- Three calls for two keys of at most 15 characters. -/
def two_key_calls : List Call :=
  [⟨key_main, 0, alloc_ok⟩, ⟨key_short, 0, alloc_ok⟩, ⟨key_main, 1, alloc_ok⟩]

/-- The accesses of a call to the array of the node it works on stay inside
the allocation: the pruning loop reads `timestamps[0 .. count)`, and when the
call admits (the kept count is below the quota) the slot `timestamps[count]`
it writes is allocated, after the growth of the array if there is one. -/
def HT_Node.in_bounds (node : HT_Node) (window_start max_requests : Int) (grow_ok : Bool) :
    Prop :=
  node.count ≤ node.timestamps.length ∧
  (((survivors window_start node.live).length : Int) < max_requests →
    (node.capacity ≤ (survivors window_start node.live).length →
      grow_ok = false ∨ (survivors window_start node.live).length < node.capacity * 2) ∧
    (¬ node.capacity ≤ (survivors window_start node.live).length →
      (survivors window_start node.live).length < node.timestamps.length))

end RateLimiter

namespace Csrf

/-!
# CSRF token validation (`CSRF_Token_Manager`)

A C string is the list of its characters before the terminating NUL, each
given by its value as a `char` (an `Int`); a `NULL` pointer is `none`. A
`std::string` is the list of its characters.
-/

/-- The comparison loop of `validate_token`
(`for (i = 0; i < 32; i++) result |= (received_token[i] ^ stored_token[i]);`),
`result` being an `unsigned char` (values 0 to 255). The first argument is
the number of iterations left. -/
def xor_loop (received_token stored_token : List Int) : Nat → Nat → Int → Int
  | 0, _, result => result
  | n + 1, i, result =>
    xor_loop received_token stored_token n (i + 1)
      (Int.lor result (Int.xor (received_token.getD i 0) (stored_token.getD i 0)) % 256)

/-- The C function `validate_token` of `csrf_core.c`; the returned `int` is 1
or 0. -/
def validate_token (received_token stored_token : Option (List Int)) : Int :=
  match received_token, stored_token with
  | none, _ => 0
  | some _, none => 0
  | some received, some stored =>
    let len_r := received.length
    let len_s := stored.length
    if len_r ≠ 32 ∨ len_s ≠ 32 then 0
    else if xor_loop received stored 32 0 0 = 0 then 1 else 0

/-- The C++ function `CsrfToken::validate_token` of `CsrfToken.cpp`. -/
def CsrfToken.validate_token (received_token stored_token : List Int) : Bool :=
  let len_r := received_token.length
  let len_s := stored_token.length
  let diff : Int := if len_r ≠ len_s then 1 else 0
  if len_r ≠ 32 ∨ len_s ≠ 32 then false
  else decide (xor_loop received_token stored_token 32 0 diff = 0)

/-- The values of the type `char`: 256 consecutive integers from `char_min`
(-128 where `char` is signed, 0 where it is unsigned). -/
def is_char (char_min : Int) (c : Int) : Prop :=
  char_min ≤ c ∧ c < char_min + 256

/-- The token `wrongtokenwrongtokenwrongtoken!!` of `main` (32 characters). -/
def wrong_token : List Int :=
  [119, 114, 111, 110, 103, 116, 111, 107, 101, 110,
   119, 114, 111, 110, 103, 116, 111, 107, 101, 110,
   119, 114, 111, 110, 103, 116, 111, 107, 101, 110, 33, 33]

/-- The token `deadbeefdeadbeefdeadbeefdeadbeef` of the C++ `main`. -/
def attack_token : List Int :=
  [100, 101, 97, 100, 98, 101, 101, 102, 100, 101, 97, 100, 98, 101, 101, 102,
   100, 101, 97, 100, 98, 101, 101, 102, 100, 101, 97, 100, 98, 101, 101, 102]

end Csrf

namespace SecurityLog

/-!
# Log sanitization (`Suspicious_Activity_Logger`)

A C string is the list of its characters before the terminating NUL, each
given by its value as a `char`; a `std::string` is the list of its
characters. The text written to a `FILE` is the list of the characters
written, in order.
-/

/-- The loop of `write_sanitized`: `file` is the text written so far. -/
def write_sanitized_loop : List Int → List Int → List Int
  | [], file => file
  | c :: input, file =>
    if c = 10 then write_sanitized_loop input (file ++ [92, 110])
    else if c = 13 then write_sanitized_loop input (file ++ [92, 114])
    else if c = 9 then write_sanitized_loop input (file ++ [92, 116])
    else if c ≥ 0 ∧ c < 32 then write_sanitized_loop input (file ++ [32])
    else write_sanitized_loop input (file ++ [c])

/-- The C function `write_sanitized` of `security_log.c`: the text of the file
after the call; nothing is written for a `NULL` input. -/
def write_sanitized (file : List Int) (input : Option (List Int)) : List Int :=
  match input with
  | none => file
  | some s => write_sanitized_loop s file

/-- The C++ function `sanitize` of `Logger.cpp`
(`for (char c : input) output += ...`). -/
def sanitize (input : List Int) : List Int :=
  input.foldl
    (fun output c =>
      if c = 10 then output ++ [92, 110]
      else if c = 13 then output ++ [92, 114]
      else if c = 9 then output ++ [92, 116]
      else if c ≥ 0 ∧ c < 32 then output ++ [32]
      else output ++ [c])
    []

/-- What the claim says a character becomes: newline, carriage return and tab
become a backslash followed by `n`, `r`, `t`; every other control character
(code 0 to 31) becomes one space; any other character is kept. -/
def log_escape (c : Int) : List Int :=
  if c = 10 then [92, 110]
  else if c = 13 then [92, 114]
  else if c = 9 then [92, 116]
  else if 0 ≤ c ∧ c ≤ 31 then [32]
  else [c]

end SecurityLog

namespace XssFilter

/-!
# Input sanitizer (`Input Sanitizer`)

A C string is the list of its characters before the terminating NUL, each
given by its value as a `char`; a `std::string` is the list of its
characters.
-/

/-- The entity `&amp;`. -/
def amp : List Int := [38, 97, 109, 112, 59]

/-- The entity `&lt;`. -/
def lt : List Int := [38, 108, 116, 59]

/-- The entity `&gt;`. -/
def gt : List Int := [38, 103, 116, 59]

/-- The entity `&quot;`. -/
def quot : List Int := [38, 113, 117, 111, 116, 59]

/-- The entity `&apos;`. -/
def apos : List Int := [38, 97, 112, 111, 115, 59]

/-- The loop of the C `html_encode`: `output` is what has been written through
`p` so far; the `switch` has the cases `&`, `<`, `>`, `"`, `'` in this order. -/
def html_encode_loop : List Int → List Int → List Int
  | [], output => output
  | c :: input, output =>
    if c = 38 then html_encode_loop input (output ++ amp)
    else if c = 60 then html_encode_loop input (output ++ lt)
    else if c = 62 then html_encode_loop input (output ++ gt)
    else if c = 34 then html_encode_loop input (output ++ quot)
    else if c = 39 then html_encode_loop input (output ++ apos)
    else html_encode_loop input (output ++ [c])

/-- The C function `html_encode` of `xss_filter.c`. The result of `malloc` is
not checked: when it fails the first write goes through a null pointer and
there is no result (`none`). -/
def html_encode (malloc_ok : Bool) (input : List Int) : Option (List Int) :=
  if malloc_ok = false then none else some (html_encode_loop input [])

/-- The C++ function `html_encode` of `xss_filter.cpp`; the `switch` has the
cases `&`, `"`, `'`, `<`, `>` in this order. -/
def Cpp.html_encode (data : List Int) : List Int :=
  data.foldl
    (fun buffer c =>
      if c = 38 then buffer ++ amp
      else if c = 34 then buffer ++ quot
      else if c = 39 then buffer ++ apos
      else if c = 60 then buffer ++ lt
      else if c = 62 then buffer ++ gt
      else buffer ++ [c])
    []

/-- What the claim says a character becomes: each of the five special
characters its entity, any other character itself. -/
def html_entity (c : Int) : List Int :=
  if c = 38 then amp
  else if c = 60 then lt
  else if c = 62 then gt
  else if c = 34 then quot
  else if c = 39 then apos
  else [c]

/-- The five entities. -/
def entities : List (List Int) := [amp, lt, gt, quot, apos]

/-- The function `tolower` in the "C" locale, on an `unsigned char` value. -/
def tolower (c : Int) : Int :=
  if 65 ≤ c ∧ c ≤ 90 then c + 32 else c

/-- The expression `tolower((unsigned char)c)` on a `char`. -/
def lower (c : Int) : Int :=
  tolower (c % 256)

/-- The inner loop of `strcasestr_custom`
(`while (*h && *n && tolower(*h) == tolower(*n)) { h++; n++; }`) followed by
the test `!*n`. -/
def match_here : List Int → List Int → Bool
  | _, [] => true
  | [], _ :: _ => false
  | hc :: h, nc :: n => if lower hc = lower nc then match_here h n else false

/-- The outer loop of `strcasestr_custom` for a needle that is not empty: the
offset of the position returned, from the start of the haystack, or `none`
for `NULL`. -/
def strcasestr_loop (needle : List Int) : List Int → Option Nat
  | [] => none
  | c :: haystack =>
    if lower c = lower (needle.headD 0) ∧ match_here (c :: haystack) needle = true then some 0
    else
      match strcasestr_loop needle haystack with
      | none => none
      | some k => some (k + 1)

/-- The C function `strcasestr_custom`. -/
def strcasestr_custom (haystack needle : List Int) : Option Nat :=
  if needle = [] then some 0 else strcasestr_loop needle haystack

/-- The C function `mask_substring` applied to the buffer at offset `start`
(`for (i = 0; i < length; i++) start[i] = ' ';`). -/
def mask_substring (input : List Int) (start length : Nat) : List Int :=
  (List.range length).foldl (fun buffer i => buffer.set (start + i) 32) input

/-- The tag names of `sanitize_input_v2`: `script` and `iframe`. -/
def tags : List (List Int) :=
  [[115, 99, 114, 105, 112, 116], [105, 102, 114, 97, 109, 101]]

/-- The string `sprintf(open_tag, "<%s", tag)` builds. -/
def open_tag (tag : List Int) : List Int := 60 :: tag

/-- The string `sprintf(close_tag, "</%s>", tag)` builds. -/
def close_tag (tag : List Int) : List Int := [60, 47] ++ tag ++ [62]

/-- The `while (found)` loop of the tag pass for one tag. The first argument
bounds the number of iterations; `none` means the bound was reached. -/
def strip_tag_loop (tag : List Int) : Nat → List Int → Option (List Int)
  | 0, _ => none
  | fuel + 1, input =>
    match strcasestr_custom input (open_tag tag) with
    | none => some input
    | some found =>
      match strcasestr_custom (input.drop found) (close_tag tag) with
      | some e =>
        strip_tag_loop tag fuel (mask_substring input found (e + (close_tag tag).length))
      | none =>
        strip_tag_loop tag fuel (mask_substring input found (open_tag tag).length)

/-- The `for (t = 0; t < 2; t++)` loop over the tags. -/
def strip_tags : List (List Int) → List Int → Option (List Int)
  | [], input => some input
  | tag :: rest, input =>
    match strip_tag_loop tag (input.length + 1) input with
    | none => none
    | some input1 => strip_tags rest input1

/-- The function `isalpha` in the "C" locale. The code passes it a plain
`char` (`isalpha(p[3])`): for a negative value the C standard leaves the
result open, and it is taken as false here, as for every value that is not a
letter. The event-handler pass only writes `n` and `o` whichever way the test
goes. -/
def isalpha (c : Int) : Bool :=
  decide ((65 ≤ c ∧ c ≤ 90) ∨ (97 ≤ c ∧ c ≤ 122))

/-- The function `strchr`: the offset of the first occurrence of `c`. -/
def strchr : List Int → Int → Option Nat
  | [], _ => none
  | d :: s, c =>
    if d = c then some 0
    else
      match strchr s c with
      | none => none
      | some k => some (k + 1)

/-- The string `" on"`. -/
def space_on : List Int := [32, 111, 110]

/-- The body of the event-handler loop at the position `p` of a `" on"` found:
when an alphabetic character follows and an `=` comes before a `>` after
`p`, the characters `on` become `no`. -/
def event_edit (input : List Int) (p : Nat) : List Int :=
  if isalpha (input.getD (p + 3) 0) = true then
    match strchr (input.drop p) 61, strchr (input.drop p) 62 with
    | some eq, some tag_end =>
      if eq < tag_end then (input.set (p + 1) 110).set (p + 2) 111 else input
    | _, _ => input
  else input

/-- The loop of the event-handler pass
(`while ((p = strcasestr_custom(p, " on"))) { ...; p++; }`); `p` is an offset
into the buffer. The first argument bounds the number of iterations. -/
def event_loop : Nat → Nat → List Int → Option (List Int)
  | 0, _, _ => none
  | fuel + 1, p, input =>
    match strcasestr_custom (input.drop p) space_on with
    | none => some input
    | some k => event_loop fuel (p + k + 1) (event_edit input (p + k))

/-- The string `"javascript:"`. -/
def javascript_colon : List Int := [106, 97, 118, 97, 115, 99, 114, 105, 112, 116, 58]

/-- The loop of the protocol pass (`while (js) { mask_substring(js, 10); ... }`).
The first argument bounds the number of iterations. -/
def strip_js_loop : Nat → List Int → Option (List Int)
  | 0, _ => none
  | fuel + 1, input =>
    match strcasestr_custom input javascript_colon with
    | none => some input
    | some js => strip_js_loop fuel (mask_substring input js 10)

/-- The C function `sanitize_input_v2`: the buffer when it returns. Each loop
is given as many iterations as the buffer has characters, plus one; `none`
would mean that a loop needs more. -/
def sanitize_input_v2 (input : List Int) : Option (List Int) :=
  match strip_tags tags input with
  | none => none
  | some input1 =>
    match event_loop (input1.length + 1) 0 input1 with
    | none => none
    | some input2 => strip_js_loop (input2.length + 1) input2

/-- The string `<script`. -/
def lt_script : List Int := [60, 115, 99, 114, 105, 112, 116]

/-- The string `<iframe`. -/
def lt_iframe : List Int := [60, 105, 102, 114, 97, 109, 101]

/-- A case-insensitive occurrence of a pattern in a buffer: the pattern in
lower case is a run of consecutive characters of the buffer in lower case. -/
def occurs (pattern buffer : List Int) : Prop :=
  pattern.map lower <:+: buffer.map lower

end XssFilter

namespace Text

/-!
# Text of string literals
-/

/-- The characters of a string literal, each given by its value as a `char`
(the literals of the sources hold ASCII characters only). -/
def chars (s : String) : List Int :=
  s.toList.map (fun c => (c.toNat : Int))

end Text

namespace Cors

/-!
# CORS decision (`CORS_Configurator/c/cors_headers.c`)

A C string is the list of its characters before the terminating NUL; a `NULL`
pointer is `none`. The `headers` buffer of a response is given by the string
it holds.
-/

/-- The allowed origin (`#define ALLOWED_ORIGIN "https://yourfrontend.com"`). -/
def ALLOWED_ORIGIN : List Int := Text.chars "https://yourfrontend.com"

/-- Size of the `headers` buffer (`#define MAX_HEADER_SIZE 1024`). -/
abbrev MAX_HEADER_SIZE : Nat := 1024

/-- A response (`HttpResponse`): the status code and the string in `headers`. -/
structure HttpResponse where
  status_code : Int
  headers : List Int
deriving DecidableEq, Repr

/-- The format of the `snprintf` call of `apply_cors`, before its `%s`. -/
def format_before : List Int := Text.chars "Access-Control-Allow-Origin: "

/-- The format of the `snprintf` call of `apply_cors`, after its `%s`. -/
def format_after : List Int :=
  Text.chars "\r\n"
    ++ Text.chars "Access-Control-Allow-Methods: GET, POST, OPTIONS\r\n"
    ++ Text.chars "Access-Control-Allow-Headers: Content-Type, Authorization\r\n"
    ++ Text.chars "Vary: Origin\r\n"

/-- The string `snprintf(buffer, size, format, arg)` leaves in the buffer for
a format with one `%s`: the formatted text, cut to `size - 1` characters. -/
def snprintf (size : Nat) (before_arg arg after_arg : List Int) : List Int :=
  (before_arg ++ arg ++ after_arg).take (size - 1)

/-- The C function `apply_cors`: the response afterwards and the returned
`int` (1 allowed, 0 blocked). -/
def apply_cors (request_origin : Option (List Int)) (response : HttpResponse) :
    HttpResponse × Int :=
  -- response->headers[0] = 0
  let response1 : HttpResponse := { response with headers := [] }
  match request_origin with
  | none => (response1, 1)
  | some origin =>
    -- strcmp(request_origin, ALLOWED_ORIGIN) == 0
    if origin = ALLOWED_ORIGIN then
      ({ response1 with
         headers := snprintf MAX_HEADER_SIZE format_before ALLOWED_ORIGIN format_after }, 1)
    else ({ response1 with status_code := 403 }, 0)

/-- The four header lines the claim names, each ended by CR LF. -/
def cors_header_lines : List (List Int) :=
  [Text.chars "Access-Control-Allow-Origin: https://yourfrontend.com\r\n",
   Text.chars "Access-Control-Allow-Methods: GET, POST, OPTIONS\r\n",
   Text.chars "Access-Control-Allow-Headers: Content-Type, Authorization\r\n",
   Text.chars "Vary: Origin\r\n"]

/-- The origin `https://evil.com` of the second test of `main`. -/
def bad_origin : List Int := Text.chars "https://evil.com"

end Cors

namespace SecureHeaders

/-!
# Security headers (`Secure Headers Injector/c/secure_headers.c`)

The buffer is the array of bytes `buffer` points to, one `char` value per
byte; the string it holds is made of the bytes before the first NUL. A read
or write outside the array is undefined behaviour in C: the embedding then
gives no result (`none`). `size_t` has 64 bits.
-/

/-- The string `SECURITY_HEADERS`: four header lines, each ended by CR LF. -/
def SECURITY_HEADERS : List Int :=
  Text.chars "Content-Security-Policy: default-src 'self'\r\n"
    ++ Text.chars "X-Frame-Options: DENY\r\n"
    ++ Text.chars "Strict-Transport-Security: max-age=31536000; includeSubDomains\r\n"
    ++ Text.chars "X-Content-Type-Options: nosniff\r\n"

/-- The string `"\r\n\r\n"`. -/
def crlf_crlf : List Int := Text.chars "\r\n\r\n"

/-- The function `strlen` on the bytes from a pointer to the end of its array:
the number of bytes before the first NUL; `none` when there is no NUL. -/
def strlen : List Int → Option Nat
  | [] => none
  | c :: mem => if c = 0 then some 0 else (strlen mem).map (fun n => n + 1)

/-- The function `strstr` on a string and a pattern: the offset of the first
occurrence of the pattern, `none` for `NULL`. -/
def strstr : List Int → List Int → Option Nat
  | [], needle => if needle = [] then some 0 else none
  | c :: haystack, needle =>
    if needle.isPrefixOf (c :: haystack) = true then some 0
    else (strstr haystack needle).map (fun k => k + 1)

/-- The function `memmove(mem + dst, mem + src, n)` within one array. -/
def memmove (mem : List Int) (dst src n : Nat) : Option (List Int) :=
  if src + n ≤ mem.length ∧ dst + n ≤ mem.length then
    some (mem.take dst ++ (mem.drop src).take n ++ mem.drop (dst + n))
  else none

/-- The function `memcpy(mem + dst, src, n)` from another object `src`. -/
def memcpy (mem : List Int) (dst : Nat) (src : List Int) (n : Nat) : Option (List Int) :=
  if n ≤ src.length ∧ dst + n ≤ mem.length then
    some (mem.take dst ++ src.take n ++ mem.drop (dst + n))
  else none

/-- The function `strcat(mem, src)`: the characters of `src` and a NUL are
written from the first NUL of `mem` on. -/
def strcat (mem : List Int) (src : List Int) : Option (List Int) :=
  match strlen mem with
  | none => none
  | some n =>
    if n + src.length + 1 ≤ mem.length then
      some (mem.take n ++ src ++ [0] ++ mem.drop (n + src.length + 1))
    else none

/-- The C function `inject_secure_headers`: the array afterwards and the
returned `int` (0 success, -1 error). -/
def inject_secure_headers (buffer : List Int) (max_size : Nat) : Option (List Int × Int) :=
  match strlen buffer with
  | none => none
  | some current_len =>
    let headers_len := SECURITY_HEADERS.length
    if (current_len + headers_len) % 2 ^ 64 ≥ max_size then some (buffer, -1)
    else
      match strstr (buffer.take current_len) crlf_crlf with
      | some body_separator =>
        let insertion_point := body_separator + 2
        match strlen (buffer.drop insertion_point) with
        | none => none
        | some tail_len =>
          match memmove buffer (insertion_point + headers_len) insertion_point (tail_len + 1) with
          | none => none
          | some buffer1 =>
            match memcpy buffer1 insertion_point SECURITY_HEADERS headers_len with
            | none => none
            | some buffer2 => some (buffer2, 0)
      | none =>
        match strcat buffer SECURITY_HEADERS with
        | none => none
        | some buffer1 => some (buffer1, 0)

/-- The string an array holds: its bytes before the first NUL. -/
def c_str : List Int → Option (List Int)
  | [] => none
  | c :: mem => if c = 0 then some [] else (c_str mem).map (fun s => c :: s)

/-- The string the claim describes for a successful call: the headers are
placed two characters after the start of the first `"\r\n\r\n"`, or at the
end when there is none. -/
def with_headers (s : List Int) : List Int :=
  match strstr s crlf_crlf with
  | some i => s.take (i + 2) ++ SECURITY_HEADERS ++ s.drop (i + 2)
  | none => s ++ SECURITY_HEADERS

/-- The response of the demonstration: three header lines, no blank line. -/
def response_text : List Int :=
  Text.chars "HTTP/1.1 200 OK\r\n"
    ++ Text.chars "Content-Type: text/html\r\n"
    ++ Text.chars "Server: MyCServer/0.1\r\n"

/-- Size of the array of the demonstration (`#define BUFFER_SIZE 4096`). -/
abbrev BUFFER_SIZE : Nat := 4096

/-- The bytes of the array of the demonstration after the NUL that ends
`response_text`: all 0. -/
def response_rest : List Int :=
  List.replicate (BUFFER_SIZE - response_text.length - 1) 0

/-- The string `"\r\n"`. -/
def crlf : List Int := Text.chars "\r\n"

/-- A complete response: the header lines of `response_text`, the blank line
and a body. -/
def response_with_body : List Int :=
  response_text ++ Text.chars "\r\n" ++ Text.chars "<html></html>"

/-- The bytes after the NUL in an array of 512 bytes holding
`response_with_body`: all 0. -/
def body_rest : List Int :=
  List.replicate (512 - response_with_body.length - 1) 0

end SecureHeaders

/-! # Theorems -/

set_option maxRecDepth 100000

namespace RateLimiter

/-! ## The pruning loop -/

theorem prune_loop_spec (ws : Int) :
    ∀ (n i v : Nat) (ts : List Int), v ≤ i → i + n ≤ ts.length →
      prune_loop ws n i v ts =
        some (v + (survivors ws ((ts.drop i).take n)).length,
              ts.take v ++ survivors ws ((ts.drop i).take n)
                ++ ts.drop (v + (survivors ws ((ts.drop i).take n)).length)) := by
  intro n
  induction n with
  | zero =>
    intro i v ts _ _
    simp [prune_loop, survivors]
  | succ n ih =>
    intro i v ts hvi hlen
    have hi : i < ts.length := by omega
    have hdrop : (ts.drop i).take (n + 1) = ts[i] :: (ts.drop (i + 1)).take n := by
      rw [List.drop_eq_getElem_cons hi, List.take_succ_cons]
    rw [prune_loop, List.getElem?_eq_getElem hi, hdrop]
    by_cases ht : ts[i] > ws
    · have hv : v < ts.length := by omega
      have h1 : ((ts.set v ts[i]).drop (i + 1)) = ts.drop (i + 1) :=
        List.drop_set_of_lt _ _ (by omega)
      have h2 : ∀ k, ((ts.set v ts[i]).drop (v + 1 + k)) = ts.drop (v + 1 + k) :=
        fun k => List.drop_set_of_lt _ _ (by omega)
      have h3 : (ts.set v ts[i]).take (v + 1) = ts.take v ++ [ts[i]] := by
        rw [List.take_succ, List.set_take, List.set_eq_of_length_le (by simp)]
        simp [List.getElem?_set, hv]
      simp only [ht, if_true]
      rw [ih (i + 1) (v + 1) (ts.set v ts[i]) (by omega) (by simp; omega), h1, h2, h3]
      simp [survivors, ht, Nat.add_assoc, Nat.add_comm 1]
    · simp only [ht, if_false]
      rw [ih (i + 1) v ts (by omega) (by omega)]
      simp [survivors, ht]

theorem survivors_length_le (ws : Int) (ts : List Int) : (survivors ws ts).length ≤ ts.length :=
  List.length_filter_le _ _

theorem live_length_le (node : HT_Node) : node.live.length ≤ node.count := by
  simp [HT_Node.live, List.length_take]

theorem live_length (node : HT_Node) (h : node.count ≤ node.timestamps.length) :
    node.live.length = node.count := by
  simp [HT_Node.live, List.length_take, h]

/-- The loop run on a node whose `count` entries are all allocated: the kept
timestamps are moved to the front in order, the slots after them are untouched. -/
theorem prune_loop_node (ws : Int) (node : HT_Node) (h : node.count ≤ node.timestamps.length) :
    prune_loop ws node.count 0 0 node.timestamps =
      some ((survivors ws node.live).length,
            survivors ws node.live ++ node.timestamps.drop (survivors ws node.live).length) := by
  rw [prune_loop_spec ws node.count 0 0 node.timestamps (Nat.le_refl 0) (by omega)]
  simp [HT_Node.live]

theorem take_set_succ (ts : List Int) (k : Nat) (x : Int) (h : k < ts.length) :
    (ts.set k x).take (k + 1) = ts.take k ++ [x] := by
  rw [List.take_succ, List.set_take, List.set_eq_of_length_le (by simp)]
  simp [List.getElem?_set, h]

theorem realloc_array_length (junk : Nat → Int) (ts : List Int) (n : Nat) :
    (realloc_array junk ts n).length = n := by
  simp [realloc_array]

theorem realloc_array_take (junk : Nat → Int) (ts : List Int) (n k : Nat)
    (hk : k ≤ ts.length) (hn : k ≤ n) :
    (realloc_array junk ts n).take k = ts.take k := by
  apply List.ext_getElem?
  intro j
  by_cases hj : j < k
  · have h1 : j < n := by omega
    have h2 : j < ts.length := by omega
    simp [realloc_array, List.getElem?_take, hj, List.getElem?_map, List.getElem?_range h1, h2]
  · simp [List.getElem?_take, hj]

/-- The array left by the pruning loop has as many slots as before. -/
theorem pruned_length (ws : Int) (node : HT_Node) (h : node.count ≤ node.timestamps.length) :
    (survivors ws node.live ++ node.timestamps.drop (survivors ws node.live).length).length
      = node.timestamps.length := by
  have h1 := survivors_length_le ws node.live
  have h2 := live_length_le node
  simp only [List.length_append, List.length_drop]
  omega

/-! ## The chain search and `find_or_create_node` -/

theorem find_node_some (key : CString) :
    ∀ (chain before : List HT_Node) (node : HT_Node) (after : List HT_Node),
      find_node key chain = some (before, node, after) →
        chain = before ++ node :: after ∧ node.ip_address = key ∧
          ∀ m ∈ before, m.ip_address ≠ key := by
  intro chain
  induction chain with
  | nil => intro before node after h; simp [find_node] at h
  | cons c cs ih =>
    intro before node after h
    rw [find_node] at h
    by_cases hc : c.ip_address = key
    · simp only [hc, if_true, Option.some.injEq, Prod.mk.injEq] at h
      obtain ⟨rfl, rfl, rfl⟩ := h
      simp [hc]
    · simp only [hc, if_false] at h
      cases hr : find_node key cs with
      | none => simp [hr] at h
      | some r =>
        obtain ⟨b, n, a⟩ := r
        simp only [hr, Option.some.injEq, Prod.mk.injEq] at h
        obtain ⟨rfl, rfl, rfl⟩ := h
        obtain ⟨h1, h2, h3⟩ := ih b n a hr
        refine ⟨by simp [h1], h2, ?_⟩
        intro m hm
        rcases List.mem_cons.mp hm with rfl | hm
        · exact hc
        · exact h3 m hm

theorem find_node_none (key : CString) :
    ∀ chain : List HT_Node, find_node key chain = none ↔ ∀ m ∈ chain, m.ip_address ≠ key := by
  intro chain
  induction chain with
  | nil => simp [find_node]
  | cons c cs ih =>
    rw [find_node]
    by_cases hc : c.ip_address = key
    · simp [hc]
    · simp only [hc, if_false, List.mem_cons, forall_eq_or_imp, ne_eq, not_false_eq_true, true_and]
      rw [← ih]
      cases hr : find_node key cs with
      | none => simp
      | some r => obtain ⟨b, n, a⟩ := r; simp

theorem find_node_append (key : CString) (node : HT_Node) (after : List HT_Node)
    (hn : node.ip_address = key) :
    ∀ before : List HT_Node, (∀ m ∈ before, m.ip_address ≠ key) →
      find_node key (before ++ node :: after) = some (before, node, after) := by
  intro before
  induction before with
  | nil => intro _; simp [find_node, hn]
  | cons b bs ih =>
    intro h
    have hb : b.ip_address ≠ key := h b (List.mem_cons_self _ _)
    have := ih (fun m hm => h m (List.mem_cons_of_mem _ hm))
    simp [find_node, hb, this]

/-- The search is not affected by changing a node whose key is not the one
searched for. -/
theorem find_node_other (key : CString) (n n' : HT_Node) (after : List HT_Node)
    (hn : n.ip_address ≠ key) (hn' : n'.ip_address ≠ key) :
    ∀ before : List HT_Node,
      (find_node key (before ++ n' :: after)).map (fun r => r.2.1) =
        (find_node key (before ++ n :: after)).map (fun r => r.2.1) := by
  intro before
  induction before with
  | nil =>
    simp only [List.nil_append, find_node, hn, hn', if_false]
    cases find_node key after with
    | none => rfl
    | some r => obtain ⟨b, m, a⟩ := r; rfl
  | cons b bs ih =>
    simp only [List.cons_append, find_node]
    by_cases hb : b.ip_address = key
    · simp [hb]
    · simp only [hb, if_false]
      cases h1 : find_node key (bs ++ n' :: after) with
      | none =>
        cases h2 : find_node key (bs ++ n :: after) with
        | none => rfl
        | some r => rw [h1, h2] at ih; simp at ih
      | some r1 =>
        cases h2 : find_node key (bs ++ n :: after) with
        | none => rw [h1, h2] at ih; simp at ih
        | some r2 =>
          rw [h1, h2] at ih
          obtain ⟨b1, m1, a1⟩ := r1
          obtain ⟨b2, m2, a2⟩ := r2
          simpa using ih

/-- What `find_or_create_node` returns, when it returns a node: the limiter
keeps its configuration, the returned node sits in the chain of the key's
bucket after nodes with other keys, and the other buckets are unchanged. -/
theorem find_or_create_node_some (l l1 : RateLimiterC) (key : CString) (a : Alloc)
    (before : List HT_Node) (node : HT_Node) (after : List HT_Node)
    (h : find_or_create_node l key a = some (l1, before, node, after)) :
    l1.max_requests = l.max_requests ∧ l1.window_seconds = l.window_seconds ∧
    l1.table = Function.update l.table (hash_ip key) (before ++ node :: after) ∧
    (∀ m ∈ before, m.ip_address ≠ key) ∧
    ((find_node key (l.table (hash_ip key)) = some (before, node, after) ∧ l1 = l ∧
        node.ip_address = key) ∨
     (find_node key (l.table (hash_ip key)) = none ∧ before = [] ∧
        node = new_node key a.junk ∧ after = l.table (hash_ip key) ∧
        a.node_ok = true ∧ a.ts_ok = true)) := by
  unfold find_or_create_node at h
  cases hf : find_node key (l.table (hash_ip key)) with
  | some r =>
    obtain ⟨b, n, af⟩ := r
    simp only [hf, Option.some.injEq, Prod.mk.injEq] at h
    obtain ⟨rfl, rfl, rfl, rfl⟩ := h
    obtain ⟨h1, h2, h3⟩ := find_node_some key _ _ _ _ hf
    refine ⟨rfl, rfl, ?_, h3, Or.inl ⟨rfl, rfl, h2⟩⟩
    rw [← h1, Function.update_eq_self]
  | none =>
    simp only [hf] at h
    by_cases h1 : a.node_ok = false
    · simp [h1] at h
    · by_cases h2 : a.ts_ok = false
      · simp [h1, h2] at h
      · simp only [h1, h2, if_false, Option.some.injEq, Prod.mk.injEq] at h
        obtain ⟨rfl, rfl, rfl, rfl⟩ := h
        refine ⟨rfl, rfl, by simp, by simp, Or.inr ⟨rfl, rfl, rfl, rfl, ?_, ?_⟩⟩
        · simpa using h1
        · simpa using h2

/-- When it fails (`NULL`), `find_or_create_node` found no node and one of the
two allocations failed. -/
theorem find_or_create_node_none (l : RateLimiterC) (key : CString) (a : Alloc)
    (h : find_or_create_node l key a = none) :
    find_node key (l.table (hash_ip key)) = none ∧ (a.node_ok = false ∨ a.ts_ok = false) := by
  unfold find_or_create_node at h
  cases hf : find_node key (l.table (hash_ip key)) with
  | some r => obtain ⟨b, n, af⟩ := r; simp [hf] at h
  | none =>
    refine ⟨rfl, ?_⟩
    by_cases h1 : a.node_ok = false
    · exact Or.inl h1
    · by_cases h2 : a.ts_ok = false
      · exact Or.inr h2
      · simp [hf, h1, h2] at h

/-! ## One call of `check_rate_limit_c` -/

/-- The body of `check_rate_limit_c` after `find_or_create_node` returned a
node whose `count` entries are allocated, with the loop replaced by its result. -/
theorem check_eq (l l1 : RateLimiterC) (key : CString) (now : Int) (a : Alloc)
    (before : List HT_Node) (node : HT_Node) (after : List HT_Node)
    (h : find_or_create_node l key a = some (l1, before, node, after))
    (hc : node.count ≤ node.timestamps.length) :
    check_rate_limit_c l key now a =
      if ((pruned_node (now - l.window_seconds) node).count : Int) < l.max_requests then
        if node.capacity ≤ (pruned_node (now - l.window_seconds) node).count then
          if a.grow_ok = false then
            some (store_node l1 (hash_ip key) before
              { pruned_node (now - l.window_seconds) node with capacity := node.capacity * 2 }
              after, 1)
          else if (pruned_node (now - l.window_seconds) node).count < node.capacity * 2 then
            some (store_node l1 (hash_ip key) before
              { pruned_node (now - l.window_seconds) node with
                capacity := node.capacity * 2
                timestamps := (realloc_array a.junk
                  (pruned_node (now - l.window_seconds) node).timestamps (node.capacity * 2)).set
                    (pruned_node (now - l.window_seconds) node).count now
                count := (pruned_node (now - l.window_seconds) node).count + 1 } after, 1)
          else none
        else if (pruned_node (now - l.window_seconds) node).count < node.timestamps.length then
          some (store_node l1 (hash_ip key) before
            { pruned_node (now - l.window_seconds) node with
              timestamps := (pruned_node (now - l.window_seconds) node).timestamps.set
                (pruned_node (now - l.window_seconds) node).count now
              count := (pruned_node (now - l.window_seconds) node).count + 1 } after, 1)
        else none
      else some (store_node l1 (hash_ip key) before (pruned_node (now - l.window_seconds) node)
        after, 0) := by
  obtain ⟨hm, hw, -, -, -⟩ := find_or_create_node_some l l1 key a before node after h
  have hlen := pruned_length (now - l.window_seconds) node hc
  unfold check_rate_limit_c
  simp only [h, hw, hm, prune_loop_node _ node hc, realloc_array_length, hlen, ge_iff_le]
  rfl

theorem pruned_node_live (ws : Int) (node : HT_Node) :
    (pruned_node ws node).live = survivors ws node.live := by
  simp [pruned_node, HT_Node.live]

theorem pruned_node_count_le (ws : Int) (node : HT_Node) :
    (pruned_node ws node).count ≤ node.count :=
  Nat.le_trans (survivors_length_le ws node.live) (live_length_le node)

/-- When every stored timestamp is kept, the pruning loop changes nothing. -/
theorem pruned_node_eq_self (ws : Int) (node : HT_Node)
    (hk : node.count ≤ (pruned_node ws node).count) : pruned_node ws node = node := by
  have h1 := survivors_length_le ws node.live
  have h2 := live_length_le node
  have hk1 : node.count ≤ (survivors ws node.live).length := hk
  have h3 : (survivors ws node.live).length = node.live.length := by omega
  have h4 : survivors ws node.live = node.live :=
    List.filter_eq_self.mpr (List.filter_length_eq_length.mp h3)
  have h5 : node.live.length = node.count := by omega
  cases node with
  | mk ip ts c cap =>
    simp only [pruned_node, h4, h5]
    simp [HT_Node.live]

/-- Storing back the node that `find_or_create_node` returned, unchanged,
gives the limiter that `find_or_create_node` returned. -/
theorem store_node_same (l l1 : RateLimiterC) (key : CString) (a : Alloc)
    (before : List HT_Node) (node : HT_Node) (after : List HT_Node)
    (h : find_or_create_node l key a = some (l1, before, node, after)) :
    store_node l1 (hash_ip key) before node after = l1 := by
  obtain ⟨-, -, ht, -, -⟩ := find_or_create_node_some l l1 key a before node after h
  cases l1 with
  | mk t m w =>
    simp only [store_node, RateLimiterC.mk.injEq, and_true]
    simp only at ht
    rw [ht, Function.update_idem]

/-- Storing a node in the limiter returned by `find_or_create_node` is
storing it in the chain of the original limiter. -/
theorem store_node_table (l l1 : RateLimiterC) (key : CString) (a : Alloc)
    (before : List HT_Node) (node node1 : HT_Node) (after : List HT_Node)
    (h : find_or_create_node l key a = some (l1, before, node, after)) :
    (store_node l1 (hash_ip key) before node1 after).table =
        Function.update l.table (hash_ip key) (before ++ node1 :: after) ∧
      (store_node l1 (hash_ip key) before node1 after).max_requests = l.max_requests ∧
      (store_node l1 (hash_ip key) before node1 after).window_seconds = l.window_seconds := by
  obtain ⟨hm, hw, ht, -, -⟩ := find_or_create_node_some l l1 key a before node after h
  refine ⟨?_, hm, hw⟩
  simp only [store_node, ht, Function.update_idem]

theorem pruned_node_length (ws : Int) (node : HT_Node) (hc : node.count ≤ node.timestamps.length) :
    (pruned_node ws node).timestamps.length = node.timestamps.length :=
  pruned_length ws node hc

/-- The three ways a call that found or created a node can end: blocked with
the node pruned; allowed with the clock reading appended to the pruned node;
allowed without recording because growing the array failed. -/
theorem check_some (l l1 l2 : RateLimiterC) (key : CString) (now : Int) (a : Alloc)
    (before : List HT_Node) (node : HT_Node) (after : List HT_Node) (r : Int)
    (h : find_or_create_node l key a = some (l1, before, node, after))
    (hc : node.count ≤ node.timestamps.length)
    (hr : check_rate_limit_c l key now a = some (l2, r)) :
    ∃ node1, l2 = store_node l1 (hash_ip key) before node1 after ∧
      node1.ip_address = node.ip_address ∧
      node1.count ≤ node1.timestamps.length ∧
      ((r = 0 ∧ ¬ ((pruned_node (now - l.window_seconds) node).count : Int) < l.max_requests ∧
          node1 = pruned_node (now - l.window_seconds) node) ∨
       (r = 1 ∧ ((pruned_node (now - l.window_seconds) node).count : Int) < l.max_requests ∧
          node1.live = survivors (now - l.window_seconds) node.live ++ [now] ∧
          node1.count = (pruned_node (now - l.window_seconds) node).count + 1 ∧
          (node.capacity ≤ (pruned_node (now - l.window_seconds) node).count →
            a.grow_ok = true ∧ node1.capacity = node.capacity * 2 ∧
              node1.timestamps.length = node.capacity * 2) ∧
          (¬ node.capacity ≤ (pruned_node (now - l.window_seconds) node).count →
            node1.capacity = node.capacity ∧
              node1.timestamps.length = node.timestamps.length)) ∨
       (r = 1 ∧ ((pruned_node (now - l.window_seconds) node).count : Int) < l.max_requests ∧
          node.capacity ≤ (pruned_node (now - l.window_seconds) node).count ∧
          a.grow_ok = false ∧
          node1 = { pruned_node (now - l.window_seconds) node with
                    capacity := node.capacity * 2 })) := by
  rw [check_eq l l1 key now a before node after h hc] at hr
  have hlen := pruned_node_length (now - l.window_seconds) node hc
  have hple := pruned_node_count_le (now - l.window_seconds) node
  have hlive := pruned_node_live (now - l.window_seconds) node
  generalize hp : pruned_node (now - l.window_seconds) node = p at hr hlen hple hlive ⊢
  have hpip : p.ip_address = node.ip_address := by rw [← hp]; rfl
  have hpcap : p.capacity = node.capacity := by rw [← hp]; rfl
  by_cases hlt : (p.count : Int) < l.max_requests
  · simp only [hlt, if_true] at hr
    by_cases hcap : node.capacity ≤ p.count
    · simp only [hcap, if_true] at hr
      by_cases hg : a.grow_ok = false
      · simp only [hg, if_true, Option.some.injEq, Prod.mk.injEq] at hr
        obtain ⟨rfl, rfl⟩ := hr
        refine ⟨_, rfl, hpip, ?_, Or.inr (Or.inr ⟨rfl, hlt, hcap, hg, rfl⟩)⟩
        show p.count ≤ p.timestamps.length
        omega
      · simp only [hg, if_false] at hr
        by_cases h2 : p.count < node.capacity * 2
        · simp only [h2, if_true, Option.some.injEq, Prod.mk.injEq] at hr
          obtain ⟨rfl, rfl⟩ := hr
          refine ⟨_, rfl, hpip, ?_, Or.inr (Or.inl ⟨rfl, hlt, ?_, rfl, ?_, ?_⟩)⟩
          · simp [realloc_array_length]; omega
          · simp only [HT_Node.live]
            rw [take_set_succ _ _ _ (by rw [realloc_array_length]; exact h2),
              realloc_array_take _ _ _ _ (by omega) (by omega)]
            exact congrArg (fun x => x ++ [now]) hlive
          · intro _
            refine ⟨by simpa using hg, rfl, ?_⟩
            simp [realloc_array_length]
          · intro hn; exact absurd hcap hn
        · simp [h2] at hr
    · simp only [hcap, if_false] at hr
      by_cases h2 : p.count < node.timestamps.length
      · simp only [h2, if_true, Option.some.injEq, Prod.mk.injEq] at hr
        obtain ⟨rfl, rfl⟩ := hr
        refine ⟨_, rfl, hpip, ?_, Or.inr (Or.inl ⟨rfl, hlt, ?_, rfl, ?_, ?_⟩)⟩
        · simp; omega
        · simp only [HT_Node.live]
          rw [take_set_succ _ _ _ (by omega)]
          exact congrArg (fun x => x ++ [now]) hlive
        · intro hn; exact absurd hn hcap
        · intro _
          refine ⟨hpcap, ?_⟩
          simp [hlen]
      · simp [h2] at hr
  · simp only [hlt, if_false, Option.some.injEq, Prod.mk.injEq] at hr
    obtain ⟨rfl, rfl⟩ := hr
    refine ⟨_, rfl, hpip, ?_, Or.inl ⟨rfl, hlt, rfl⟩⟩
    omega

theorem new_node_wf (key : CString) (junk : Nat → Int) : (new_node key junk).wf := by
  simp [HT_Node.wf, new_node, fresh_array]

theorem new_node_live (key : CString) (junk : Nat → Int) : (new_node key junk).live = [] := by
  simp [HT_Node.live, new_node]

/-- With both allocations succeeding `find_or_create_node` returns a node; it
holds the timestamps recorded for the key, and it is well formed when the
nodes of the limiter are. -/
theorem find_or_create_node_ok (l : RateLimiterC) (key : CString) (a : Alloc)
    (hnode : a.node_ok = true) (hts : a.ts_ok = true) :
    ∃ l1 before node after, find_or_create_node l key a = some (l1, before, node, after) ∧
      node.live = timestamps_of l key ∧ (l.wf → node.wf) := by
  cases hf : find_node key (l.table (hash_ip key)) with
  | some r =>
    obtain ⟨b, n, af⟩ := r
    refine ⟨l, b, n, af, by simp [find_or_create_node, hf], by simp [timestamps_of, record_of, hf], ?_⟩
    intro hwf
    obtain ⟨h1, -, -⟩ := find_node_some key _ _ _ _ hf
    exact hwf (hash_ip key) n (by rw [h1]; simp)
  | none =>
    refine ⟨{ l with table := (Function.update l.table (hash_ip key)
        (new_node key a.junk :: l.table (hash_ip key))) }, [], new_node key a.junk,
      l.table (hash_ip key), by simp [find_or_create_node, hf, hnode, hts], ?_,
      fun _ => new_node_wf key a.junk⟩
    simp [timestamps_of, record_of, hf, new_node_live]

/-- On a well-formed node the call stays inside the allocation, and it returns
1 exactly when the pruned count is below the quota. -/
theorem check_defined (l l1 : RateLimiterC) (key : CString) (now : Int) (a : Alloc)
    (before : List HT_Node) (node : HT_Node) (after : List HT_Node)
    (h : find_or_create_node l key a = some (l1, before, node, after)) (hwf : node.wf) :
    ∃ l2, check_rate_limit_c l key now a =
      some (l2, if ((survivors (now - l.window_seconds) node.live).length : Int) < l.max_requests
                then 1 else 0) := by
  obtain ⟨h1, h2, h3⟩ := hwf
  have hc : node.count ≤ node.timestamps.length := by omega
  rw [check_eq l l1 key now a before node after h hc]
  have hple := pruned_node_count_le (now - l.window_seconds) node
  have hk : (pruned_node (now - l.window_seconds) node).count
      = (survivors (now - l.window_seconds) node.live).length := rfl
  rw [← hk]
  generalize pruned_node (now - l.window_seconds) node = p at hple ⊢
  by_cases hlt : (p.count : Int) < l.max_requests
  · simp only [hlt, if_true]
    by_cases hcap : node.capacity ≤ p.count
    · simp only [hcap, if_true]
      by_cases hg : a.grow_ok = false
      · simp only [hg, if_true]; exact ⟨_, rfl⟩
      · have h4 : p.count < node.capacity * 2 := by omega
        simp only [hg, if_false, h4, if_true]; exact ⟨_, rfl⟩
    · have h4 : p.count < node.timestamps.length := by omega
      simp only [hcap, if_false, h4, if_true]; exact ⟨_, rfl⟩
  · simp only [hlt, if_false]; exact ⟨_, rfl⟩

theorem prune_loop_in_bounds (ws : Int) :
    ∀ (n i v : Nat) (ts : List Int) (res : Nat × List Int),
      prune_loop ws n i v ts = some res → n = 0 ∨ i + n ≤ ts.length := by
  intro n
  induction n with
  | zero => intro i v ts res _; exact Or.inl rfl
  | succ n ih =>
    intro i v ts res h
    right
    rw [prune_loop] at h
    cases hi : ts[i]? with
    | none => simp [hi] at h
    | some t =>
      have hlt : i < ts.length := by
        by_contra hcon
        rw [List.getElem?_eq_none (by omega)] at hi
        exact Option.noConfusion hi
      simp only [hi] at h
      by_cases ht : t > ws
      · simp only [ht, if_true] at h
        rcases ih _ _ _ _ h with h0 | h1
        · omega
        · simp at h1; omega
      · simp only [ht, if_false] at h
        rcases ih _ _ _ _ h with h0 | h1
        · omega
        · omega

/-- A call that has a result read only allocated slots of the node. -/
theorem check_in_bounds (l l1 l2 : RateLimiterC) (key : CString) (now : Int) (a : Alloc)
    (before : List HT_Node) (node : HT_Node) (after : List HT_Node) (r : Int)
    (h : find_or_create_node l key a = some (l1, before, node, after))
    (hr : check_rate_limit_c l key now a = some (l2, r)) :
    node.count ≤ node.timestamps.length := by
  unfold check_rate_limit_c at hr
  simp only [h] at hr
  cases hp : prune_loop (now - l1.window_seconds) node.count 0 0 node.timestamps with
  | none => simp [hp] at hr
  | some res =>
    rcases prune_loop_in_bounds _ _ _ _ _ _ hp with h0 | h1
    · omega
    · omega

/-- A call without a node (`find_or_create_node` returned `NULL`) is blocked
and changes nothing. -/
theorem check_null (l : RateLimiterC) (key : CString) (now : Int) (a : Alloc)
    (h : find_or_create_node l key a = none) :
    check_rate_limit_c l key now a = some (l, 0) := by
  simp [check_rate_limit_c, h]

theorem node_ip_eq (l l1 : RateLimiterC) (key : CString) (a : Alloc)
    (before : List HT_Node) (node : HT_Node) (after : List HT_Node)
    (h : find_or_create_node l key a = some (l1, before, node, after))
    (hkey : key.length ≤ MAX_IP_LEN - 1) : node.ip_address = key := by
  obtain ⟨-, -, -, -, hcase⟩ := find_or_create_node_some l l1 key a before node after h
  rcases hcase with ⟨-, -, hip⟩ | ⟨-, -, rfl, -, -, -⟩
  · exact hip
  · exact List.take_of_length_le hkey

theorem timestamps_of_chain (l : RateLimiterC) (key : CString)
    (before : List HT_Node) (node : HT_Node) (after : List HT_Node)
    (ht : l.table (hash_ip key) = before ++ node :: after)
    (hb : ∀ m ∈ before, m.ip_address ≠ key) (hn : node.ip_address = key) :
    timestamps_of l key = node.live := by
  simp [timestamps_of, record_of, ht, find_node_append key node after hn before hb]

theorem fresh_limiter_wf (m w : Int) : (fresh_limiter m w).wf := by
  intro i node h
  simp [fresh_limiter] at h

/-- The nodes around the node returned by `find_or_create_node` are nodes of
the key's chain in the original limiter, and the returned node is one of them
or the new node. -/
theorem find_or_create_node_mem (l l1 : RateLimiterC) (key : CString) (a : Alloc)
    (before : List HT_Node) (node : HT_Node) (after : List HT_Node)
    (h : find_or_create_node l key a = some (l1, before, node, after)) :
    (∀ m ∈ before ++ after, m ∈ l.table (hash_ip key)) ∧
      (node ∈ l.table (hash_ip key) ∨ node = new_node key a.junk) := by
  obtain ⟨-, -, -, -, hcase⟩ := find_or_create_node_some l l1 key a before node after h
  rcases hcase with ⟨hf, -, -⟩ | ⟨-, rfl, hn, rfl, -, -⟩
  · obtain ⟨h1, -, -⟩ := find_node_some key _ _ _ _ hf
    rw [h1]
    refine ⟨?_, Or.inl (by simp)⟩
    intro m hm
    rcases List.mem_append.mp hm with hm | hm
    · exact List.mem_append_left _ hm
    · exact List.mem_append_right _ (List.mem_cons_of_mem _ hm)
  · exact ⟨fun m hm => by simpa using hm, Or.inr hn⟩

/-- One call keeps the configuration, and keeps every count within the
allocation and within a non-negative quota. -/
theorem check_bounded (l l2 : RateLimiterC) (key : CString) (now : Int) (a : Alloc) (r : Int)
    (hb : l.bounded) (hm : 0 ≤ l.max_requests)
    (hr : check_rate_limit_c l key now a = some (l2, r)) :
    l2.bounded ∧ l2.max_requests = l.max_requests ∧ l2.window_seconds = l.window_seconds := by
  cases hf : find_or_create_node l key a with
  | none =>
    rw [check_null l key now a hf] at hr
    simp only [Option.some.injEq, Prod.mk.injEq] at hr
    obtain ⟨rfl, -⟩ := hr
    exact ⟨hb, rfl, rfl⟩
  | some res =>
    obtain ⟨l1, before, node, after⟩ := res
    have hc := check_in_bounds l l1 l2 key now a before node after r hf hr
    obtain ⟨node1, hl2, -, hc1, hcase⟩ := check_some l l1 l2 key now a before node after r hf hc hr
    obtain ⟨ht, hmax, hwin⟩ := store_node_table l l1 key a before node node1 after hf
    rw [← hl2] at ht hmax hwin
    obtain ⟨hmem, hnode⟩ := find_or_create_node_mem l l1 key a before node after hf
    have hnb : (node.count : Int) ≤ l.max_requests := by
      rcases hnode with hin | rfl
      · exact (hb _ node hin).2
      · simpa [new_node] using hm
    have hple := pruned_node_count_le (now - l.window_seconds) node
    have hn1 : (node1.count : Int) ≤ l.max_requests := by
      rcases hcase with ⟨-, -, rfl⟩ | ⟨-, hlt, -, hcnt, -⟩ | ⟨-, hlt, -, -, rfl⟩
      · omega
      · omega
      · show ((pruned_node (now - l.window_seconds) node).count : Int) ≤ l.max_requests
        omega
    refine ⟨?_, hmax, hwin⟩
    intro i m hmi
    rw [hmax]
    rw [ht] at hmi
    by_cases hi : i = hash_ip key
    · subst hi
      rw [Function.update_same] at hmi
      rcases List.mem_append.mp hmi with hmb | hma
      · exact hb _ m (hmem m (List.mem_append_left _ hmb))
      · rcases List.mem_cons.mp hma with rfl | hma
        · exact ⟨hc1, hn1⟩
        · exact hb _ m (hmem m (List.mem_append_right _ hma))
    · rw [Function.update_noteq hi] at hmi
      exact hb i m hmi

/-- In every limiter reached from a fresh one with a non-negative quota by
calls of `check_rate_limit_c` (whatever the keys, clock readings and allocator
outcomes), the configuration is the initial one and every count is within
the allocation and within the quota. -/
theorem run_bounded (calls : List Call) :
    ∀ (l l2 : RateLimiterC) (rs : List Int), l.bounded → 0 ≤ l.max_requests →
      run l calls = some (l2, rs) →
      l2.bounded ∧ l2.max_requests = l.max_requests ∧ l2.window_seconds = l.window_seconds := by
  induction calls with
  | nil =>
    intro l l2 rs hb _ hrun
    simp only [run, Option.some.injEq, Prod.mk.injEq] at hrun
    obtain ⟨rfl, -⟩ := hrun
    exact ⟨hb, rfl, rfl⟩
  | cons c cs ih =>
    intro l l2 rs hb hm hrun
    rw [run] at hrun
    cases hc : check_rate_limit_c l c.ip_address c.current_time c.alloc with
    | none => simp [hc] at hrun
    | some res =>
      obtain ⟨l1, r⟩ := res
      simp only [hc] at hrun
      cases hrest : run l1 cs with
      | none => simp [hrest] at hrun
      | some res2 =>
        obtain ⟨l3, rs2⟩ := res2
        simp only [hrest, Option.some.injEq, Prod.mk.injEq] at hrun
        obtain ⟨rfl, -⟩ := hrun
        obtain ⟨hb1, hm1, hw1⟩ := check_bounded l l1 c.ip_address c.current_time c.alloc r hb hm hc
        obtain ⟨hb3, hm3, hw3⟩ := ih l1 l3 rs2 hb1 (by rw [hm1]; exact hm) hrest
        exact ⟨hb3, by rw [hm3, hm1], by rw [hw3, hw1]⟩

theorem fresh_limiter_bounded (m w : Int) : (fresh_limiter m w).bounded := by
  intro i node h
  simp [fresh_limiter] at h

/-- A blocked call on a limiter whose counts are within a positive quota
changes nothing. -/
theorem deny_unchanged (l l2 : RateLimiterC) (key : CString) (now : Int) (a : Alloc)
    (hb : l.bounded) (hm : 1 ≤ l.max_requests)
    (hr : check_rate_limit_c l key now a = some (l2, 0)) : l2 = l := by
  cases hf : find_or_create_node l key a with
  | none =>
    rw [check_null l key now a hf] at hr
    simp only [Option.some.injEq, Prod.mk.injEq] at hr
    exact hr.1.symm
  | some res =>
    obtain ⟨l1, before, node, after⟩ := res
    have hc := check_in_bounds l l1 l2 key now a before node after 0 hf hr
    obtain ⟨node1, hl2, -, -, hcase⟩ := check_some l l1 l2 key now a before node after 0 hf hc hr
    rcases hcase with ⟨-, hge, rfl⟩ | ⟨h1, -⟩ | ⟨h1, -⟩
    · obtain ⟨-, hnode⟩ := find_or_create_node_mem l l1 key a before node after hf
      obtain ⟨-, -, -, -, hcase2⟩ := find_or_create_node_some l l1 key a before node after hf
      rcases hcase2 with ⟨hfound, hl1, -⟩ | ⟨-, -, hnew, -, -, -⟩
      · obtain ⟨h1, -, -⟩ := find_node_some key _ _ _ _ hfound
        have hnb := (hb _ node (by rw [h1]; simp)).2
        have hself := pruned_node_eq_self (now - l.window_seconds) node (by omega)
        rw [hself, store_node_same l l1 key a before node after hf] at hl2
        rw [hl2, hl1]
      · exfalso
        apply hge
        have h0 : (pruned_node (now - l.window_seconds) node).count = 0 := by
          have hle := pruned_node_count_le (now - l.window_seconds) node
          have hz : node.count = 0 := by rw [hnew]; rfl
          omega
        rw [h0]
        omega
    · exact absurd h1 (by decide)
    · exact absurd h1 (by decide)

theorem init_limiter_some (calloc_ok : Bool) (m w : Int) (l0 : RateLimiterC)
    (h : init_limiter calloc_ok m w = some l0) : l0 = fresh_limiter m w := by
  cases calloc_ok with
  | false => simp [init_limiter] at h
  | true =>
    simp only [init_limiter, Bool.true_eq_false, if_false, Option.some.injEq] at h
    exact h.symm

/-- C4 (deny does not mutate). For `max_requests >= 1`, in every limiter
reached from the one `init_limiter` builds by calls of `check_rate_limit_c`
(any keys, clock readings and allocator outcomes), a call that returns 0
leaves the whole limiter unchanged: the same chains with the same nodes,
keys, counts and timestamp arrays. -/
theorem deny_does_not_mutate (calloc_ok : Bool) (max_requests window_seconds : Int)
    (hm : 1 ≤ max_requests) (l0 : RateLimiterC)
    (hinit : init_limiter calloc_ok max_requests window_seconds = some l0)
    (calls : List Call) (l : RateLimiterC) (rs : List Int)
    (hrun : run l0 calls = some (l, rs))
    (key : CString) (now : Int) (a : Alloc) (l2 : RateLimiterC)
    (hr : check_rate_limit_c l key now a = some (l2, 0)) : l2 = l := by
  rw [init_limiter_some calloc_ok _ _ l0 hinit] at hrun
  obtain ⟨hb, hmax, -⟩ := run_bounded calls (fresh_limiter max_requests window_seconds) l rs
    (fresh_limiter_bounded _ _) (by show (0 : Int) ≤ max_requests; omega) hrun
  exact deny_unchanged l l2 key now a hb (by rw [hmax]; exact hm) hr

/-- Witness of C4: with a quota of 1, the second call for the key of `main` is
blocked and leaves the limiter as the first call left it. -/
theorem deny_does_not_mutate_witness :
    (1 : Int) ≤ 1 ∧
    init_limiter true 1 10 = some (fresh_limiter 1 10) ∧
    run (fresh_limiter 1 10) [⟨key_main, 0, alloc_ok⟩] = some (limiter_one, [1]) ∧
    check_rate_limit_c limiter_one key_main 3 alloc_ok =
      some (limiter_after limiter_one key_main 3 alloc_ok, 0) ∧
    limiter_after limiter_one key_main 3 alloc_ok = limiter_one :=
  ⟨by decide, rfl, rfl, rfl,
    deny_does_not_mutate true 1 10 (by decide) (fresh_limiter 1 10) rfl
      [⟨key_main, 0, alloc_ok⟩] limiter_one [1] rfl key_main 3 alloc_ok _ rfl⟩

/-! ## Calls on well-formed limiters -/

/-- A property of all nodes still holds after the node returned by
`find_or_create_node` was replaced by a node that has it. -/
theorem store_node_forall (P : HT_Node → Prop) (l l1 : RateLimiterC) (key : CString) (a : Alloc)
    (before : List HT_Node) (node node1 : HT_Node) (after : List HT_Node)
    (h : find_or_create_node l key a = some (l1, before, node, after))
    (hall : ∀ i, ∀ m ∈ l.table i, P m) (h1 : P node1) :
    ∀ i, ∀ m ∈ (store_node l1 (hash_ip key) before node1 after).table i, P m := by
  obtain ⟨ht, -, -⟩ := store_node_table l l1 key a before node node1 after h
  obtain ⟨hmem, -⟩ := find_or_create_node_mem l l1 key a before node after h
  intro i m hmi
  rw [ht] at hmi
  by_cases hi : i = hash_ip key
  · subst hi
    rw [Function.update_same] at hmi
    rcases List.mem_append.mp hmi with hmb | hma
    · exact hall _ m (hmem m (List.mem_append_left _ hmb))
    · rcases List.mem_cons.mp hma with rfl | hma
      · exact h1
      · exact hall _ m (hmem m (List.mem_append_right _ hma))
  · rw [Function.update_noteq hi] at hmi
    exact hall i m hmi

/-- The node returned by `find_or_create_node` carries the key itself when the
key has at most 15 characters or already has timestamps recorded. -/
theorem node_ip_eq_of_record (l l1 : RateLimiterC) (key : CString) (a : Alloc)
    (before : List HT_Node) (node : HT_Node) (after : List HT_Node)
    (h : find_or_create_node l key a = some (l1, before, node, after))
    (hkey : key.length ≤ MAX_IP_LEN - 1 ∨ timestamps_of l key ≠ []) :
    node.ip_address = key := by
  rcases hkey with hkey | hrec
  · exact node_ip_eq l l1 key a before node after h hkey
  · obtain ⟨-, -, -, -, hcase⟩ := find_or_create_node_some l l1 key a before node after h
    rcases hcase with ⟨-, -, hip⟩ | ⟨hf, -, -, -, -, -⟩
    · exact hip
    · exfalso
      apply hrec
      simp [timestamps_of, record_of, hf]

/-- One call on a well-formed limiter for a key that has at most 15 characters
or already has timestamps recorded, all allocations succeeding: the call has
a result, the limiter stays well formed with the same configuration, and the
timestamps recorded for the key become the ones later than
`now - window_seconds`, followed by `now` when their number was below the
quota (result 1), unchanged otherwise (result 0). -/
theorem check_step_of_record (l : RateLimiterC) (key : CString) (now : Int) (a : Alloc)
    (hwf : l.wf) (hkey : key.length ≤ MAX_IP_LEN - 1 ∨ timestamps_of l key ≠ [])
    (hnode : a.node_ok = true) (hts : a.ts_ok = true) (hgrow : a.grow_ok = true) :
    ∃ l2, check_rate_limit_c l key now a =
        some (l2, if ((survivors (now - l.window_seconds) (timestamps_of l key)).length : Int)
                      < l.max_requests then 1 else 0) ∧
      l2.wf ∧ l2.max_requests = l.max_requests ∧ l2.window_seconds = l.window_seconds ∧
      timestamps_of l2 key =
        if ((survivors (now - l.window_seconds) (timestamps_of l key)).length : Int)
            < l.max_requests
        then survivors (now - l.window_seconds) (timestamps_of l key) ++ [now]
        else survivors (now - l.window_seconds) (timestamps_of l key) := by
  obtain ⟨l1, before, node, after, hf, hlive, hnwf⟩ := find_or_create_node_ok l key a hnode hts
  have hnw := hnwf hwf
  obtain ⟨l2, h2⟩ := check_defined l l1 key now a before node after hf hnw
  have hc : node.count ≤ node.timestamps.length := by
    obtain ⟨h1, -, h3⟩ := hnw; omega
  obtain ⟨node1, hl2, hip, hc1, hcase⟩ := check_some l l1 l2 key now a before node after _ hf hc h2
  obtain ⟨ht, hmax, hwin⟩ := store_node_table l l1 key a before node node1 after hf
  obtain ⟨-, -, -, hb, -⟩ := find_or_create_node_some l l1 key a before node after hf
  have hple := pruned_node_count_le (now - l.window_seconds) node
  have hlen := pruned_node_length (now - l.window_seconds) node hc
  have hk : (pruned_node (now - l.window_seconds) node).count
      = (survivors (now - l.window_seconds) node.live).length := rfl
  rw [← hlive]
  have hts2 : timestamps_of l2 key = node1.live :=
    timestamps_of_chain l2 key before node1 after (by rw [hl2, ht]; simp) hb
      (by rw [hip]; exact node_ip_eq_of_record l l1 key a before node after hf hkey)
  obtain ⟨w1, w2, w3⟩ := hnw
  refine ⟨l2, h2, ?_, by rw [hl2]; exact hmax, by rw [hl2]; exact hwin, ?_⟩
  · rw [hl2]
    apply store_node_forall HT_Node.wf l l1 key a before node node1 after hf hwf
    rcases hcase with ⟨-, -, rfl⟩ | ⟨-, -, -, hcnt, hgrowcase, hnogrow⟩ | ⟨-, -, -, hgf, -⟩
    · refine ⟨?_, w2, ?_⟩
      · show (pruned_node (now - l.window_seconds) node).count ≤ node.capacity
        omega
      · show node.capacity = (pruned_node (now - l.window_seconds) node).timestamps.length
        omega
    · by_cases hcap : node.capacity ≤ (pruned_node (now - l.window_seconds) node).count
      · obtain ⟨-, hc2, hl3⟩ := hgrowcase hcap
        exact ⟨by omega, by omega, by omega⟩
      · obtain ⟨hc2, hl3⟩ := hnogrow hcap
        exact ⟨by omega, by omega, by omega⟩
    · rw [hgrow] at hgf; exact absurd hgf (by decide)
  · rw [hts2]
    rcases hcase with ⟨-, hge, rfl⟩ | ⟨-, hlt, hl, -⟩ | ⟨-, -, -, hgf, -⟩
    · rw [hk] at hge
      rw [if_neg hge, pruned_node_live]
    · rw [hk] at hlt
      rw [if_pos hlt, hl]
    · rw [hgrow] at hgf; exact absurd hgf (by decide)

/-- One call for a key of at most 15 characters on a well-formed limiter,
all allocations succeeding: the call has a result, the limiter stays well
formed with the same configuration, and the timestamps recorded for the key
become the ones later than `now - window_seconds`, followed by `now` when
their number was below the quota (result 1), unchanged otherwise (result 0). -/
theorem check_step (l : RateLimiterC) (key : CString) (now : Int) (a : Alloc)
    (hwf : l.wf) (hkey : key.length ≤ MAX_IP_LEN - 1)
    (hnode : a.node_ok = true) (hts : a.ts_ok = true) (hgrow : a.grow_ok = true) :
    ∃ l2, check_rate_limit_c l key now a =
        some (l2, if ((survivors (now - l.window_seconds) (timestamps_of l key)).length : Int)
                      < l.max_requests then 1 else 0) ∧
      l2.wf ∧ l2.max_requests = l.max_requests ∧ l2.window_seconds = l.window_seconds ∧
      timestamps_of l2 key =
        if ((survivors (now - l.window_seconds) (timestamps_of l key)).length : Int)
            < l.max_requests
        then survivors (now - l.window_seconds) (timestamps_of l key) ++ [now]
        else survivors (now - l.window_seconds) (timestamps_of l key) :=
  check_step_of_record l key now a hwf (Or.inl hkey) hnode hts hgrow

/-! ## Boundary, configuration, growth failure -/

/-- C5 (the old side of the window is exclusive). In every call that has a
result, the timestamps kept in the record the call worked on are exactly the
former ones later than `now - window_seconds`, in order: a timestamp equal to
`now - window_seconds` is removed and not counted, every timestamp equal to
`now - window_seconds + 1` is kept and counted; the result is 1 exactly when
the number of kept timestamps is below `max_requests`, and the record
afterwards holds the kept timestamps, followed by `now` or not. -/
theorem boundary_exclusive (l l1 l2 : RateLimiterC) (key : CString) (now : Int) (a : Alloc)
    (before : List HT_Node) (node : HT_Node) (after : List HT_Node) (r : Int)
    (hf : find_or_create_node l key a = some (l1, before, node, after))
    (hr : check_rate_limit_c l key now a = some (l2, r)) :
    ∃ node1 kept,
      l2 = store_node l1 (hash_ip key) before node1 after ∧
      (node1.live = kept ∨ node1.live = kept ++ [now]) ∧
      kept.Sublist node.live ∧
      (∀ t, t ∈ kept ↔ (t ∈ node.live ∧ now - l.window_seconds < t)) ∧
      kept.count (now - l.window_seconds) = 0 ∧
      kept.count (now - l.window_seconds + 1) = node.live.count (now - l.window_seconds + 1) ∧
      (r = 1 ↔ (kept.length : Int) < l.max_requests) ∧ (r = 0 ∨ r = 1) := by
  have hc := check_in_bounds l l1 l2 key now a before node after r hf hr
  obtain ⟨node1, hl2, -, -, hcase⟩ := check_some l l1 l2 key now a before node after r hf hc hr
  have hk : (pruned_node (now - l.window_seconds) node).count
      = (survivors (now - l.window_seconds) node.live).length := rfl
  rw [hk] at hcase
  refine ⟨node1, survivors (now - l.window_seconds) node.live, hl2, ?_, List.filter_sublist _,
    ?_, ?_, ?_, ?_, ?_⟩
  · rcases hcase with ⟨-, -, rfl⟩ | ⟨-, -, h1, -⟩ | ⟨-, -, -, -, rfl⟩
    · exact Or.inl (pruned_node_live _ _)
    · exact Or.inr h1
    · exact Or.inl (pruned_node_live _ _)
  · intro t
    simp [survivors, List.mem_filter]
  · rw [List.count_eq_zero]
    intro hmem
    simp [survivors, List.mem_filter] at hmem
  · simp only [survivors]
    rw [List.count_filter]
    simp
  · rcases hcase with ⟨h0, hge, -⟩ | ⟨h1, hlt, -⟩ | ⟨h1, hlt, -⟩
    · subst h0
      constructor
      · intro h; exact absurd h (by decide)
      · intro h; exact absurd h hge
    · exact ⟨fun _ => hlt, fun _ => h1⟩
    · exact ⟨fun _ => hlt, fun _ => h1⟩
  · rcases hcase with ⟨h0, -⟩ | ⟨h1, -⟩ | ⟨h1, -⟩
    · exact Or.inl h0
    · exact Or.inr h1
    · exact Or.inr h1

/-- Witness of C5: with a window of 10 seconds, the timestamp 0 recorded for
`key_main` is exactly `now - window_seconds` in a call at reading 10. -/
theorem boundary_exclusive_witness :
    find_or_create_node limiter_one key_main alloc_ok = some (limiter_one, [], node_one, []) ∧
    check_rate_limit_c limiter_one key_main 10 alloc_ok =
      some (limiter_after limiter_one key_main 10 alloc_ok, 1) ∧
    ∃ node1 kept,
      limiter_after limiter_one key_main 10 alloc_ok
        = store_node limiter_one (hash_ip key_main) [] node1 [] ∧
      (node1.live = kept ∨ node1.live = kept ++ [10]) ∧
      kept.Sublist node_one.live ∧
      (∀ t, t ∈ kept ↔ (t ∈ node_one.live ∧ 10 - limiter_one.window_seconds < t)) ∧
      kept.count (10 - limiter_one.window_seconds) = 0 ∧
      kept.count (10 - limiter_one.window_seconds + 1)
        = node_one.live.count (10 - limiter_one.window_seconds + 1) ∧
      ((1 : Int) = 1 ↔ (kept.length : Int) < limiter_one.max_requests) ∧
      ((1 : Int) = 0 ∨ (1 : Int) = 1) :=
  ⟨rfl, rfl, boundary_exclusive limiter_one limiter_one _ key_main 10 alloc_ok [] node_one [] 1
    rfl rfl⟩

/-- C7, as the code has it. `init_limiter` does not validate its arguments:
for all values of `max_requests` and `window_seconds`, non-positive ones
included, it produces a limiter with 1024 empty buckets that stores the two
values as given; it fails only when the allocation of the table fails. -/
theorem init_limiter_no_validation (calloc_ok : Bool) (max_requests window_seconds : Int) :
    init_limiter calloc_ok max_requests window_seconds =
      if calloc_ok = true then
        some { table := fun _ => [], max_requests := max_requests,
               window_seconds := window_seconds }
      else none := by
  cases calloc_ok <;> rfl

/-- C7 fails as stated: `init_limiter` with (0, 10) and with (5, 0) produces a
limiter. -/
theorem init_limiter_accepts_nonpositive :
    init_limiter true 0 10 = some (fresh_limiter 0 10) ∧
    init_limiter true 5 0 = some (fresh_limiter 5 0) :=
  ⟨rfl, rfl⟩

/-- C8 (fail-open on growth failure). When the number of kept timestamps is
below `max_requests`, the array is full (`count >= capacity` after pruning)
and `realloc` fails, `check_rate_limit_c` returns 1 and records nothing: the
record holds exactly the kept timestamps and its count is their number (the
`capacity` field is doubled all the same, the array keeps its size). -/
theorem fail_open_on_growth_failure (l l1 : RateLimiterC) (key : CString) (now : Int) (a : Alloc)
    (before : List HT_Node) (node : HT_Node) (after : List HT_Node)
    (hf : find_or_create_node l key a = some (l1, before, node, after))
    (hc : node.count ≤ node.timestamps.length)
    (hlt : ((survivors (now - l.window_seconds) node.live).length : Int) < l.max_requests)
    (hfull : node.capacity ≤ (survivors (now - l.window_seconds) node.live).length)
    (hg : a.grow_ok = false) :
    ∃ node1,
      check_rate_limit_c l key now a = some (store_node l1 (hash_ip key) before node1 after, 1) ∧
      node1.ip_address = node.ip_address ∧
      node1.live = survivors (now - l.window_seconds) node.live ∧
      node1.count = (survivors (now - l.window_seconds) node.live).length ∧
      node1.capacity = node.capacity * 2 ∧
      node1.timestamps.length = node.timestamps.length := by
  have hk : (pruned_node (now - l.window_seconds) node).count
      = (survivors (now - l.window_seconds) node.live).length := rfl
  refine ⟨{ pruned_node (now - l.window_seconds) node with capacity := node.capacity * 2 },
    ?_, rfl, pruned_node_live _ _, rfl, rfl, pruned_node_length _ _ hc⟩
  rw [check_eq l l1 key now a before node after hf hc, hk, if_pos hlt, if_pos hfull, if_pos hg]

/-- Witness of C8: the ninth call for `key_main` with a quota of 9, when the
eight slots of the record are in use and `realloc` fails. -/
theorem fail_open_on_growth_failure_witness :
    find_or_create_node limiter_eight key_main alloc_grow_fails
      = some (limiter_eight, [], node_eight, []) ∧
    node_eight.count ≤ node_eight.timestamps.length ∧
    ((survivors (5 - limiter_eight.window_seconds) node_eight.live).length : Int)
      < limiter_eight.max_requests ∧
    node_eight.capacity ≤ (survivors (5 - limiter_eight.window_seconds) node_eight.live).length ∧
    alloc_grow_fails.grow_ok = false ∧
    ∃ node1,
      check_rate_limit_c limiter_eight key_main 5 alloc_grow_fails
        = some (store_node limiter_eight (hash_ip key_main) [] node1 [], 1) ∧
      node1.ip_address = node_eight.ip_address ∧
      node1.live = survivors (5 - limiter_eight.window_seconds) node_eight.live ∧
      node1.count = (survivors (5 - limiter_eight.window_seconds) node_eight.live).length ∧
      node1.capacity = node_eight.capacity * 2 ∧
      node1.timestamps.length = node_eight.timestamps.length :=
  ⟨rfl, by decide, by decide, by decide, rfl,
    fail_open_on_growth_failure limiter_eight limiter_eight key_main 5 alloc_grow_fails
      [] node_eight [] rfl (by decide) (by decide) (by decide) rfl⟩

/-! ## Bursts of calls for one key -/

theorem survivors_eq_self (ws : Int) (ts : List Int) (h : ∀ t ∈ ts, ws < t) :
    survivors ws ts = ts := by
  apply List.filter_eq_self.mpr
  intro t ht
  simpa using h t ht

/-- Calls for one key of at most 15 characters, all allocations succeeding,
with clock readings in an interval `[t0, t0 + window_seconds)`, on a
well-formed limiter whose timestamps for the key are not before `t0`: the
calls return 1 until the record holds `max_requests` timestamps and 0 from
then on. -/
theorem burst (key : CString) (hkey : key.length ≤ MAX_IP_LEN - 1) (t0 : Int) :
    ∀ (calls : List Call) (l : RateLimiterC), l.wf →
      (∀ c ∈ calls, c.ip_address = key ∧ c.alloc.node_ok = true ∧ c.alloc.ts_ok = true ∧
        c.alloc.grow_ok = true ∧ t0 ≤ c.current_time ∧
        c.current_time < t0 + l.window_seconds) →
      (∀ t ∈ timestamps_of l key, t0 ≤ t) →
      ∃ l2, run l calls =
        some (l2,
          List.replicate (min calls.length (l.max_requests.toNat - (timestamps_of l key).length)) 1
            ++ List.replicate
              (calls.length - (l.max_requests.toNat - (timestamps_of l key).length)) 0) := by
  intro calls
  induction calls with
  | nil => intro l _ _ _; exact ⟨l, by simp [run]⟩
  | cons c cs ih =>
    intro l hwf hcalls hts
    obtain ⟨hk, hn, htsok, hg, hlo, hhi⟩ := hcalls c (List.mem_cons_self _ _)
    obtain ⟨l1, hcheck, hwf1, hmax1, hwin1, hts1⟩ :=
      check_step l c.ip_address c.current_time c.alloc hwf (by rw [hk]; exact hkey) hn htsok hg
    rw [hk] at hcheck hts1
    have hsurv : survivors (c.current_time - l.window_seconds) (timestamps_of l key)
        = timestamps_of l key :=
      survivors_eq_self _ _ (fun t ht => by have := hts t ht; omega)
    rw [hsurv] at hcheck hts1
    have hcs : ∀ c' ∈ cs, c'.ip_address = key ∧ c'.alloc.node_ok = true ∧
        c'.alloc.ts_ok = true ∧ c'.alloc.grow_ok = true ∧ t0 ≤ c'.current_time ∧
        c'.current_time < t0 + l1.window_seconds := by
      intro c' hc'
      rw [hwin1]
      exact hcalls c' (List.mem_cons_of_mem _ hc')
    by_cases hlt : ((timestamps_of l key).length : Int) < l.max_requests
    · rw [if_pos hlt] at hcheck hts1
      have hts1' : ∀ t ∈ timestamps_of l1 key, t0 ≤ t := by
        intro t ht
        rw [hts1] at ht
        rcases List.mem_append.mp ht with h | h
        · exact hts t h
        · simp at h; omega
      obtain ⟨l2, hrun⟩ := ih l1 hwf1 hcs hts1'
      refine ⟨l2, ?_⟩
      rw [run, hk, hcheck]
      simp only [hrun, hts1, hmax1, List.length_append, List.length_singleton, List.length_cons]
      have e1 : min (cs.length + 1) (l.max_requests.toNat - (timestamps_of l key).length)
          = min cs.length (l.max_requests.toNat - ((timestamps_of l key).length + 1)) + 1 := by
        omega
      have e2 : cs.length + 1 - (l.max_requests.toNat - (timestamps_of l key).length)
          = cs.length - (l.max_requests.toNat - ((timestamps_of l key).length + 1)) := by
        omega
      rw [e1, e2, List.replicate_succ]
      rfl
    · rw [if_neg hlt] at hcheck hts1
      have hts1' : ∀ t ∈ timestamps_of l1 key, t0 ≤ t := by
        intro t ht
        rw [hts1] at ht
        exact hts t ht
      obtain ⟨l2, hrun⟩ := ih l1 hwf1 hcs hts1'
      refine ⟨l2, ?_⟩
      rw [run, hk, hcheck]
      simp only [hrun, hts1, hmax1, List.length_cons]
      have e0 : l.max_requests.toNat - (timestamps_of l key).length = 0 := by omega
      rw [e0]
      simp [List.replicate_succ]

theorem timestamps_of_fresh (m w : Int) (key : CString) :
    timestamps_of (fresh_limiter m w) key = [] := by
  simp [timestamps_of, record_of, fresh_limiter, find_node]

/-- C10 (scenario A). `init_limiter` with `max_requests = 5` and a window of
10 seconds gives a limiter on which seven successive calls for one key of at
most 15 characters (the key of `main` has 11), allocations succeeding, whose
whole-second clock readings lie within less than one window of each other
(as the readings of seven calls made 0.1 s apart do), return 1 for calls 1
to 5 and 0 for calls 6 and 7. -/
theorem scenario_A (key : CString) (hkey : key.length ≤ MAX_IP_LEN - 1) (t0 : Int)
    (calls : List Call) (hlen : calls.length = 7)
    (hcalls : ∀ c ∈ calls, c.ip_address = key ∧ c.alloc.node_ok = true ∧
      c.alloc.ts_ok = true ∧ c.alloc.grow_ok = true ∧ t0 ≤ c.current_time ∧
      c.current_time < t0 + 10) :
    ∃ l0 l2, init_limiter true 5 10 = some l0 ∧
      run l0 calls = some (l2, [1, 1, 1, 1, 1, 0, 0]) := by
  obtain ⟨l2, h⟩ := burst key hkey t0 calls (fresh_limiter 5 10) (fresh_limiter_wf 5 10) hcalls
    (by rw [timestamps_of_fresh]; intro t ht; simp at ht)
  refine ⟨fresh_limiter 5 10, l2, rfl, ?_⟩
  rw [h, timestamps_of_fresh, hlen]
  rfl

/-- Witness of C10: the seven calls of `main` for `192.168.1.1`, the clock
reading 0 for the first four and 1 for the last three. -/
theorem scenario_A_witness :
    key_main.length ≤ MAX_IP_LEN - 1 ∧ scenario_A_calls.length = 7 ∧
    (∀ c ∈ scenario_A_calls, c.ip_address = key_main ∧ c.alloc.node_ok = true ∧
      c.alloc.ts_ok = true ∧ c.alloc.grow_ok = true ∧ (0 : Int) ≤ c.current_time ∧
      c.current_time < 0 + 10) ∧
    ∃ l0 l2, init_limiter true 5 10 = some l0 ∧
      run l0 scenario_A_calls = some (l2, [1, 1, 1, 1, 1, 0, 0]) :=
  have hc : ∀ c ∈ scenario_A_calls, c.ip_address = key_main ∧ c.alloc.node_ok = true ∧
      c.alloc.ts_ok = true ∧ c.alloc.grow_ok = true ∧ (0 : Int) ≤ c.current_time ∧
      c.current_time < 0 + 10 := by
    intro c hc
    simp only [scenario_A_calls, List.mem_cons, List.mem_singleton, List.not_mem_nil,
      or_false] at hc
    rcases hc with rfl | rfl | rfl | rfl | rfl | rfl | rfl <;>
      exact ⟨rfl, rfl, rfl, rfl, by decide, by decide⟩
  ⟨by decide, rfl, hc, scenario_A key_main (by decide) 0 scenario_A_calls rfl hc⟩

/-! ## Keys of at most 15 characters: independence and quota -/

theorem record_of_eq_map (l : RateLimiterC) (key : CString) :
    record_of l key = (find_node key (l.table (hash_ip key))).map (fun r => r.2.1) := by
  unfold record_of
  cases find_node key (l.table (hash_ip key)) with
  | none => rfl
  | some r => obtain ⟨b, n, a⟩ := r; rfl

/-- A call for a key of at most 15 characters does not change the record found
for any other key. -/
theorem check_other_key (l l2 : RateLimiterC) (keyA keyB : CString) (now : Int) (a : Alloc)
    (r : Int) (hAB : keyA ≠ keyB) (hA : keyA.length ≤ MAX_IP_LEN - 1)
    (hr : check_rate_limit_c l keyA now a = some (l2, r)) :
    record_of l2 keyB = record_of l keyB := by
  cases hf : find_or_create_node l keyA a with
  | none =>
    rw [check_null l keyA now a hf] at hr
    simp only [Option.some.injEq, Prod.mk.injEq] at hr
    rw [← hr.1]
  | some res =>
    obtain ⟨l1, before, node, after⟩ := res
    have hc := check_in_bounds l l1 l2 keyA now a before node after r hf hr
    obtain ⟨node1, hl2, hip, -, -⟩ := check_some l l1 l2 keyA now a before node after r hf hc hr
    obtain ⟨ht, -, -⟩ := store_node_table l l1 keyA a before node node1 after hf
    rw [← hl2] at ht
    have hnip : node.ip_address = keyA := node_ip_eq l l1 keyA a before node after hf hA
    have hn : node.ip_address ≠ keyB := by rw [hnip]; exact hAB
    have hn1 : node1.ip_address ≠ keyB := by rw [hip]; exact hn
    rw [record_of_eq_map, record_of_eq_map, ht]
    by_cases hh : hash_ip keyB = hash_ip keyA
    · rw [hh, Function.update_same]
      obtain ⟨-, -, -, -, hcase⟩ := find_or_create_node_some l l1 keyA a before node after hf
      rcases hcase with ⟨hfound, -, -⟩ | ⟨-, rfl, -, rfl, -, -⟩
      · obtain ⟨h1, -, -⟩ := find_node_some keyA _ _ _ _ hfound
        rw [h1]
        exact find_node_other keyB node node1 after hn hn1 before
      · simp only [List.nil_append, find_node, hn1, if_false]
        cases find_node keyB (l.table (hash_ip keyA)) with
        | none => rfl
        | some res2 => obtain ⟨b, n, af⟩ := res2; rfl
    · rw [Function.update_noteq hh]

theorem check_other_key_timestamps (l l2 : RateLimiterC) (keyA keyB : CString) (now : Int)
    (a : Alloc) (r : Int) (hAB : keyA ≠ keyB) (hA : keyA.length ≤ MAX_IP_LEN - 1)
    (hr : check_rate_limit_c l keyA now a = some (l2, r)) :
    timestamps_of l2 keyB = timestamps_of l keyB := by
  unfold timestamps_of
  rw [check_other_key l l2 keyA keyB now a r hAB hA hr]

theorem in_window_append (w T : Int) (A B : List Int) :
    in_window w T (A ++ B) = in_window w T A + in_window w T B := by
  simp [in_window]

theorem in_window_le_survivors (w T now : Int) (A : List Int) (h : now ≤ T) :
    in_window w T A ≤ (survivors (now - w) A).length := by
  unfold in_window survivors
  rw [← List.countP_eq_length_filter]
  apply List.countP_mono_left
  intro t _ ht
  simp only [decide_eq_true_eq] at ht ⊢
  omega

theorem survivors_survivors (thr ws : Int) (A : List Int) (h : thr ≤ ws) :
    survivors ws (survivors thr A) = survivors ws A := by
  unfold survivors
  rw [List.filter_filter]
  apply List.filter_congr
  intro t _
  by_cases h1 : t > ws
  · have h2 : t > thr := by omega
    simp [h1, h2]
  · simp [h1]

theorem survivors_append_now (ws now : Int) (A : List Int) (h : ws < now) :
    survivors ws (A ++ [now]) = survivors ws A ++ [now] := by
  simp [survivors, List.filter_append, List.filter_cons, h]

/-- The run of calls with keys of at most 15 characters, allocations
succeeding and non-decreasing clock readings has a result, and the allowed
readings of a key keep to the quota in every window, given that they did so
before and that the record of the key holds the allowed readings after some
threshold not later than the start of the next window. -/
theorem quota_run (key : CString) (m w : Int) (hw : 1 ≤ w) :
    ∀ (calls : List Call) (l : RateLimiterC) (A : List Int) (thr : Int),
      l.wf → l.max_requests = m → l.window_seconds = w →
      (∀ c ∈ calls, c.ip_address.length ≤ MAX_IP_LEN - 1 ∧ c.alloc.node_ok = true ∧
        c.alloc.ts_ok = true ∧ c.alloc.grow_ok = true ∧ thr + w ≤ c.current_time) →
      (calls.map Call.current_time).Pairwise (fun s t => s ≤ t) →
      timestamps_of l key = survivors thr A →
      (∀ T, (in_window w T A : Int) ≤ m) →
      ∃ l2 rs, run l calls = some (l2, rs) ∧
        ∀ T, (in_window w T (A ++ allowed_times key calls rs) : Int) ≤ m := by
  intro calls
  induction calls with
  | nil =>
    intro l A thr _ _ _ _ _ _ hq
    exact ⟨l, [], rfl, by simpa [allowed_times] using hq⟩
  | cons c cs ih =>
    intro l A thr hwf hmax hwin hcalls hmono hts hq
    obtain ⟨hlen, hn, htsok, hg, hthr⟩ := hcalls c (List.mem_cons_self _ _)
    obtain ⟨l1, hcheck, hwf1, hmax1, hwin1, hts1⟩ :=
      check_step l c.ip_address c.current_time c.alloc hwf hlen hn htsok hg
    rw [hmax, hwin] at hcheck hts1
    rw [hmax] at hmax1
    rw [hwin] at hwin1
    simp only [List.map_cons, List.pairwise_cons, List.mem_map, forall_exists_index, and_imp,
      forall_apply_eq_imp_iff₂] at hmono
    obtain ⟨hhead, htail⟩ := hmono
    have hrest : ∀ thr2, (∀ c2 ∈ cs, thr2 + w ≤ c2.current_time) →
        ∀ c2 ∈ cs, c2.ip_address.length ≤ MAX_IP_LEN - 1 ∧ c2.alloc.node_ok = true ∧
          c2.alloc.ts_ok = true ∧ c2.alloc.grow_ok = true ∧ thr2 + w ≤ c2.current_time := by
      intro thr2 h2 c2 hc2
      obtain ⟨q1, q2, q3, q4, -⟩ := hcalls c2 (List.mem_cons_of_mem _ hc2)
      exact ⟨q1, q2, q3, q4, h2 c2 hc2⟩
    by_cases hk : c.ip_address = key
    · rw [hk] at hcheck hts1
      have hS : survivors (c.current_time - w) (timestamps_of l key)
          = survivors (c.current_time - w) A := by
        rw [hts]; exact survivors_survivors _ _ _ (by omega)
      rw [hS] at hcheck hts1
      have hfut : ∀ c2 ∈ cs, c.current_time - w + w ≤ c2.current_time := by
        intro c2 hc2
        have := hhead c2 hc2
        omega
      by_cases hlt : ((survivors (c.current_time - w) A).length : Int) < m
      · rw [if_pos hlt] at hcheck hts1
        rw [← survivors_append_now _ _ _ (by omega)] at hts1
        have hq1 : ∀ T, (in_window w T (A ++ [c.current_time]) : Int) ≤ m := by
          intro T
          rw [in_window_append]
          by_cases hin : T - w < c.current_time ∧ c.current_time ≤ T
          · have h1 := in_window_le_survivors w T c.current_time A hin.2
            have h2 : in_window w T [c.current_time] = 1 := by simp [in_window, hin]
            rw [h2]
            push_cast
            omega
          · have h2 : in_window w T [c.current_time] = 0 := by simp [in_window, hin]
            rw [h2]
            simpa using hq T
        obtain ⟨l2, rs, hrun, hq2⟩ := ih l1 (A ++ [c.current_time]) (c.current_time - w) hwf1 hmax1
          hwin1 (hrest _ hfut) htail hts1 hq1
        refine ⟨l2, 1 :: rs, ?_, ?_⟩
        · rw [run, hk, hcheck]
          simp only [hrun]
        · intro T
          have := hq2 T
          simpa [allowed_times, hk] using this
      · rw [if_neg hlt] at hcheck hts1
        obtain ⟨l2, rs, hrun, hq2⟩ := ih l1 A (c.current_time - w) hwf1 hmax1 hwin1
          (hrest _ hfut) htail hts1 hq
        refine ⟨l2, 0 :: rs, ?_, ?_⟩
        · rw [run, hk, hcheck]
          simp only [hrun]
        · intro T
          have := hq2 T
          simpa [allowed_times, hk] using this
    · have hts2 : timestamps_of l1 key = survivors thr A := by
        rw [check_other_key_timestamps l l1 c.ip_address key c.current_time c.alloc _ hk hlen
          hcheck, hts]
      have hfut : ∀ c2 ∈ cs, thr + w ≤ c2.current_time := by
        intro c2 hc2
        exact (hcalls c2 (List.mem_cons_of_mem _ hc2)).2.2.2.2
      obtain ⟨l2, rs, hrun, hq2⟩ := ih l1 A thr hwf1 hmax1 hwin1 (hrest _ hfut) htail hts2 hq
      generalize (if ((survivors (c.current_time - w) (timestamps_of l c.ip_address)).length : Int)
        < m then (1 : Int) else 0) = r at hcheck
      refine ⟨l2, r :: rs, ?_, ?_⟩
      · rw [run, hcheck]
        simp only [hrun]
      · intro T
        have := hq2 T
        simpa [allowed_times, hk] using this

/-- Quota enforcement for keys of at most 15 characters. On a limiter built
with `max_requests >= 1` and `window_seconds >= 1`, for every sequence of
calls whose keys have at most 15 characters, with non-decreasing clock
readings and no allocation failure, every call returns and, for every key and
every instant `T`, at most `max_requests` calls for the key returned 1 at
readings in `(T - window_seconds, T]`. -/
theorem quota_enforcement_short_keys (m w : Int) (hm : 1 ≤ m) (hw : 1 ≤ w) (calls : List Call)
    (hcalls : ∀ c ∈ calls, c.ip_address.length ≤ MAX_IP_LEN - 1 ∧ c.alloc.node_ok = true ∧
      c.alloc.ts_ok = true ∧ c.alloc.grow_ok = true)
    (hmono : (calls.map Call.current_time).Pairwise (fun s t => s ≤ t)) :
    ∃ l2 rs, run (fresh_limiter m w) calls = some (l2, rs) ∧
      ∀ key T, (in_window w T (allowed_times key calls rs) : Int) ≤ m := by
  cases calls with
  | nil => exact ⟨_, [], rfl, fun key T => by simp [allowed_times, in_window]; omega⟩
  | cons c cs =>
    have hmono2 := hmono
    simp only [List.map_cons, List.pairwise_cons, List.mem_map, forall_exists_index, and_imp,
      forall_apply_eq_imp_iff₂] at hmono2
    have hall : ∀ c2 ∈ c :: cs, c2.ip_address.length ≤ MAX_IP_LEN - 1 ∧
        c2.alloc.node_ok = true ∧ c2.alloc.ts_ok = true ∧ c2.alloc.grow_ok = true ∧
        (c.current_time - w) + w ≤ c2.current_time := by
      intro c2 hc2
      obtain ⟨q1, q2, q3, q4⟩ := hcalls c2 hc2
      refine ⟨q1, q2, q3, q4, ?_⟩
      rcases List.mem_cons.mp hc2 with rfl | h
      · omega
      · have := hmono2.1 c2 h
        omega
    cases hrun : run (fresh_limiter m w) (c :: cs) with
    | none =>
      obtain ⟨l2, rs, h, -⟩ := quota_run [] m w hw (c :: cs) (fresh_limiter m w) []
        (c.current_time - w) (fresh_limiter_wf m w) rfl rfl hall hmono
        (by rw [timestamps_of_fresh]; rfl) (fun T => by simp [in_window]; omega)
      rw [hrun] at h
      exact Option.noConfusion h
    | some res =>
      obtain ⟨l2, rs⟩ := res
      refine ⟨l2, rs, rfl, ?_⟩
      intro key T
      obtain ⟨l3, rs3, h, hq⟩ := quota_run key m w hw (c :: cs) (fresh_limiter m w) []
        (c.current_time - w) (fresh_limiter_wf m w) rfl rfl hall hmono
        (by rw [timestamps_of_fresh]; rfl) (fun T => by simp [in_window]; omega)
      rw [hrun] at h
      simp only [Option.some.injEq, Prod.mk.injEq] at h
      obtain ⟨-, rfl⟩ := h
      simpa using hq T

/-! ## Keys of 16 characters or more -/

/-- C1 fails on the code for a key of 16 characters or more. With a quota of
one request per 10 seconds, three calls for the 20-character key
`192.168.100.101:5001` at the same clock reading all return 1: the stored
copy of the key is cut to 15 characters and never compares equal to the key,
so every call works on a new, empty record. -/
theorem long_key_exceeds_quota :
    (run (fresh_limiter 1 10)
      [⟨key_long, 0, alloc_ok⟩, ⟨key_long, 0, alloc_ok⟩, ⟨key_long, 0, alloc_ok⟩]).map Prod.snd
      = some [1, 1, 1] ∧
    (1 : Int) ≤ (fresh_limiter 1 10).max_requests ∧ (1 : Int) ≤ (fresh_limiter 1 10).window_seconds ∧
    (limiter_after_calls (fresh_limiter 1 10)
      [⟨key_long, 0, alloc_ok⟩, ⟨key_long, 0, alloc_ok⟩, ⟨key_long, 0, alloc_ok⟩]).table
        (hash_ip key_long) =
      [{ ip_address := key_short, timestamps := [0, 0, 0, 0, 0, 0, 0, 0], count := 1, capacity := 8 },
       { ip_address := key_short, timestamps := [0, 0, 0, 0, 0, 0, 0, 0], count := 1, capacity := 8 },
       { ip_address := key_short, timestamps := [0, 0, 0, 0, 0, 0, 0, 0], count := 1, capacity := 8 }] := by
  refine ⟨by decide, by decide, by decide, by decide⟩

/-- C6 fails on the code when a key of 16 characters or more is cut to
another key of the same bucket. The keys `192.168.100.101:5001` (A) and
`192.168.100.101` (B) differ and hash to the same bucket. On a fresh limiter
with a quota of 1, B alone is allowed, but after one call for A the record
found for B holds A's timestamp and B is blocked. With a quota of 2, after
two allowed calls for B a third one is blocked, but with a call for A in
between it is allowed. -/
theorem long_key_changes_short_key :
    key_long ≠ key_short ∧ hash_ip key_long = hash_ip key_short ∧
    timestamps_of (fresh_limiter 1 10) key_short = [] ∧
    timestamps_of (limiter_after (fresh_limiter 1 10) key_long 0 alloc_ok) key_short = [0] ∧
    (run (fresh_limiter 1 10) [⟨key_short, 0, alloc_ok⟩]).map Prod.snd = some [1] ∧
    (run (fresh_limiter 1 10) [⟨key_long, 0, alloc_ok⟩, ⟨key_short, 0, alloc_ok⟩]).map Prod.snd
      = some [1, 0] ∧
    (run (fresh_limiter 2 10)
      [⟨key_short, 0, alloc_ok⟩, ⟨key_short, 0, alloc_ok⟩, ⟨key_short, 0, alloc_ok⟩]).map Prod.snd
      = some [1, 1, 0] ∧
    (run (fresh_limiter 2 10)
      [⟨key_short, 0, alloc_ok⟩, ⟨key_short, 0, alloc_ok⟩, ⟨key_long, 0, alloc_ok⟩,
       ⟨key_short, 0, alloc_ok⟩]).map Prod.snd
      = some [1, 1, 1, 1] := by
  refine ⟨by decide, by decide, by decide, by decide, by decide, by decide, by decide, by decide⟩

/-! ## Bounded records and find-or-create -/

/-- C15 (invariant 2, bounded record). For `max_requests >= 1`, in every
limiter reached from the one `init_limiter` builds by calls of
`check_rate_limit_c`, whatever the keys, clock readings and allocator
outcomes, every node of every chain has a count of stored timestamps of at
most `max_requests` (and no more stored timestamps than allocated slots). -/
theorem bounded_record (calloc_ok : Bool) (max_requests window_seconds : Int)
    (hm : 1 ≤ max_requests) (l0 : RateLimiterC)
    (hinit : init_limiter calloc_ok max_requests window_seconds = some l0)
    (calls : List Call) (l : RateLimiterC) (rs : List Int)
    (hrun : run l0 calls = some (l, rs)) :
    l.max_requests = max_requests ∧
    ∀ i, ∀ node ∈ l.table i,
      (node.count : Int) ≤ max_requests ∧ (node.live.length : Int) ≤ max_requests ∧
        node.count ≤ node.timestamps.length := by
  rw [init_limiter_some calloc_ok _ _ l0 hinit] at hrun
  obtain ⟨hb, hmax, -⟩ := run_bounded calls (fresh_limiter max_requests window_seconds) l rs
    (fresh_limiter_bounded _ _) (by show (0 : Int) ≤ max_requests; omega) hrun
  have hmax2 : l.max_requests = max_requests := hmax
  refine ⟨hmax2, ?_⟩
  intro i node hn
  obtain ⟨h1, h2⟩ := hb i node hn
  rw [hmax2] at h2
  have h3 := live_length_le node
  exact ⟨h2, by omega, h1⟩

/-- Witness of C15: the limiter after the seven calls of scenario A. -/
theorem bounded_record_witness :
    (1 : Int) ≤ 5 ∧ init_limiter true 5 10 = some (fresh_limiter 5 10) ∧
    run (fresh_limiter 5 10) scenario_A_calls
      = some (limiter_after_calls (fresh_limiter 5 10) scenario_A_calls, [1, 1, 1, 1, 1, 0, 0]) ∧
    (limiter_after_calls (fresh_limiter 5 10) scenario_A_calls).max_requests = 5 ∧
    ∀ i, ∀ node ∈ (limiter_after_calls (fresh_limiter 5 10) scenario_A_calls).table i,
      (node.count : Int) ≤ 5 ∧ (node.live.length : Int) ≤ 5 ∧
        node.count ≤ node.timestamps.length :=
  ⟨by decide, rfl, rfl,
    bounded_record true 5 10 (by decide) (fresh_limiter 5 10) rfl scenario_A_calls _ _ rfl⟩

/-- For a key of at most 15 characters, a second `find_or_create_node` returns
the node the first one returned and leaves the table as it is. -/
theorem find_or_create_node_again (l l1 : RateLimiterC) (key : CString) (a a2 : Alloc)
    (before : List HT_Node) (node : HT_Node) (after : List HT_Node)
    (hkey : key.length ≤ MAX_IP_LEN - 1)
    (h : find_or_create_node l key a = some (l1, before, node, after)) :
    find_or_create_node l1 key a2 = some (l1, before, node, after) := by
  obtain ⟨-, -, ht, hb, -⟩ := find_or_create_node_some l l1 key a before node after h
  have hip := node_ip_eq l l1 key a before node after h hkey
  have hfind : find_node key (l1.table (hash_ip key)) = some (before, node, after) := by
    rw [ht, Function.update_same]
    exact find_node_append key node after hip before hb
  simp [find_or_create_node, hfind]

/-- C16 fails on the code for a key of 16 characters or more. On a fresh
limiter, `find_or_create_node` for the 20-character key
`192.168.100.101:5001` creates a node stored under the first 15
characters; a second call with the same key does not find it and creates a
second node, so the chain holds two nodes with the same stored key. -/
theorem long_key_created_twice :
    find_or_create_node (fresh_limiter 5 10) key_long alloc_ok =
      some ({ fresh_limiter 5 10 with
              table := Function.update (fresh_limiter 5 10).table (hash_ip key_long)
                [new_node key_long alloc_ok.junk] },
            [], new_node key_long alloc_ok.junk, []) ∧
    find_or_create_node
        { fresh_limiter 5 10 with
          table := Function.update (fresh_limiter 5 10).table (hash_ip key_long)
            [new_node key_long alloc_ok.junk] } key_long alloc_ok =
      some ({ fresh_limiter 5 10 with
              table := Function.update
                (Function.update (fresh_limiter 5 10).table (hash_ip key_long)
                  [new_node key_long alloc_ok.junk]) (hash_ip key_long)
                [new_node key_long alloc_ok.junk, new_node key_long alloc_ok.junk] },
            [], new_node key_long alloc_ok.junk, [new_node key_long alloc_ok.junk]) ∧
    (new_node key_long alloc_ok.junk).ip_address = key_short ∧ key_short ≠ key_long :=
  ⟨rfl, rfl, by decide, by decide⟩

/-! ## Scenarios B and C, sliding recovery -/

theorem survivors_nil (ws : Int) : survivors ws [] = [] := rfl

theorem survivors_singleton_keep (ws t : Int) (h : ws < t) : survivors ws [t] = [t] := by
  simp [survivors, h]

theorem survivors_singleton_drop (ws t : Int) (h : t ≤ ws) : survivors ws [t] = [] := by
  simp [survivors]
  omega

/-- Scenario C when the second call reads the same second as the first.
`init_limiter` with `max_requests = 1` and a window of 1 second gives a
limiter on which, for a key of at most 15 characters and allocations
succeeding, a call when the clock reads `t0` returns 1, a second call within
the same second returns 0, and a call when the clock reads `t0 + 1` returns
1. -/
theorem scenario_C_same_second (key : CString) (hkey : key.length ≤ MAX_IP_LEN - 1) (t0 : Int)
    (j1 j2 j3 : Nat → Int) :
    ∃ l0 l3, init_limiter true 1 1 = some l0 ∧
      run l0 [⟨key, t0, Alloc.ok j1⟩, ⟨key, t0, Alloc.ok j2⟩, ⟨key, t0 + 1, Alloc.ok j3⟩]
        = some (l3, [1, 0, 1]) := by
  obtain ⟨l1, h1, hwf1, hm1, hw1, ht1⟩ := check_step (fresh_limiter 1 1) key t0 (Alloc.ok j1)
    (fresh_limiter_wf 1 1) hkey rfl rfl rfl
  rw [timestamps_of_fresh, survivors_nil] at h1 ht1
  have e1 : ((([] : List Int).length : Int) < (fresh_limiter 1 1).max_requests) := by decide
  rw [if_pos e1] at h1 ht1
  have hm1' : l1.max_requests = 1 := hm1
  have hw1' : l1.window_seconds = 1 := hw1
  obtain ⟨l2, h2, hwf2, hm2, hw2, ht2⟩ := check_step l1 key t0 (Alloc.ok j2) hwf1 hkey rfl rfl rfl
  rw [ht1, hm1', hw1'] at h2 ht2
  simp only [List.nil_append] at h2 ht2
  have hs2 : survivors (t0 - 1) [t0] = [t0] := survivors_singleton_keep _ _ (by omega)
  simp only [hs2, List.length_singleton, Nat.cast_one, lt_self_iff_false, if_false] at h2 ht2
  have hm2' : l2.max_requests = 1 := by rw [hm2, hm1']
  have hw2' : l2.window_seconds = 1 := by rw [hw2, hw1']
  obtain ⟨l3, h3, -, -, -, -⟩ := check_step l2 key (t0 + 1) (Alloc.ok j3) hwf2 hkey rfl rfl rfl
  rw [ht2, hm2', hw2'] at h3
  have hs3 : survivors (t0 + 1 - 1) [t0] = [] := survivors_singleton_drop _ _ (by omega)
  simp only [hs3, List.length_nil, Nat.cast_zero, zero_lt_one, if_true] at h3
  refine ⟨fresh_limiter 1 1, l3, rfl, ?_⟩
  simp [run, h1, h2, h3]

/-- Scenario C when the second call already reads the next second: the first
two calls return 1 and the third, in the same second as the second, returns
0. -/
theorem scenario_C_next_second (key : CString) (hkey : key.length ≤ MAX_IP_LEN - 1) (t0 : Int)
    (j1 j2 j3 : Nat → Int) :
    ∃ l0 l3, init_limiter true 1 1 = some l0 ∧
      run l0 [⟨key, t0, Alloc.ok j1⟩, ⟨key, t0 + 1, Alloc.ok j2⟩, ⟨key, t0 + 1, Alloc.ok j3⟩]
        = some (l3, [1, 1, 0]) := by
  obtain ⟨l1, h1, hwf1, hm1, hw1, ht1⟩ := check_step (fresh_limiter 1 1) key t0 (Alloc.ok j1)
    (fresh_limiter_wf 1 1) hkey rfl rfl rfl
  rw [timestamps_of_fresh, survivors_nil] at h1 ht1
  have e1 : ((([] : List Int).length : Int) < (fresh_limiter 1 1).max_requests) := by decide
  rw [if_pos e1] at h1 ht1
  have hm1' : l1.max_requests = 1 := hm1
  have hw1' : l1.window_seconds = 1 := hw1
  obtain ⟨l2, h2, hwf2, hm2, hw2, ht2⟩ :=
    check_step l1 key (t0 + 1) (Alloc.ok j2) hwf1 hkey rfl rfl rfl
  rw [ht1, hm1', hw1'] at h2 ht2
  simp only [List.nil_append] at h2 ht2
  have hs2 : survivors (t0 + 1 - 1) [t0] = [] := survivors_singleton_drop _ _ (by omega)
  simp only [hs2, List.length_nil, Nat.cast_zero, zero_lt_one, if_true, List.nil_append]
    at h2 ht2
  have hm2' : l2.max_requests = 1 := by rw [hm2, hm1']
  have hw2' : l2.window_seconds = 1 := by rw [hw2, hw1']
  obtain ⟨l3, h3, -, -, -, -⟩ := check_step l2 key (t0 + 1) (Alloc.ok j3) hwf2 hkey rfl rfl rfl
  rw [ht2, hm2', hw2'] at h3
  have hs3 : survivors (t0 + 1 - 1) [t0 + 1] = [t0 + 1] :=
    survivors_singleton_keep _ _ (by omega)
  simp only [hs3, List.length_singleton, Nat.cast_one, lt_self_iff_false, if_false] at h3
  refine ⟨fresh_limiter 1 1, l3, rfl, ?_⟩
  simp [run, h1, h2, h3]

/-- C12 (scenario C, with the clock read in whole seconds). `init_limiter`
with `max_requests = 1` and a window of 1 second gives a limiter on which,
for a key of at most 15 characters and allocations succeeding, three calls
made at `t = 0`, `t = 0.5` and `t = 1.0` return:
1, 0, 1 when the clock reads `t0`, `t0`, `t0 + 1` during them (`t = 0` lies
in the first half of a second of the clock);
1, 1, 0 when it reads `t0`, `t0 + 1`, `t0 + 1` (`t = 0` lies in the second
half). These are the readings `time(NULL)` can give for calls 0.5 s apart. -/
theorem scenario_C (key : CString) (hkey : key.length ≤ MAX_IP_LEN - 1) (t0 : Int)
    (j1 j2 j3 : Nat → Int) :
    ∃ l0, init_limiter true 1 1 = some l0 ∧
      (∃ l3, run l0 [⟨key, t0, Alloc.ok j1⟩, ⟨key, t0, Alloc.ok j2⟩, ⟨key, t0 + 1, Alloc.ok j3⟩]
        = some (l3, [1, 0, 1])) ∧
      (∃ l3, run l0 [⟨key, t0, Alloc.ok j1⟩, ⟨key, t0 + 1, Alloc.ok j2⟩,
                     ⟨key, t0 + 1, Alloc.ok j3⟩]
        = some (l3, [1, 1, 0])) := by
  obtain ⟨l0, l3, h0, h⟩ := scenario_C_same_second key hkey t0 j1 j2 j3
  obtain ⟨l0', l3', h0', h'⟩ := scenario_C_next_second key hkey t0 j1 j2 j3
  have e : l0' = l0 := by
    rw [h0] at h0'
    exact (Option.some.inj h0').symm
  rw [e] at h'
  exact ⟨l0, h0, ⟨l3, h⟩, ⟨l3', h'⟩⟩

/-- Witness of C12: the key of `main`, clock readings 0, 0, 1 and 0, 1, 1. -/
theorem scenario_C_witness :
    key_main.length ≤ MAX_IP_LEN - 1 ∧
    ∃ l0, init_limiter true 1 1 = some l0 ∧
      (∃ l3, run l0 [⟨key_main, 0, Alloc.ok (fun _ => 0)⟩, ⟨key_main, 0, Alloc.ok (fun _ => 0)⟩,
                     ⟨key_main, 0 + 1, Alloc.ok (fun _ => 0)⟩]
        = some (l3, [1, 0, 1])) ∧
      (∃ l3, run l0 [⟨key_main, 0, Alloc.ok (fun _ => 0)⟩,
                     ⟨key_main, 0 + 1, Alloc.ok (fun _ => 0)⟩,
                     ⟨key_main, 0 + 1, Alloc.ok (fun _ => 0)⟩]
        = some (l3, [1, 1, 0])) :=
  ⟨by decide, scenario_C key_main (by decide) 0 (fun _ => 0) (fun _ => 0) (fun _ => 0)⟩

/-- C12 fails on the code as the claim states it, without a condition on the
clock. `time(NULL)` counts whole seconds: when `t = 0` of the scenario falls
0.7 s after a tick of the clock, the calls at `t = 0`, `t = 0.5` and
`t = 1.0` read 0, 1 and 1. The second call is then a whole window after the
first reading and returns 1, and the third returns 0, where the claim says
0 and 1. -/
theorem scenario_C_fails_across_a_tick :
    init_limiter true 1 1 = some (fresh_limiter 1 1) ∧
    (run (fresh_limiter 1 1)
      [⟨key_main, 0, alloc_ok⟩, ⟨key_main, 1, alloc_ok⟩, ⟨key_main, 1, alloc_ok⟩]).map Prod.snd
      = some [1, 1, 0] := by
  refine ⟨rfl, by decide⟩

theorem run_append (xs ys : List Call) :
    ∀ l : RateLimiterC, run l (xs ++ ys) =
      match run l xs with
      | none => none
      | some (l1, rs1) =>
        match run l1 ys with
        | none => none
        | some (l2, rs2) => some (l2, rs1 ++ rs2) := by
  induction xs with
  | nil =>
    intro l
    simp only [List.nil_append, run]
    cases run l ys with
    | none => rfl
    | some r => obtain ⟨l2, rs2⟩ := r; rfl
  | cons c cs ih =>
    intro l
    rw [List.cons_append]
    rw [run, run]
    cases check_rate_limit_c l c.ip_address c.current_time c.alloc with
    | none => rfl
    | some r =>
      obtain ⟨l1, r1⟩ := r
      simp only
      rw [ih l1]
      cases run l1 cs with
      | none => rfl
      | some r2 =>
        obtain ⟨l2, rs2⟩ := r2
        simp only
        cases run l2 ys with
        | none => rfl
        | some r3 => obtain ⟨l3, rs3⟩ := r3; rfl

theorem survivors_length_mono (ws1 ws2 : Int) (ts : List Int) (h : ws1 ≤ ws2) :
    (survivors ws2 ts).length ≤ (survivors ws1 ts).length := by
  rw [← survivors_survivors ws1 ws2 ts h]
  exact survivors_length_le _ _

theorem survivors_subset (ws : Int) (ts : List Int) : ∀ t ∈ survivors ws ts, t ∈ ts := by
  intro t ht
  exact (List.mem_filter.mp ht).1

/-- A run of calls for keys of at most 15 characters, allocations succeeding,
on a well-formed limiter: the run has a result, the limiter stays well
formed with its configuration, and every timestamp recorded for a key after
the run was recorded at the start or is the clock reading of one of the
calls for that key. -/
theorem run_short_keys (calls : List Call) :
    ∀ l : RateLimiterC, l.wf →
      (∀ c ∈ calls, c.ip_address.length ≤ MAX_IP_LEN - 1 ∧ c.alloc.node_ok = true ∧
        c.alloc.ts_ok = true ∧ c.alloc.grow_ok = true) →
      ∃ l2 rs, run l calls = some (l2, rs) ∧ rs.length = calls.length ∧ l2.wf ∧
        l2.max_requests = l.max_requests ∧ l2.window_seconds = l.window_seconds ∧
        ∀ key t, t ∈ timestamps_of l2 key →
          t ∈ timestamps_of l key ∨ ∃ c ∈ calls, c.ip_address = key ∧ c.current_time = t := by
  induction calls with
  | nil =>
    intro l hwf _
    exact ⟨l, [], rfl, rfl, hwf, rfl, rfl, fun key t ht => Or.inl ht⟩
  | cons c cs ih =>
    intro l hwf hcalls
    obtain ⟨hlen, hn, hts, hg⟩ := hcalls c (List.mem_cons_self _ _)
    obtain ⟨l1, h1, hwf1, hm1, hw1, ht1⟩ :=
      check_step l c.ip_address c.current_time c.alloc hwf hlen hn hts hg
    obtain ⟨l2, rs, h2, hl2, hwf2, hm2, hw2, ht2⟩ :=
      ih l1 hwf1 (fun c2 hc2 => hcalls c2 (List.mem_cons_of_mem _ hc2))
    obtain ⟨r0, hr0⟩ : ∃ r0, check_rate_limit_c l c.ip_address c.current_time c.alloc
        = some (l1, r0) := ⟨_, h1⟩
    refine ⟨l2, r0 :: rs, by rw [run, hr0]; simp only [h2], by simp [hl2], hwf2,
      by rw [hm2, hm1], by rw [hw2, hw1], ?_⟩
    intro key t ht
    rcases ht2 key t ht with hin | ⟨c2, hc2, hk2, hc2t⟩
    · by_cases hk : c.ip_address = key
      · rw [← hk, ht1] at hin
        have hsub : t ∈ survivors (c.current_time - l.window_seconds)
            (timestamps_of l c.ip_address) ∨ t = c.current_time := by
          split at hin
          · rcases List.mem_append.mp hin with h | h
            · exact Or.inl h
            · exact Or.inr (by simpa using h)
          · exact Or.inl hin
        rcases hsub with h | h
        · exact Or.inl (by rw [← hk]; exact survivors_subset _ _ t h)
        · exact Or.inr ⟨c, List.mem_cons_self _ _, hk, h.symm⟩
      · rw [check_other_key_timestamps l l1 c.ip_address key c.current_time c.alloc _ hk hlen
          h1] at hin
        exact Or.inl hin
    · exact Or.inr ⟨c2, List.mem_cons_of_mem _ hc2, hk2, hc2t⟩

/-- Calls for one key of at most 15 characters at clock readings not before
`now`, allocations succeeding, on a well-formed limiter in which at most `j`
timestamps of the key are later than `now - window_seconds`: the first
`max_requests - j` calls return 1. -/
theorem replenish (key : CString) (hkey : key.length ≤ MAX_IP_LEN - 1) (now : Int) :
    ∀ (calls : List Call) (l : RateLimiterC) (j : Nat), l.wf →
      (∀ c ∈ calls, c.ip_address = key ∧ c.alloc.node_ok = true ∧ c.alloc.ts_ok = true ∧
        c.alloc.grow_ok = true ∧ now ≤ c.current_time) →
      (survivors (now - l.window_seconds) (timestamps_of l key)).length ≤ j →
      ∃ l2 rs, run l calls = some (l2, rs) ∧ rs.length = calls.length ∧
        rs.take (l.max_requests.toNat - j)
          = List.replicate (min calls.length (l.max_requests.toNat - j)) 1 := by
  intro calls
  induction calls with
  | nil => intro l j _ _ _; exact ⟨l, [], rfl, rfl, by simp⟩
  | cons c cs ih =>
    intro l j hwf hcalls hj
    obtain ⟨hk, hn, hts, hg, hnow⟩ := hcalls c (List.mem_cons_self _ _)
    obtain ⟨l1, h1, hwf1, hm1, hw1, ht1⟩ :=
      check_step l c.ip_address c.current_time c.alloc hwf (by rw [hk]; exact hkey) hn hts hg
    rw [hk] at h1 ht1
    have hS : (survivors (c.current_time - l.window_seconds) (timestamps_of l key)).length ≤ j :=
      Nat.le_trans (survivors_length_mono _ _ _ (by omega)) hj
    have hj1 : (survivors (now - l1.window_seconds) (timestamps_of l1 key)).length ≤ j + 1 := by
      rw [ht1]
      split
      · have := survivors_length_le (now - l1.window_seconds)
          (survivors (c.current_time - l.window_seconds) (timestamps_of l key) ++ [c.current_time])
        simp only [List.length_append, List.length_singleton] at this
        omega
      · have := survivors_length_le (now - l1.window_seconds)
          (survivors (c.current_time - l.window_seconds) (timestamps_of l key))
        omega
    obtain ⟨l2, rs, h2, hl2, htake⟩ := ih l1 (j + 1) hwf1
      (fun c2 hc2 => hcalls c2 (List.mem_cons_of_mem _ hc2)) hj1
    rw [hm1] at htake
    by_cases hlt : j < l.max_requests.toNat
    · have hr : ((survivors (c.current_time - l.window_seconds) (timestamps_of l key)).length : Int)
          < l.max_requests := by omega
      rw [if_pos hr] at h1
      refine ⟨l2, 1 :: rs, by rw [run, hk, h1]; simp only [h2], by simp [hl2], ?_⟩
      obtain ⟨k, hk2⟩ : ∃ k, l.max_requests.toNat - j = k + 1 := ⟨l.max_requests.toNat - j - 1, by omega⟩
      have hk3 : l.max_requests.toNat - (j + 1) = k := by omega
      rw [hk3] at htake
      rw [hk2, List.take_succ_cons, htake, List.length_cons]
      have hmin : min (cs.length + 1) (k + 1) = min cs.length k + 1 := by omega
      rw [hmin, List.replicate_succ]
    · obtain ⟨r0, hr0⟩ : ∃ r0, check_rate_limit_c l key c.current_time c.alloc
          = some (l1, r0) := ⟨_, h1⟩
      refine ⟨l2, r0 :: rs, by rw [run, hk, hr0]; simp only [h2], by simp [hl2], ?_⟩
      have h0 : l.max_requests.toNat - j = 0 := by omega
      rw [h0]
      simp

theorem survivors_eq_nil (ws : Int) (ts : List Int) (h : ∀ t ∈ ts, t ≤ ws) :
    survivors ws ts = [] := by
  apply List.filter_eq_nil_iff.mpr
  intro t ht
  have := h t ht
  simp only [gt_iff_lt, decide_eq_true_eq]
  omega

/-- Full replenishment: on a well-formed limiter, for a key of at most 15
characters whose recorded timestamps are all at most `now - window_seconds`,
the first `min k max_requests` of `k` calls at readings not before `now`,
allocations succeeding, return 1. -/
theorem replenish_full (l : RateLimiterC) (key : CString) (now : Int) (calls : List Call)
    (hwf : l.wf) (hkey : key.length ≤ MAX_IP_LEN - 1)
    (hold : ∀ t ∈ timestamps_of l key, t ≤ now - l.window_seconds)
    (hcalls : ∀ c ∈ calls, c.ip_address = key ∧ c.alloc.node_ok = true ∧
      c.alloc.ts_ok = true ∧ c.alloc.grow_ok = true ∧ now ≤ c.current_time) :
    ∃ l2 rs, run l calls = some (l2, rs) ∧ rs.length = calls.length ∧
      rs.take (min calls.length l.max_requests.toNat)
        = List.replicate (min calls.length l.max_requests.toNat) 1 := by
  obtain ⟨l2, rs, hrun, hlen, htake⟩ := replenish key hkey now calls l 0 hwf hcalls
    (by rw [survivors_eq_nil _ _ hold]; exact Nat.le_refl 0)
  refine ⟨l2, rs, hrun, hlen, ?_⟩
  simp only [Nat.sub_zero] at htake
  have h1 : rs.take (min calls.length l.max_requests.toNat)
      = (rs.take l.max_requests.toNat).take (min calls.length l.max_requests.toNat) := by
    rw [List.take_take]
    congr 1
    omega
  rw [h1, htake, List.take_replicate]
  congr 1
  omega

/-- Scenario B and full replenishment where no growth of an array has
failed. First part: on the limiter
`init_limiter` builds with `max_requests = 5` and a window of 10 seconds,
after the seven calls of scenario A for a key of at most 15 characters
(clock readings `t0` or `t0 + 1`), five further calls for the key at clock
readings of at least `t0 + 11` all return 1. Second part: on every
well-formed limiter, for every key of at most 15 characters whose recorded
timestamps are all at most `now - window_seconds`, the first
`min k max_requests` of `k` calls at readings not before `now` return 1
(allocations succeeding). -/
theorem scenario_B :
    (∀ (key : CString) (t0 : Int) (callsA callsB : List Call),
      key.length ≤ MAX_IP_LEN - 1 → callsA.length = 7 → callsB.length = 5 →
      (∀ c ∈ callsA, c.ip_address = key ∧ c.alloc.node_ok = true ∧ c.alloc.ts_ok = true ∧
        c.alloc.grow_ok = true ∧ t0 ≤ c.current_time ∧ c.current_time ≤ t0 + 1) →
      (∀ c ∈ callsB, c.ip_address = key ∧ c.alloc.node_ok = true ∧ c.alloc.ts_ok = true ∧
        c.alloc.grow_ok = true ∧ t0 + 11 ≤ c.current_time) →
      ∃ l0 l2, init_limiter true 5 10 = some l0 ∧
        run l0 (callsA ++ callsB) = some (l2, [1, 1, 1, 1, 1, 0, 0, 1, 1, 1, 1, 1])) ∧
    (∀ (l : RateLimiterC) (key : CString) (now : Int) (calls : List Call),
      l.wf → key.length ≤ MAX_IP_LEN - 1 →
      (∀ t ∈ timestamps_of l key, t ≤ now - l.window_seconds) →
      (∀ c ∈ calls, c.ip_address = key ∧ c.alloc.node_ok = true ∧ c.alloc.ts_ok = true ∧
        c.alloc.grow_ok = true ∧ now ≤ c.current_time) →
      ∃ l2 rs, run l calls = some (l2, rs) ∧ rs.length = calls.length ∧
        rs.take (min calls.length l.max_requests.toNat)
          = List.replicate (min calls.length l.max_requests.toNat) 1) := by
  refine ⟨?_, fun l key now calls hwf hkey hold hcalls =>
    replenish_full l key now calls hwf hkey hold hcalls⟩
  intro key t0 callsA callsB hkey hlenA hlenB hA hB
  obtain ⟨l0, l1, hinit, hrunA⟩ := scenario_A key hkey t0 callsA hlenA
    (fun c hc => by
      obtain ⟨q1, q2, q3, q4, q5, q6⟩ := hA c hc
      exact ⟨q1, q2, q3, q4, q5, by omega⟩)
  have hl0 := init_limiter_some true 5 10 l0 hinit
  subst hl0
  obtain ⟨l1b, rsb, hrunb, -, hwf1, hm1, hw1, hts1⟩ := run_short_keys callsA (fresh_limiter 5 10)
    (fresh_limiter_wf 5 10) (fun c hc => by
      obtain ⟨q1, q2, q3, q4, -, -⟩ := hA c hc
      exact ⟨by rw [q1]; exact hkey, q2, q3, q4⟩)
  rw [hrunA] at hrunb
  simp only [Option.some.injEq, Prod.mk.injEq] at hrunb
  obtain ⟨rfl, -⟩ := hrunb
  have hm1b : l1.max_requests = 5 := hm1
  have hw1b : l1.window_seconds = 10 := hw1
  have hold : ∀ t ∈ timestamps_of l1 key, t ≤ (t0 + 11) - l1.window_seconds := by
    intro t ht
    rw [hw1b]
    rcases hts1 key t ht with h | ⟨c, hc, -, hct⟩
    · rw [timestamps_of_fresh] at h
      simp at h
    · have := (hA c hc).2.2.2.2.2
      omega
  obtain ⟨l2, rs, hrunB, hlen, htake⟩ := replenish_full l1 key (t0 + 11) callsB hwf1 hkey hold hB
  rw [hlenB, hm1b] at htake
  have hrs : rs = [1, 1, 1, 1, 1] := by
    have h5 : rs.take 5 = rs := List.take_of_length_le (by omega)
    have : rs.take (min 5 (5 : Int).toNat) = rs := h5
    rw [this] at htake
    rw [htake]
    rfl
  refine ⟨fresh_limiter 5 10, l2, rfl, ?_⟩
  rw [run_append, hrunA]
  simp only [hrunB, hrs]
  rfl

/-- An instance of `scenario_B`: the twelve calls of `main` for `192.168.1.1`,
and the second part on the limiter left by scenario A, the clock reading 11. -/
theorem scenario_B_witness :
    (∃ l0 l2, init_limiter true 5 10 = some l0 ∧
      run l0 (scenario_A_calls ++ scenario_B_calls)
        = some (l2, [1, 1, 1, 1, 1, 0, 0, 1, 1, 1, 1, 1])) ∧
    (∃ l2 rs, run (limiter_after_calls (fresh_limiter 5 10) scenario_A_calls) scenario_B_calls
        = some (l2, rs) ∧ rs.length = scenario_B_calls.length ∧
      rs.take (min scenario_B_calls.length
          (limiter_after_calls (fresh_limiter 5 10) scenario_A_calls).max_requests.toNat)
        = List.replicate (min scenario_B_calls.length
          (limiter_after_calls (fresh_limiter 5 10) scenario_A_calls).max_requests.toNat) 1) :=
  have hA : ∀ c ∈ scenario_A_calls, c.ip_address = key_main ∧ c.alloc.node_ok = true ∧
      c.alloc.ts_ok = true ∧ c.alloc.grow_ok = true ∧ (0 : Int) ≤ c.current_time ∧
      c.current_time ≤ 0 + 1 := by
    intro c hc
    simp only [scenario_A_calls, List.mem_cons, List.mem_singleton, List.not_mem_nil,
      or_false] at hc
    rcases hc with rfl | rfl | rfl | rfl | rfl | rfl | rfl <;>
      exact ⟨rfl, rfl, rfl, rfl, by decide, by decide⟩
  have hB : ∀ c ∈ scenario_B_calls, c.ip_address = key_main ∧ c.alloc.node_ok = true ∧
      c.alloc.ts_ok = true ∧ c.alloc.grow_ok = true ∧ (0 : Int) + 11 ≤ c.current_time := by
    intro c hc
    simp only [scenario_B_calls, List.mem_cons, List.mem_singleton, List.not_mem_nil,
      or_false] at hc
    rcases hc with rfl | rfl | rfl | rfl | rfl <;>
      exact ⟨rfl, rfl, rfl, rfl, by decide⟩
  have hwf : (limiter_after_calls (fresh_limiter 5 10) scenario_A_calls).wf := by
    obtain ⟨l2, rs, hrun, -, hwf2, -⟩ := run_short_keys scenario_A_calls (fresh_limiter 5 10)
      (fresh_limiter_wf 5 10) (fun c hc => by
        obtain ⟨q1, q2, q3, q4, -, -⟩ := hA c hc
        exact ⟨by rw [q1]; decide, q2, q3, q4⟩)
    have : limiter_after_calls (fresh_limiter 5 10) scenario_A_calls = l2 := by
      simp only [limiter_after_calls, hrun]
    rw [this]
    exact hwf2
  have hold : ∀ t ∈ timestamps_of (limiter_after_calls (fresh_limiter 5 10) scenario_A_calls)
      key_main, t ≤ 11 - (limiter_after_calls (fresh_limiter 5 10) scenario_A_calls).window_seconds := by
    have hts : timestamps_of (limiter_after_calls (fresh_limiter 5 10) scenario_A_calls) key_main
        = [0, 0, 0, 0, 1] := by decide
    have hw : (limiter_after_calls (fresh_limiter 5 10) scenario_A_calls).window_seconds = 10 := by
      decide
    rw [hts, hw]
    decide
  ⟨scenario_B.1 key_main 0 scenario_A_calls scenario_B_calls (by decide) rfl rfl hA hB,
    scenario_B.2 (limiter_after_calls (fresh_limiter 5 10) scenario_A_calls) key_main 11
      scenario_B_calls hwf (by decide) hold hB⟩

/-- When the key has a record and the call either blocks or appends without
growing the array, the allocator plays no part in the call. -/
theorem check_alloc_irrelevant (l : RateLimiterC) (key : CString) (now : Int) (a a2 : Alloc)
    (hwf : l.wf) (hrec : timestamps_of l key ≠ [])
    (h : (survivors (now - l.window_seconds) (timestamps_of l key)).length
          < (timestamps_of l key).length ∨
        ¬ ((survivors (now - l.window_seconds) (timestamps_of l key)).length : Int)
          < l.max_requests) :
    check_rate_limit_c l key now a = check_rate_limit_c l key now a2 := by
  cases hf : find_node key (l.table (hash_ip key)) with
  | none => exact absurd (by simp [timestamps_of, record_of, hf]) hrec
  | some res =>
    obtain ⟨before, node, after⟩ := res
    have hts : timestamps_of l key = node.live := by simp [timestamps_of, record_of, hf]
    rw [hts] at h
    obtain ⟨hchain, -, -⟩ := find_node_some key _ _ _ _ hf
    obtain ⟨w1, w2, w3⟩ := hwf (hash_ip key) node (by rw [hchain]; simp)
    have hc : node.count ≤ node.timestamps.length := by omega
    have hfa : ∀ b : Alloc, find_or_create_node l key b = some (l, before, node, after) := by
      intro b; simp [find_or_create_node, hf]
    rw [check_eq l l key now a before node after (hfa a) hc,
      check_eq l l key now a2 before node after (hfa a2) hc]
    have hk : (pruned_node (now - l.window_seconds) node).count
        = (survivors (now - l.window_seconds) node.live).length := rfl
    have hll := live_length_le node
    by_cases hlt : ((pruned_node (now - l.window_seconds) node).count : Int) < l.max_requests
    · have hcap : ¬ node.capacity ≤ (pruned_node (now - l.window_seconds) node).count := by
        rcases h with h | h
        · rw [hk]; omega
        · rw [hk] at hlt; exact absurd hlt h
      simp only [hlt, hcap, if_true, if_false]
    · simp only [hlt, if_false]

theorem survivors_cons_drop (ws t : Int) (ts : List Int) (h : t ≤ ws) :
    survivors ws (t :: ts) = survivors ws ts := by
  have : ¬ ws < t := by omega
  simp [survivors, List.filter_cons, this]

/-- C13 (sliding recovery), as the code has it: for `window_seconds >= 1`. On
a well-formed limiter, if the record of a key holds exactly `max_requests`
timestamps `t1, t2, ..., tm` with `t2 <= ... <= tm` and the clock reading
satisfies `t1 <= now - window_seconds < t2`, then the call at `now` removes
exactly `t1` and returns 1, leaving `t2, ..., tm, now`, and an immediately
following call for the key at the same reading returns 0 and leaves the
record as it is, whatever the allocator does. -/
theorem sliding_recovery (l : RateLimiterC) (key : CString) (now t1 : Int) (rest : List Int)
    (a1 a2 : Alloc) (hwf : l.wf) (hw : 1 ≤ l.window_seconds)
    (hts : timestamps_of l key = t1 :: rest)
    (hfull : l.max_requests = ((t1 :: rest).length : Int))
    (hsorted : rest.Pairwise (fun s t => s ≤ t))
    (h1 : t1 ≤ now - l.window_seconds)
    (h2 : ∀ t2 ∈ rest.head?, now - l.window_seconds < t2) :
    ∃ l1 l2, check_rate_limit_c l key now a1 = some (l1, 1) ∧
      timestamps_of l1 key = rest ++ [now] ∧
      check_rate_limit_c l1 key now a2 = some (l2, 0) ∧
      timestamps_of l2 key = rest ++ [now] := by
  have hrest : ∀ t ∈ rest, now - l.window_seconds < t := by
    cases rest with
    | nil => intro t ht; simp at ht
    | cons t2 r =>
      intro t ht
      have ht2 := h2 t2 (by simp)
      rcases List.mem_cons.mp ht with rfl | hin
      · exact ht2
      · have := (List.pairwise_cons.mp hsorted).1 t hin
        omega
  have hS : survivors (now - l.window_seconds) (timestamps_of l key) = rest := by
    rw [hts, survivors_cons_drop _ _ _ h1]
    exact survivors_eq_self _ _ hrest
  have hrec : timestamps_of l key ≠ [] := by rw [hts]; simp
  have hlt : ((rest.length : Nat) : Int) < l.max_requests := by
    rw [hfull]; simp
  obtain ⟨l1, hc1, hwf1, hm1, hw1, ht1⟩ := check_step_of_record l key now (Alloc.ok a1.junk) hwf
    (Or.inr hrec) rfl rfl rfl
  rw [hS, if_pos hlt] at hc1 ht1
  rw [check_alloc_irrelevant l key now (Alloc.ok a1.junk) a1 hwf hrec
    (Or.inl (by rw [hS, hts]; simp))] at hc1
  have hrec1 : timestamps_of l1 key ≠ [] := by rw [ht1]; simp
  have hS1 : survivors (now - l1.window_seconds) (timestamps_of l1 key) = rest ++ [now] := by
    rw [ht1, hw1]
    apply survivors_eq_self
    intro t ht
    rcases List.mem_append.mp ht with h | h
    · exact hrest t h
    · simp at h; omega
  have hge : ¬ (((rest ++ [now]).length : Nat) : Int) < l1.max_requests := by
    rw [hm1, hfull]; simp
  obtain ⟨l2, hc2, -, -, -, ht2⟩ := check_step_of_record l1 key now (Alloc.ok a2.junk) hwf1
    (Or.inr hrec1) rfl rfl rfl
  rw [hS1, if_neg hge] at hc2 ht2
  rw [check_alloc_irrelevant l1 key now (Alloc.ok a2.junk) a2 hwf1 hrec1
    (Or.inr (by rw [hS1]; exact hge))] at hc2
  exact ⟨l1, l2, hc1, ht1, hc2, ht2⟩

/-- C13 fails as stated when `window_seconds` is 0, which `init_limiter`
accepts. With a quota of 1 and a window of 0 seconds, after one allowed
call at reading 0 the record holds exactly `max_requests` timestamps, the
only one being `0 <= now - window_seconds` for `now = 0`; the call at
reading 0 returns 1, and the immediately following call at the same reading
returns 1 again, not 0. -/
theorem sliding_recovery_fails_zero_window :
    init_limiter true 1 0 = some (fresh_limiter 1 0) ∧
    (run (fresh_limiter 1 0) [⟨key_main, 0, alloc_ok⟩]).map Prod.fst = some limiter_zero_window ∧
    timestamps_of limiter_zero_window key_main = [0] ∧
    limiter_zero_window.max_requests = 1 ∧
    (0 : Int) ≤ 0 - limiter_zero_window.window_seconds ∧
    (check_rate_limit_c limiter_zero_window key_main 0 alloc_ok).map Prod.snd = some 1 ∧
    (check_rate_limit_c (limiter_after limiter_zero_window key_main 0 alloc_ok)
      key_main 0 alloc_ok).map Prod.snd = some 1 :=
  ⟨rfl, rfl, by decide, by decide, by decide, by decide, by decide⟩

/-- The limiter left by calls for keys of at most 15 characters, allocations
succeeding, on a fresh limiter is well formed. -/
theorem limiter_after_calls_wf (m w : Int) (calls : List Call)
    (h : ∀ c ∈ calls, c.ip_address.length ≤ MAX_IP_LEN - 1 ∧ c.alloc.node_ok = true ∧
      c.alloc.ts_ok = true ∧ c.alloc.grow_ok = true) :
    (limiter_after_calls (fresh_limiter m w) calls).wf := by
  obtain ⟨l2, rs, hrun, -, hwf2, -⟩ := run_short_keys calls (fresh_limiter m w)
    (fresh_limiter_wf m w) h
  have : limiter_after_calls (fresh_limiter m w) calls = l2 := by
    simp only [limiter_after_calls, hrun]
  rw [this]
  exact hwf2

/-- Witness of C13: quota 2, window 10 seconds, timestamps 0 and 5 recorded,
the clock reading 10. -/
theorem sliding_recovery_witness :
    limiter_two.wf ∧ (1 : Int) ≤ limiter_two.window_seconds ∧
    timestamps_of limiter_two key_main = 0 :: [5] ∧
    limiter_two.max_requests = (((0 : Int) :: [5]).length : Int) ∧
    ([5] : List Int).Pairwise (fun s t => s ≤ t) ∧
    (0 : Int) ≤ 10 - limiter_two.window_seconds ∧
    (∀ t2 ∈ ([5] : List Int).head?, 10 - limiter_two.window_seconds < t2) ∧
    ∃ l1 l2, check_rate_limit_c limiter_two key_main 10 alloc_grow_fails = some (l1, 1) ∧
      timestamps_of l1 key_main = [5] ++ [10] ∧
      check_rate_limit_c l1 key_main 10 alloc_grow_fails = some (l2, 0) ∧
      timestamps_of l2 key_main = [5] ++ [10] :=
  have hwf : limiter_two.wf := limiter_after_calls_wf 2 10 _ (by
    intro c hc
    simp only [List.mem_cons, List.mem_singleton, List.not_mem_nil, or_false] at hc
    rcases hc with rfl | rfl <;> exact ⟨by decide, rfl, rfl, rfl⟩)
  have h2 : ∀ t2 ∈ ([5] : List Int).head?, 10 - limiter_two.window_seconds < t2 := by
    intro t2 ht2
    simp only [List.head?_cons, Option.mem_def, Option.some.injEq] at ht2
    subst ht2
    decide
  ⟨hwf, by decide, by decide, by decide, by simp, by decide, h2,
    sliding_recovery limiter_two key_main 10 0 [5] alloc_grow_fails alloc_grow_fails hwf
      (by decide) (by decide) (by decide) (by simp) (by decide) h2⟩

/-! ## Window containment -/

/-- The timestamps of the node a call stored back are kept timestamps of the
node it worked on, or the clock reading of the call. -/
theorem check_some_live (l l1 l2 : RateLimiterC) (key : CString) (now : Int) (a : Alloc)
    (before : List HT_Node) (node : HT_Node) (after : List HT_Node) (r : Int)
    (h : find_or_create_node l key a = some (l1, before, node, after))
    (hr : check_rate_limit_c l key now a = some (l2, r)) :
    ∃ node1, l2 = store_node l1 (hash_ip key) before node1 after ∧
      node1.ip_address = node.ip_address ∧ node1.count ≤ node1.timestamps.length ∧
      ∀ t ∈ node1.live, t ∈ survivors (now - l.window_seconds) node.live ∨ t = now := by
  have hc := check_in_bounds l l1 l2 key now a before node after r h hr
  obtain ⟨node1, hl2, hip, hc1, hcase⟩ := check_some l l1 l2 key now a before node after r h hc hr
  refine ⟨node1, hl2, hip, hc1, ?_⟩
  intro t ht
  rcases hcase with ⟨-, -, rfl⟩ | ⟨-, -, hl, -⟩ | ⟨-, -, -, -, rfl⟩
  · rw [pruned_node_live] at ht; exact Or.inl ht
  · rw [hl] at ht
    rcases List.mem_append.mp ht with h1 | h1
    · exact Or.inl h1
    · exact Or.inr (by simpa using h1)
  · have hl : ({ pruned_node (now - l.window_seconds) node with
        capacity := node.capacity * 2 } : HT_Node).live
        = (pruned_node (now - l.window_seconds) node).live := rfl
    rw [hl, pruned_node_live] at ht
    exact Or.inl ht

/-- A call at a clock reading of at most `bound` keeps every stored timestamp
at most `bound`. -/
theorem check_not_after (l l2 : RateLimiterC) (key : CString) (now : Int) (a : Alloc) (r : Int)
    (bound : Int) (hb : l.not_after bound) (hnow : now ≤ bound)
    (hr : check_rate_limit_c l key now a = some (l2, r)) : l2.not_after bound := by
  cases hf : find_or_create_node l key a with
  | none =>
    rw [check_null l key now a hf] at hr
    simp only [Option.some.injEq, Prod.mk.injEq] at hr
    rw [← hr.1]; exact hb
  | some res =>
    obtain ⟨l1, before, node, after⟩ := res
    obtain ⟨node1, hl2, -, hc1, hlive⟩ := check_some_live l l1 l2 key now a before node after r hf hr
    obtain ⟨-, hnode⟩ := find_or_create_node_mem l l1 key a before node after hf
    rw [hl2]
    apply store_node_forall (fun n => n.count ≤ n.timestamps.length ∧ ∀ t ∈ n.live, t ≤ bound)
      l l1 key a before node node1 after hf hb
    refine ⟨hc1, ?_⟩
    intro t ht
    rcases hlive t ht with h1 | h1
    · have hin := survivors_subset _ _ t h1
      rcases hnode with hmem | hnew
      · exact (hb _ node hmem).2 t hin
      · rw [hnew, new_node_live] at hin; simp at hin
    · omega

theorem run_not_after (bound : Int) (calls : List Call) :
    ∀ (l l2 : RateLimiterC) (rs : List Int), l.not_after bound →
      (∀ c ∈ calls, c.current_time ≤ bound) → run l calls = some (l2, rs) →
      l2.not_after bound := by
  induction calls with
  | nil =>
    intro l l2 rs hb _ hrun
    simp only [run, Option.some.injEq, Prod.mk.injEq] at hrun
    rw [← hrun.1]; exact hb
  | cons c cs ih =>
    intro l l2 rs hb hcalls hrun
    rw [run] at hrun
    cases hc : check_rate_limit_c l c.ip_address c.current_time c.alloc with
    | none => simp [hc] at hrun
    | some res =>
      obtain ⟨l1, r⟩ := res
      simp only [hc] at hrun
      cases hrest : run l1 cs with
      | none => simp [hrest] at hrun
      | some res2 =>
        obtain ⟨l3, rs2⟩ := res2
        simp only [hrest, Option.some.injEq, Prod.mk.injEq] at hrun
        obtain ⟨rfl, -⟩ := hrun
        exact ih l1 l3 rs2
          (check_not_after l l1 c.ip_address c.current_time c.alloc r bound hb
            (hcalls c (List.mem_cons_self _ _)) hc)
          (fun c2 hc2 => hcalls c2 (List.mem_cons_of_mem _ hc2)) hrest

/-- After a call, the timestamps found for the key of the call are timestamps
of the node the call stored back. -/
theorem timestamps_of_after_check (l l1 : RateLimiterC) (key : CString) (a : Alloc)
    (before : List HT_Node) (node node1 : HT_Node) (after : List HT_Node)
    (h : find_or_create_node l key a = some (l1, before, node, after))
    (hip : node1.ip_address = node.ip_address) :
    ∀ t ∈ timestamps_of (store_node l1 (hash_ip key) before node1 after) key, t ∈ node1.live := by
  obtain ⟨ht, -, -⟩ := store_node_table l l1 key a before node node1 after h
  obtain ⟨-, -, -, hb, hcase⟩ := find_or_create_node_some l l1 key a before node after h
  have hchain : (store_node l1 (hash_ip key) before node1 after).table (hash_ip key)
      = before ++ node1 :: after := by rw [ht]; simp
  by_cases hk : node1.ip_address = key
  · rw [timestamps_of_chain _ key before node1 after hchain hb hk]
    exact fun t ht => ht
  · rcases hcase with ⟨-, -, hnk⟩ | ⟨hnone, hbn, -, haf, -, -⟩
    · exact absurd (hip.trans hnk) hk
    · have hfn : find_node key (before ++ node1 :: after) = none := by
        rw [find_node_none]
        intro m hm
        rw [hbn, haf] at hm
        rcases List.mem_cons.mp (by simpa using hm) with rfl | hm
        · exact hk
        · exact (find_node_none key _).mp hnone m hm
      intro t ht
      simp [timestamps_of, record_of, hchain, hfn] at ht

/-- A call does not change the configuration of the limiter. -/
theorem check_config (l l2 : RateLimiterC) (key : CString) (now : Int) (a : Alloc) (r : Int)
    (hr : check_rate_limit_c l key now a = some (l2, r)) :
    l2.max_requests = l.max_requests ∧ l2.window_seconds = l.window_seconds := by
  cases hf : find_or_create_node l key a with
  | none =>
    rw [check_null l key now a hf] at hr
    simp only [Option.some.injEq, Prod.mk.injEq] at hr
    rw [← hr.1]; exact ⟨rfl, rfl⟩
  | some res =>
    obtain ⟨l1, before, node, after⟩ := res
    obtain ⟨node1, hl2, -, -, -⟩ := check_some_live l l1 l2 key now a before node after r hf hr
    obtain ⟨-, hmax, hwin⟩ := store_node_table l l1 key a before node node1 after hf
    rw [hl2]; exact ⟨hmax, hwin⟩

theorem run_config (calls : List Call) :
    ∀ (l l2 : RateLimiterC) (rs : List Int), run l calls = some (l2, rs) →
      l2.max_requests = l.max_requests ∧ l2.window_seconds = l.window_seconds := by
  induction calls with
  | nil =>
    intro l l2 rs hrun
    simp only [run, Option.some.injEq, Prod.mk.injEq] at hrun
    rw [← hrun.1]; exact ⟨rfl, rfl⟩
  | cons c cs ih =>
    intro l l2 rs hrun
    rw [run] at hrun
    cases hc : check_rate_limit_c l c.ip_address c.current_time c.alloc with
    | none => simp [hc] at hrun
    | some res =>
      obtain ⟨l1, r⟩ := res
      simp only [hc] at hrun
      cases hrest : run l1 cs with
      | none => simp [hrest] at hrun
      | some res2 =>
        obtain ⟨l3, rs2⟩ := res2
        simp only [hrest, Option.some.injEq, Prod.mk.injEq] at hrun
        obtain ⟨rfl, -⟩ := hrun
        obtain ⟨h1, h2⟩ := check_config l l1 c.ip_address c.current_time c.alloc r hc
        obtain ⟨h3, h4⟩ := ih l1 l3 rs2 hrest
        exact ⟨by rw [h3, h1], by rw [h4, h2]⟩

theorem fresh_limiter_not_after (m w bound : Int) : (fresh_limiter m w).not_after bound := by
  intro i node h
  simp [fresh_limiter] at h

/-- Window containment after one call at a reading that no stored timestamp
exceeds: every timestamp then found for the key of the call is at most the
reading, and is a kept timestamp (later than `now - window_seconds`) or the
reading itself. -/
theorem check_window (l l2 : RateLimiterC) (key : CString) (now : Int) (a : Alloc) (r : Int)
    (hb : l.not_after now) (hr : check_rate_limit_c l key now a = some (l2, r)) :
    ∀ t ∈ timestamps_of l2 key, t ≤ now ∧ (now - l.window_seconds < t ∨ t = now) := by
  cases hf : find_or_create_node l key a with
  | none =>
    rw [check_null l key now a hf] at hr
    simp only [Option.some.injEq, Prod.mk.injEq] at hr
    rw [← hr.1]
    obtain ⟨hnone, -⟩ := find_or_create_node_none l key a hf
    intro t ht
    simp [timestamps_of, record_of, hnone] at ht
  | some res =>
    obtain ⟨l1, before, node, after⟩ := res
    obtain ⟨node1, hl2, hip, -, hlive⟩ := check_some_live l l1 l2 key now a before node after r hf hr
    obtain ⟨-, hnode⟩ := find_or_create_node_mem l l1 key a before node after hf
    intro t ht
    rw [hl2] at ht
    have ht1 := timestamps_of_after_check l l1 key a before node node1 after hf hip t ht
    rcases hlive t ht1 with h1 | h1
    · have hin := survivors_subset _ _ t h1
      have hgt : now - l.window_seconds < t := by
        have := (List.mem_filter.mp h1).2
        simpa using this
      refine ⟨?_, Or.inl hgt⟩
      rcases hnode with hmem | hnew
      · exact (hb _ node hmem).2 t hin
      · rw [hnew, new_node_live] at hin; simp at hin
    · exact ⟨by omega, Or.inr h1⟩

/-- C14 (invariant 1, window containment), as the code has it. For every
sequence of calls with non-decreasing clock readings on the limiter
`init_limiter` builds (any keys and allocator outcomes), after the last call,
which observed `now`, every timestamp `t` in the record of the checked key
satisfies `t <= now`; when `window_seconds >= 0` also
`now - window_seconds <= t`, and when `window_seconds >= 1` indeed
`now - window_seconds < t`. -/
theorem window_containment (calloc_ok : Bool) (max_requests window_seconds : Int)
    (l0 : RateLimiterC) (hinit : init_limiter calloc_ok max_requests window_seconds = some l0)
    (calls : List Call) (c : Call) (l2 : RateLimiterC) (rs : List Int)
    (hmono : ((calls ++ [c]).map Call.current_time).Pairwise (fun s t => s ≤ t))
    (hrun : run l0 (calls ++ [c]) = some (l2, rs)) :
    (∀ t ∈ timestamps_of l2 c.ip_address, t ≤ c.current_time) ∧
    (0 ≤ window_seconds →
      ∀ t ∈ timestamps_of l2 c.ip_address, c.current_time - window_seconds ≤ t) ∧
    (1 ≤ window_seconds →
      ∀ t ∈ timestamps_of l2 c.ip_address, c.current_time - window_seconds < t) := by
  rw [init_limiter_some calloc_ok _ _ l0 hinit] at hrun
  rw [run_append] at hrun
  cases h1 : run (fresh_limiter max_requests window_seconds) calls with
  | none => simp [h1] at hrun
  | some res =>
    obtain ⟨l1, rs1⟩ := res
    simp only [h1] at hrun
    cases hc : check_rate_limit_c l1 c.ip_address c.current_time c.alloc with
    | none => simp [run, hc] at hrun
    | some res2 =>
      obtain ⟨l3, r⟩ := res2
      simp only [run, hc, Option.some.injEq, Prod.mk.injEq] at hrun
      obtain ⟨rfl, -⟩ := hrun
      have hle : ∀ c2 ∈ calls, c2.current_time ≤ c.current_time := by
        intro c2 hc2
        rw [List.map_append, List.pairwise_append] at hmono
        exact hmono.2.2 _ (List.mem_map_of_mem _ hc2) _ (by simp)
      have hb := run_not_after c.current_time calls _ l1 rs1
        (fresh_limiter_not_after _ _ _) hle h1
      have hw : l1.window_seconds = window_seconds :=
        (run_config calls _ l1 rs1 h1).2
      have hall := check_window l1 l3 c.ip_address c.current_time c.alloc r hb hc
      rw [hw] at hall
      refine ⟨fun t ht => (hall t ht).1, fun h0 t ht => ?_, fun h0 t ht => ?_⟩
      · rcases (hall t ht).2 with h | h <;> omega
      · rcases (hall t ht).2 with h | h <;> omega

/-- Witness of C14: the seven calls of scenario A, window 10 seconds. -/
theorem window_containment_witness :
    init_limiter true 5 10 = some (fresh_limiter 5 10) ∧
    ((scenario_A_calls.take 6 ++ [(⟨key_main, 1, alloc_ok⟩ : Call)]).map
      Call.current_time).Pairwise (fun s t => s ≤ t) ∧
    run (fresh_limiter 5 10) (scenario_A_calls.take 6 ++ [(⟨key_main, 1, alloc_ok⟩ : Call)])
      = some (limiter_after_calls (fresh_limiter 5 10) scenario_A_calls, [1, 1, 1, 1, 1, 0, 0]) ∧
    (∀ t ∈ timestamps_of (limiter_after_calls (fresh_limiter 5 10) scenario_A_calls) key_main,
      t ≤ 1) ∧
    ((0 : Int) ≤ 10 →
      ∀ t ∈ timestamps_of (limiter_after_calls (fresh_limiter 5 10) scenario_A_calls) key_main,
        1 - 10 ≤ t) ∧
    ((1 : Int) ≤ 10 →
      ∀ t ∈ timestamps_of (limiter_after_calls (fresh_limiter 5 10) scenario_A_calls) key_main,
        1 - 10 < t) :=
  have hmono : ((scenario_A_calls.take 6 ++ [(⟨key_main, 1, alloc_ok⟩ : Call)]).map
      Call.current_time).Pairwise (fun s t => s ≤ t) := by
    simp [scenario_A_calls]
  ⟨rfl, hmono, rfl,
    window_containment true 5 10 (fresh_limiter 5 10) rfl (scenario_A_calls.take 6)
      ⟨key_main, 1, alloc_ok⟩ _ _ hmono rfl⟩

/-- C14 fails as stated when `window_seconds` is negative, and its strict
form fails when `window_seconds` is 0; `init_limiter` accepts both. After
one call at reading 0 with a window of -1 seconds the record holds the
timestamp 0, below `now - window_seconds = 1`; with a window of 0 seconds
the record holds 0, not later than `now - window_seconds = 0`. -/
theorem window_containment_fails_nonpositive_window :
    init_limiter true 1 (-1) = some (fresh_limiter 1 (-1)) ∧
    run (fresh_limiter 1 (-1)) [⟨key_main, 0, alloc_ok⟩] = some (limiter_negative_window, [1]) ∧
    timestamps_of limiter_negative_window key_main = [0] ∧
    ¬ ((0 : Int) - limiter_negative_window.window_seconds ≤ 0) ∧
    init_limiter true 1 0 = some (fresh_limiter 1 0) ∧
    run (fresh_limiter 1 0) [⟨key_main, 0, alloc_ok⟩] = some (limiter_zero_window, [1]) ∧
    timestamps_of limiter_zero_window key_main = [0] ∧
    ¬ ((0 : Int) - limiter_zero_window.window_seconds < 0) :=
  ⟨rfl, rfl, by decide, by decide, rfl, rfl, by decide, by decide⟩

/-! ## Allocation failure for an unseen key -/

theorem record_of_eq_none (l : RateLimiterC) (key : CString) :
    record_of l key = none ↔ find_node key (l.table (hash_ip key)) = none := by
  unfold record_of
  cases h : find_node key (l.table (hash_ip key)) with
  | none => simp
  | some res => simp

/-- C27 (record-allocation failure fails closed). For a key without record,
when `malloc` of the node or of its timestamp array fails,
`find_or_create_node` returns `NULL` and `check_rate_limit_c` returns 0 and
leaves the limiter as it was: no node is linked into the table. -/
theorem allocation_failure_fails_closed (l : RateLimiterC) (key : CString) (now : Int)
    (a : Alloc) (hunseen : record_of l key = none)
    (hfail : a.node_ok = false ∨ a.ts_ok = false) :
    find_or_create_node l key a = none ∧ check_rate_limit_c l key now a = some (l, 0) := by
  have hnone := (record_of_eq_none l key).mp hunseen
  have hf : find_or_create_node l key a = none := by
    unfold find_or_create_node
    simp only [hnone]
    rcases hfail with h | h
    · simp [h]
    · simp [h]
  exact ⟨hf, check_null l key now a hf⟩

/-- Witness of C27: the first call for `key_main` on a fresh limiter, the node
not being allocated. -/
theorem allocation_failure_fails_closed_witness :
    record_of (fresh_limiter 5 10) key_main = none ∧
    (alloc_node_fails.node_ok = false ∨ alloc_node_fails.ts_ok = false) ∧
    find_or_create_node (fresh_limiter 5 10) key_main alloc_node_fails = none ∧
    check_rate_limit_c (fresh_limiter 5 10) key_main 0 alloc_node_fails
      = some (fresh_limiter 5 10, 0) :=
  ⟨rfl, Or.inl rfl,
    allocation_failure_fails_closed (fresh_limiter 5 10) key_main 0 alloc_node_fails rfl
      (Or.inl rfl)⟩

/-! ## Capacity after a failed growth -/

/-- C30 fails on the code. With a quota of 9, eight calls for `192.168.1.1`
fill the eight slots of its record; in the ninth call `realloc` fails: the
call returns 1 and leaves the record with `capacity = 16` although only 8
slots are allocated (`capacity *= 2` is done before `realloc`). The limiter
is then not well formed, and the next call, whose count 8 is below that
capacity, writes `timestamps[8]`, outside the allocation: the call has no
defined result. -/
theorem capacity_exceeds_allocation_after_failed_growth :
    init_limiter true 9 10 = some (fresh_limiter 9 10) ∧
    (run (fresh_limiter 9 10) failed_growth_calls).map Prod.snd
      = some [1, 1, 1, 1, 1, 1, 1, 1, 1] ∧
    limiter_failed_growth.table (hash_ip key_main) =
      [{ ip_address := key_main, timestamps := [0, 0, 0, 0, 0, 0, 0, 0], count := 8,
         capacity := 16 }] ∧
    ¬ limiter_failed_growth.wf ∧
    (check_rate_limit_c limiter_failed_growth key_main 0 alloc_ok).isNone = true := by
  refine ⟨rfl, by decide, by decide, ?_, by decide⟩
  intro h
  have h1 := h (hash_ip key_main)
    { ip_address := key_main, timestamps := [0, 0, 0, 0, 0, 0, 0, 0], count := 8, capacity := 16 }
    (by decide)
  have h2 := h1.2.2
  revert h2
  decide

/-! ## Ordering of the stored timestamps -/

/-- On a non-decreasing sequence, keeping the timestamps later than the window
start is the same as removing the longest prefix of timestamps that are not. -/
theorem survivors_eq_expired_prefix_removed (ws : Int) :
    ∀ ts : List Int, ts.Pairwise (fun s t => s ≤ t) →
      survivors ws ts = expired_prefix_removed ws ts := by
  intro ts
  induction ts with
  | nil => intro _; rfl
  | cons t rest ih =>
    intro hs
    obtain ⟨hhead, hrest⟩ := List.pairwise_cons.mp hs
    by_cases ht : t ≤ ws
    · rw [survivors_cons_drop ws t rest ht, ih hrest]
      unfold expired_prefix_removed
      rw [List.dropWhile_cons_of_pos (by simpa using ht)]
    · have hall : ∀ x ∈ t :: rest, ws < x := by
        intro x hx
        rcases List.mem_cons.mp hx with rfl | hx
        · omega
        · have := hhead x hx; omega
      rw [survivors_eq_self ws (t :: rest) hall]
      unfold expired_prefix_removed
      rw [List.dropWhile_cons_of_neg (by simpa using ht)]

/-- C24 (prune is prefix removal). For an array `ts` whose first `count`
entries are in non-decreasing order and every window start `w`, the
scan-and-compact loop of `check_rate_limit_c` ends with `valid_index` equal to
the number of entries left when the longest prefix of entries `<= w` is
removed from `ts[0 .. count)`, and with exactly that suffix in
`ts[0 .. valid_index)`; these are also the entries `t > w`, in order. The
array keeps its size. -/
theorem prune_is_prefix_removal (w : Int) (ts : List Int) (count : Nat)
    (hcount : count ≤ ts.length) (hsorted : (ts.take count).Pairwise (fun s t => s ≤ t)) :
    ∃ valid_index ts1, prune_loop w count 0 0 ts = some (valid_index, ts1) ∧
      ts1.take valid_index = expired_prefix_removed w (ts.take count) ∧
      valid_index = (expired_prefix_removed w (ts.take count)).length ∧
      ts1.take valid_index = (ts.take count).filter (fun t => decide (t > w)) ∧
      ts1.length = ts.length := by
  have hspec := prune_loop_spec w count 0 0 ts (le_refl 0) (by omega)
  simp only [List.drop_zero, List.take_zero, List.nil_append, Nat.zero_add] at hspec
  have hle : (survivors w (ts.take count)).length ≤ count := by
    have := survivors_length_le w (ts.take count)
    rw [List.length_take] at this
    omega
  have heq := survivors_eq_expired_prefix_removed w (ts.take count) hsorted
  refine ⟨_, _, hspec, ?_, ?_, ?_, ?_⟩
  · rw [List.take_left', heq]
    rfl
  · rw [heq]
  · rw [List.take_left']
    · rfl
    · rfl
  · rw [List.length_append, List.length_drop]
    omega

/-- Witness of C24: the array 1, 2, 2, 5, 7 with all five entries in use and
the window start 2. -/
theorem prune_is_prefix_removal_witness :
    (5 : Nat) ≤ ([1, 2, 2, 5, 7] : List Int).length ∧
    (([1, 2, 2, 5, 7] : List Int).take 5).Pairwise (fun s t => s ≤ t) ∧
    ∃ valid_index ts1, prune_loop 2 5 0 0 [1, 2, 2, 5, 7] = some (valid_index, ts1) ∧
      ts1.take valid_index = expired_prefix_removed 2 (([1, 2, 2, 5, 7] : List Int).take 5) ∧
      valid_index = (expired_prefix_removed 2 (([1, 2, 2, 5, 7] : List Int).take 5)).length ∧
      ts1.take valid_index
        = (([1, 2, 2, 5, 7] : List Int).take 5).filter (fun t => decide (t > 2)) ∧
      ts1.length = ([1, 2, 2, 5, 7] : List Int).length :=
  ⟨by decide, by decide, prune_is_prefix_removal 2 [1, 2, 2, 5, 7] 5 (by decide) (by decide)⟩

theorem survivors_pairwise (ws : Int) (ts : List Int) (h : ts.Pairwise (fun s t => s ≤ t)) :
    (survivors ws ts).Pairwise (fun s t => s ≤ t) :=
  List.Pairwise.sublist (List.filter_sublist ts) h

/-- A call at a clock reading that no stored timestamp exceeds keeps every
record in non-decreasing order, with no timestamp later than the reading. -/
theorem check_ordered (l l2 : RateLimiterC) (key : CString) (now : Int) (a : Alloc) (r : Int)
    (bound : Int) (hb : l.ordered bound) (hnow : bound ≤ now)
    (hr : check_rate_limit_c l key now a = some (l2, r)) : l2.ordered now := by
  have hb2 : ∀ i, ∀ m ∈ l.table i,
      m.live.Pairwise (fun s t => s ≤ t) ∧ ∀ t ∈ m.live, t ≤ now := by
    intro i m hm
    obtain ⟨h1, h2⟩ := hb i m hm
    exact ⟨h1, fun t ht => le_trans (h2 t ht) hnow⟩
  cases hf : find_or_create_node l key a with
  | none =>
    rw [check_null l key now a hf] at hr
    simp only [Option.some.injEq, Prod.mk.injEq] at hr
    rw [← hr.1]; exact hb2
  | some res =>
    obtain ⟨l1, before, node, after⟩ := res
    have hc := check_in_bounds l l1 l2 key now a before node after r hf hr
    obtain ⟨node1, hl2, -, -, hcase⟩ := check_some l l1 l2 key now a before node after r hf hc hr
    obtain ⟨-, hnode⟩ := find_or_create_node_mem l l1 key a before node after hf
    have hnode2 : node.live.Pairwise (fun s t => s ≤ t) ∧ ∀ t ∈ node.live, t ≤ now := by
      rcases hnode with hmem | hnew
      · exact hb2 _ node hmem
      · rw [hnew, new_node_live]
        exact ⟨List.Pairwise.nil, fun t ht => by simp at ht⟩
    have hsurv : (survivors (now - l.window_seconds) node.live).Pairwise (fun s t => s ≤ t) ∧
        ∀ t ∈ survivors (now - l.window_seconds) node.live, t ≤ now :=
      ⟨survivors_pairwise _ _ hnode2.1,
        fun t ht => hnode2.2 t (survivors_subset _ _ t ht)⟩
    rw [hl2]
    apply store_node_forall
      (fun n => n.live.Pairwise (fun s t => s ≤ t) ∧ ∀ t ∈ n.live, t ≤ now)
      l l1 key a before node node1 after hf hb2
    rcases hcase with ⟨-, -, rfl⟩ | ⟨-, -, hl, -⟩ | ⟨-, -, -, -, rfl⟩
    · rw [pruned_node_live]; exact hsurv
    · rw [hl]
      refine ⟨?_, ?_⟩
      · rw [List.pairwise_append]
        refine ⟨hsurv.1, List.pairwise_singleton _ _, ?_⟩
        intro s hs t ht
        rw [List.mem_singleton] at ht
        rw [ht]; exact hsurv.2 s hs
      · intro t ht
        rcases List.mem_append.mp ht with h1 | h1
        · exact hsurv.2 t h1
        · rw [List.mem_singleton] at h1; omega
    · have hl : ({ pruned_node (now - l.window_seconds) node with
          capacity := node.capacity * 2 } : HT_Node).live
          = (pruned_node (now - l.window_seconds) node).live := rfl
      rw [hl, pruned_node_live]; exact hsurv

theorem run_ordered (calls : List Call) :
    ∀ (l l2 : RateLimiterC) (rs : List Int) (bound : Int), l.ordered bound →
      (∀ c ∈ calls, bound ≤ c.current_time) →
      (calls.map Call.current_time).Pairwise (fun s t => s ≤ t) →
      run l calls = some (l2, rs) → ∃ bound2, l2.ordered bound2 := by
  induction calls with
  | nil =>
    intro l l2 rs bound hb _ _ hrun
    simp only [run, Option.some.injEq, Prod.mk.injEq] at hrun
    rw [← hrun.1]; exact ⟨bound, hb⟩
  | cons c cs ih =>
    intro l l2 rs bound hb hcalls hmono hrun
    rw [run] at hrun
    cases hc : check_rate_limit_c l c.ip_address c.current_time c.alloc with
    | none => simp [hc] at hrun
    | some res =>
      obtain ⟨l1, r⟩ := res
      simp only [hc] at hrun
      cases hrest : run l1 cs with
      | none => simp [hrest] at hrun
      | some res2 =>
        obtain ⟨l3, rs2⟩ := res2
        simp only [hrest, Option.some.injEq, Prod.mk.injEq] at hrun
        obtain ⟨rfl, -⟩ := hrun
        rw [List.map_cons, List.pairwise_cons] at hmono
        refine ih l1 l3 rs2 c.current_time
          (check_ordered l l1 c.ip_address c.current_time c.alloc r bound hb
            (hcalls c (List.mem_cons_self _ _)) hc) ?_ hmono.2 hrest
        intro c2 hc2
        exact hmono.1 c2.current_time (List.mem_map_of_mem _ hc2)

theorem fresh_limiter_ordered (m w bound : Int) : (fresh_limiter m w).ordered bound := by
  intro i node h
  simp [fresh_limiter] at h

/-- C23 (invariant 3, ordering). In every limiter reached from the one
`init_limiter` builds by calls of `check_rate_limit_c` whose clock readings
do not decrease, whatever the keys, the two configuration values and the
allocator outcomes, the stored timestamps of every node of every chain are in
non-decreasing order. -/
theorem ordering_invariant (calloc_ok : Bool) (max_requests window_seconds : Int)
    (l0 : RateLimiterC)
    (hinit : init_limiter calloc_ok max_requests window_seconds = some l0)
    (calls : List Call)
    (hmono : (calls.map Call.current_time).Pairwise (fun s t => s ≤ t))
    (l : RateLimiterC) (rs : List Int) (hrun : run l0 calls = some (l, rs)) :
    ∀ i, ∀ node ∈ l.table i, node.live.Pairwise (fun s t => s ≤ t) := by
  rw [init_limiter_some calloc_ok _ _ l0 hinit] at hrun
  cases calls with
  | nil =>
    simp only [run, Option.some.injEq, Prod.mk.injEq] at hrun
    rw [← hrun.1]
    intro i node h
    simp [fresh_limiter] at h
  | cons c cs =>
    have hmono2 := hmono
    rw [List.map_cons, List.pairwise_cons] at hmono2
    obtain ⟨bound2, hb2⟩ := run_ordered (c :: cs) (fresh_limiter max_requests window_seconds)
      l rs c.current_time (fresh_limiter_ordered _ _ _)
      (by
        intro c2 hc2
        rcases List.mem_cons.mp hc2 with rfl | h
        · exact le_refl _
        · exact hmono2.1 c2.current_time (List.mem_map_of_mem _ h))
      hmono hrun
    intro i node hn
    exact (hb2 i node hn).1

/-- Witness of C23: the limiter after the seven calls of scenario A. -/
theorem ordering_invariant_witness :
    init_limiter true 5 10 = some (fresh_limiter 5 10) ∧
    (scenario_A_calls.map Call.current_time).Pairwise (fun s t => s ≤ t) ∧
    run (fresh_limiter 5 10) scenario_A_calls
      = some (limiter_after_calls (fresh_limiter 5 10) scenario_A_calls, [1, 1, 1, 1, 1, 0, 0]) ∧
    ∀ i, ∀ node ∈ (limiter_after_calls (fresh_limiter 5 10) scenario_A_calls).table i,
      node.live.Pairwise (fun s t => s ≤ t) :=
  ⟨rfl, by decide, rfl,
    ordering_invariant true 5 10 (fresh_limiter 5 10) rfl scenario_A_calls (by decide) _ _ rfl⟩

/-! ## The first call for a key without record -/

/-- A call for a key the search loop does not find, the two `malloc`
succeeding: a new node is linked at the head of the bucket of the key; with a
quota of at least 1 the call returns 1 and the node holds the clock reading,
otherwise it returns 0 and the node holds nothing. -/
theorem check_unseen (l : RateLimiterC) (key : CString) (now : Int) (a : Alloc)
    (hnone : find_node key (l.table (hash_ip key)) = none)
    (hnode : a.node_ok = true) (hts : a.ts_ok = true) :
    check_rate_limit_c l key now a =
      if (0 : Int) < l.max_requests then
        some (link_node l (hash_ip key) (first_admission (new_node key a.junk) now), 1)
      else some (link_node l (hash_ip key) (new_node key a.junk), 0) := by
  have hf : find_or_create_node l key a =
      some (link_node l (hash_ip key) (new_node key a.junk),
            [], new_node key a.junk, l.table (hash_ip key)) := by
    unfold find_or_create_node link_node
    simp [hnone, hnode, hts]
  have hc : (new_node key a.junk).count ≤ (new_node key a.junk).timestamps.length := by
    simp [new_node, fresh_array]
  rw [check_eq l _ key now a [] (new_node key a.junk) (l.table (hash_ip key)) hf hc]
  have hp : pruned_node (now - l.window_seconds) (new_node key a.junk) = new_node key a.junk :=
    pruned_node_eq_self _ _ (Nat.zero_le _)
  rw [hp]
  have h0 : ((new_node key a.junk).count : Int) = 0 := rfl
  have hcap : ¬ (new_node key a.junk).capacity ≤ (new_node key a.junk).count := by
    simp [new_node]
  have hlen : (new_node key a.junk).count < (new_node key a.junk).timestamps.length := by
    simp [new_node, fresh_array]
  rw [h0, if_neg hcap, if_pos hlen]
  by_cases hm : (0 : Int) < l.max_requests
  · rw [if_pos hm, if_pos hm]
    have hz : (new_node key a.junk).count = 0 := rfl
    simp [store_node, link_node, first_admission, hz]
  · rw [if_neg hm, if_neg hm]
    simp [store_node, link_node]

/-- A property of limiters that every call keeps, for calls of some kind, is
kept by every sequence of calls of that kind. -/
theorem run_preserves (P : RateLimiterC → Prop) (Q : Call → Prop)
    (hstep : ∀ (l l2 : RateLimiterC) (c : Call) (r : Int), P l → Q c →
      check_rate_limit_c l c.ip_address c.current_time c.alloc = some (l2, r) → P l2)
    (calls : List Call) :
    ∀ (l l2 : RateLimiterC) (rs : List Int), P l → (∀ c ∈ calls, Q c) →
      run l calls = some (l2, rs) → P l2 := by
  induction calls with
  | nil =>
    intro l l2 rs hP _ hrun
    simp only [run, Option.some.injEq, Prod.mk.injEq] at hrun
    rw [← hrun.1]; exact hP
  | cons c cs ih =>
    intro l l2 rs hP hQ hrun
    rw [run] at hrun
    cases hc : check_rate_limit_c l c.ip_address c.current_time c.alloc with
    | none => simp [hc] at hrun
    | some res =>
      obtain ⟨l1, r⟩ := res
      simp only [hc] at hrun
      cases hrest : run l1 cs with
      | none => simp [hrest] at hrun
      | some res2 =>
        obtain ⟨l3, rs2⟩ := res2
        simp only [hrest, Option.some.injEq, Prod.mk.injEq] at hrun
        obtain ⟨rfl, -⟩ := hrun
        exact ih l1 l3 rs2 (hstep l l1 c r hP (hQ c (List.mem_cons_self _ _)) hc)
          (fun c2 hc2 => hQ c2 (List.mem_cons_of_mem _ hc2)) hrest

/-- A call keeps every stored key within 15 characters. -/
theorem check_keys_fit (l l2 : RateLimiterC) (key : CString) (now : Int) (a : Alloc) (r : Int)
    (hk : l.keys_fit) (hr : check_rate_limit_c l key now a = some (l2, r)) : l2.keys_fit := by
  cases hf : find_or_create_node l key a with
  | none =>
    rw [check_null l key now a hf] at hr
    simp only [Option.some.injEq, Prod.mk.injEq] at hr
    rw [← hr.1]; exact hk
  | some res =>
    obtain ⟨l1, before, node, after⟩ := res
    obtain ⟨node1, hl2, hip, -, -⟩ := check_some_live l l1 l2 key now a before node after r hf hr
    obtain ⟨-, hnode⟩ := find_or_create_node_mem l l1 key a before node after hf
    rw [hl2]
    apply store_node_forall (fun n => n.ip_address.length ≤ MAX_IP_LEN - 1)
      l l1 key a before node node1 after hf hk
    show node1.ip_address.length ≤ MAX_IP_LEN - 1
    rw [hip]
    rcases hnode with hmem | hnew
    · exact hk _ node hmem
    · rw [hnew]
      simp only [new_node, List.length_take]
      omega

theorem run_keys_fit (calls : List Call) (l l2 : RateLimiterC) (rs : List Int)
    (hk : l.keys_fit) (hrun : run l calls = some (l2, rs)) : l2.keys_fit :=
  run_preserves (fun l => l.keys_fit) (fun _ => True)
    (fun l l2 c r hP _ hc => check_keys_fit l l2 c.ip_address c.current_time c.alloc r hP hc)
    calls l l2 rs hk (fun _ _ => trivial) hrun

theorem fresh_limiter_keys_fit (m w : Int) : (fresh_limiter m w).keys_fit := by
  intro i node h
  simp [fresh_limiter] at h

/-- In a limiter whose stored keys have at most 15 characters, the search loop
finds no node for a key of 16 characters or more. -/
theorem find_node_long_key (l : RateLimiterC) (key : CString) (hk : l.keys_fit)
    (hlong : MAX_IP_LEN ≤ key.length) : find_node key (l.table (hash_ip key)) = none := by
  rw [find_node_none]
  intro m hm heq
  have h1 : m.ip_address.length ≤ 15 := hk _ m hm
  have h2 : 16 ≤ key.length := hlong
  rw [heq] at h1
  omega

theorem first_admission_new_node (key : CString) (junk : Nat → Int) (now : Int) :
    (first_admission (new_node key junk) now).live = [now] ∧
    (first_admission (new_node key junk) now).ip_address = key.take (MAX_IP_LEN - 1) ∧
    (first_admission (new_node key junk) now).capacity = 8 ∧
    (first_admission (new_node key junk) now).timestamps.length = 8 :=
  ⟨rfl, rfl, rfl, rfl⟩

theorem link_node_table (l : RateLimiterC) (index : Fin HASH_TABLE_SIZE) (node : HT_Node) :
    (link_node l index node).table index = node :: l.table index ∧
    (∀ i, i ≠ index → (link_node l index node).table i = l.table i) ∧
    (link_node l index node).max_requests = l.max_requests ∧
    (link_node l index node).window_seconds = l.window_seconds := by
  refine ⟨?_, ?_, rfl, rfl⟩
  · simp [link_node]
  · intro i hi
    simp [link_node, Function.update_noteq hi]

/-- Lazy creation for keys of at most 15 characters. The limiter
`init_limiter` builds has its 1024 buckets empty. In any limiter, a call for
a key of at most 15 characters without record, the two `malloc` succeeding,
links exactly one new node at the head of bucket `hash_ip key`, with that key
and 8 slots, and leaves every other chain and the nodes already in that
bucket as they were; with `max_requests >= 1` the call returns 1 and the
node holds exactly the clock reading, otherwise it returns 0 and the node
holds nothing. -/
theorem lazy_creation_short_keys (calloc_ok : Bool) (max_requests window_seconds : Int)
    (l0 : RateLimiterC)
    (hinit : init_limiter calloc_ok max_requests window_seconds = some l0) :
    (∀ i, l0.table i = []) ∧
    ∀ (l : RateLimiterC) (key : CString) (now : Int) (a : Alloc),
      key.length ≤ MAX_IP_LEN - 1 → record_of l key = none →
      a.node_ok = true → a.ts_ok = true →
      ∃ l2 r node1, check_rate_limit_c l key now a = some (l2, r) ∧
        l2.table (hash_ip key) = node1 :: l.table (hash_ip key) ∧
        (∀ i, i ≠ hash_ip key → l2.table i = l.table i) ∧
        node1.ip_address = key ∧ node1.capacity = 8 ∧ node1.timestamps.length = 8 ∧
        record_of l2 key = some node1 ∧
        (1 ≤ l.max_requests → r = 1 ∧ node1.live = [now]) ∧
        (l.max_requests < 1 → r = 0 ∧ node1.live = []) := by
  refine ⟨?_, ?_⟩
  · rw [init_limiter_some calloc_ok _ _ l0 hinit]
    intro i; rfl
  · intro l key now a hkey hunseen hnode hts
    have hnone := (record_of_eq_none l key).mp hunseen
    have hcheck := check_unseen l key now a hnone hnode hts
    have htake : key.take (MAX_IP_LEN - 1) = key := List.take_of_length_le hkey
    by_cases hm : (0 : Int) < l.max_requests
    · rw [if_pos hm] at hcheck
      obtain ⟨h1, h2, -, -⟩ := link_node_table l (hash_ip key)
        (first_admission (new_node key a.junk) now)
      obtain ⟨g1, g2, g3, g4⟩ := first_admission_new_node key a.junk now
      refine ⟨_, _, _, hcheck, h1, h2, by rw [g2, htake], g3, g4, ?_,
        fun _ => ⟨rfl, g1⟩, fun h => by omega⟩
      unfold record_of
      rw [h1, find_node, if_pos (by rw [g2, htake])]
    · rw [if_neg hm] at hcheck
      obtain ⟨h1, h2, -, -⟩ := link_node_table l (hash_ip key) (new_node key a.junk)
      have g2 : (new_node key a.junk).ip_address = key := htake
      refine ⟨_, _, _, hcheck, h1, h2, g2, rfl, rfl, ?_,
        fun h => by omega, fun _ => ⟨rfl, rfl⟩⟩
      unfold record_of
      rw [h1, find_node, if_pos g2]

/-- C25 fails on the code for a key of 16 characters or more. The first call
for `192.168.100.101:5001` (20 characters) on a fresh limiter returns 1 and
links one node, but the node is stored under `192.168.100.101`, the first 15
characters, which is another key: after the call the key still has no record,
and the other key has one, holding the clock reading. -/
theorem lazy_creation_truncates_long_key :
    init_limiter true 5 10 = some (fresh_limiter 5 10) ∧
    record_of (fresh_limiter 5 10) key_long = none ∧
    (check_rate_limit_c (fresh_limiter 5 10) key_long 0 alloc_ok).map Prod.snd = some 1 ∧
    (limiter_after (fresh_limiter 5 10) key_long 0 alloc_ok).table (hash_ip key_long) =
      [{ ip_address := key_short, timestamps := [0, 0, 0, 0, 0, 0, 0, 0], count := 1,
         capacity := 8 }] ∧
    key_short ≠ key_long ∧
    record_of (limiter_after (fresh_limiter 5 10) key_long 0 alloc_ok) key_long = none ∧
    timestamps_of (limiter_after (fresh_limiter 5 10) key_long 0 alloc_ok) key_short = [0] := by
  refine ⟨rfl, by decide, by decide, by decide, by decide, by decide, by decide⟩

/-! ## Keys of 16 characters or more -/

/-- C28 (keys of 16 characters or more are never rate limited). In every
limiter reached from the one `init_limiter` builds, with `max_requests >= 1`,
by any earlier calls, a call for a key of 16 characters or more in which the
two `malloc` succeed finds no node for the key, links at the head of the
bucket of the key a new node stored under the first 15 characters of the
key, holding the clock reading, and returns 1; the key still has no record
afterwards. -/
theorem long_keys_never_limited (calloc_ok : Bool) (max_requests window_seconds : Int)
    (hm : 1 ≤ max_requests) (l0 : RateLimiterC)
    (hinit : init_limiter calloc_ok max_requests window_seconds = some l0)
    (earlier : List Call) (l : RateLimiterC) (rs : List Int)
    (hrun : run l0 earlier = some (l, rs))
    (key : CString) (hlong : MAX_IP_LEN ≤ key.length) (now : Int) (a : Alloc)
    (hnode : a.node_ok = true) (hts : a.ts_ok = true) :
    record_of l key = none ∧
    ∃ l2 node1, check_rate_limit_c l key now a = some (l2, 1) ∧
      l2.table (hash_ip key) = node1 :: l.table (hash_ip key) ∧
      (∀ i, i ≠ hash_ip key → l2.table i = l.table i) ∧
      node1.ip_address = key.take (MAX_IP_LEN - 1) ∧ node1.live = [now] ∧
      node1.capacity = 8 ∧ record_of l2 key = none := by
  rw [init_limiter_some calloc_ok _ _ l0 hinit] at hrun
  have hfit : l.keys_fit :=
    run_keys_fit earlier _ l rs (fresh_limiter_keys_fit max_requests window_seconds) hrun
  have hmax : l.max_requests = max_requests := (run_config earlier _ l rs hrun).1
  have hnone := find_node_long_key l key hfit hlong
  have hcheck := check_unseen l key now a hnone hnode hts
  rw [if_pos (by rw [hmax]; omega)] at hcheck
  obtain ⟨h1, h2, -, -⟩ := link_node_table l (hash_ip key)
    (first_admission (new_node key a.junk) now)
  obtain ⟨g1, g2, g3, -⟩ := first_admission_new_node key a.junk now
  refine ⟨(record_of_eq_none l key).mpr hnone, _, _, hcheck, h1, h2, g2, g1, g3, ?_⟩
  have hfit2 := check_keys_fit l _ key now a 1 hfit hcheck
  exact (record_of_eq_none _ key).mpr (find_node_long_key _ key hfit2 hlong)

/-- Witness of C28: a third call for `192.168.100.101:5001` after two calls
for it, with a quota of 1. -/
theorem long_keys_never_limited_witness :
    (1 : Int) ≤ 1 ∧ init_limiter true 1 10 = some (fresh_limiter 1 10) ∧
    run (fresh_limiter 1 10) [⟨key_long, 0, alloc_ok⟩, ⟨key_long, 0, alloc_ok⟩]
      = some (limiter_after_calls (fresh_limiter 1 10)
          [⟨key_long, 0, alloc_ok⟩, ⟨key_long, 0, alloc_ok⟩], [1, 1]) ∧
    MAX_IP_LEN ≤ key_long.length ∧
    alloc_ok.node_ok = true ∧ alloc_ok.ts_ok = true ∧
    record_of (limiter_after_calls (fresh_limiter 1 10)
      [⟨key_long, 0, alloc_ok⟩, ⟨key_long, 0, alloc_ok⟩]) key_long = none ∧
    ∃ l2 node1, check_rate_limit_c (limiter_after_calls (fresh_limiter 1 10)
        [⟨key_long, 0, alloc_ok⟩, ⟨key_long, 0, alloc_ok⟩]) key_long 0 alloc_ok = some (l2, 1) ∧
      l2.table (hash_ip key_long) = node1 :: (limiter_after_calls (fresh_limiter 1 10)
        [⟨key_long, 0, alloc_ok⟩, ⟨key_long, 0, alloc_ok⟩]).table (hash_ip key_long) ∧
      (∀ i, i ≠ hash_ip key_long → l2.table i = (limiter_after_calls (fresh_limiter 1 10)
        [⟨key_long, 0, alloc_ok⟩, ⟨key_long, 0, alloc_ok⟩]).table i) ∧
      node1.ip_address = key_long.take (MAX_IP_LEN - 1) ∧ node1.live = [0] ∧
      node1.capacity = 8 ∧ record_of l2 key_long = none :=
  ⟨by decide, rfl, rfl, by decide, rfl, rfl,
    long_keys_never_limited true 1 10 (by decide) (fresh_limiter 1 10) rfl
      [⟨key_long, 0, alloc_ok⟩, ⟨key_long, 0, alloc_ok⟩] _ _ rfl key_long (by decide) 0
      alloc_ok rfl rfl⟩

/-! ## Sequential burst -/

/-- C26 (lock discipline). The statement-by-statement reading of
`check_rate_limit_c` has the result of `check_rate_limit_c`, and on each of
its paths (no node allocated, growth failed, admission, denial) its events
are: `pthread_mutex_lock` first, then only reads and writes of the table and
of the record, then, when the call returns, `pthread_mutex_unlock` last. So
the mutex is taken exactly once, at entry, released exactly once, right
before the return, and every access to the table or to a record lies between
the two. -/
theorem lock_discipline (l : RateLimiterC) (key : CString) (now : Int) (a : Alloc) :
    (check_rate_limit_c_events l key now a).2 = check_rate_limit_c l key now a ∧
    ∃ mid, (∀ e ∈ mid, e = Event.table ∨ e = Event.record) ∧
      (check_rate_limit_c_events l key now a).1 =
        Event.lock :: mid ++
          (if (check_rate_limit_c l key now a).isSome = true then [Event.unlock] else []) := by
  have hmem : ∀ (n : Nat) (xs : List Event), (∀ e ∈ xs, e = Event.record) →
      ∀ e ∈ Event.table :: (List.replicate n Event.record ++ xs),
        e = Event.table ∨ e = Event.record := by
    intro n xs hxs e he
    rcases List.mem_cons.mp he with h | h
    · exact Or.inl h
    · rcases List.mem_append.mp h with h | h
      · exact Or.inr (List.eq_of_mem_replicate h)
      · exact Or.inr (hxs e h)
  unfold check_rate_limit_c_events check_rate_limit_c
  cases hf : find_or_create_node l key a with
  | none => exact ⟨rfl, [Event.table], by simp, by simp⟩
  | some res =>
    obtain ⟨l1, before, node, after⟩ := res
    dsimp only
    cases hp : prune_loop (now - l1.window_seconds) node.count 0 0 node.timestamps with
    | none =>
      exact ⟨by trivial, Event.table :: (List.replicate node.count Event.record ++ []),
        hmem _ [] (by simp), by simp⟩
    | some res2 =>
      obtain ⟨valid_index, ts⟩ := res2
      dsimp only
      by_cases h1 : (valid_index : Int) < l1.max_requests
      · simp only [h1, if_true]
        by_cases h2 : valid_index ≥ node.capacity
        · simp only [h2, if_true]
          by_cases h3 : a.grow_ok = false
          · simp only [h3, if_true]
            exact ⟨by trivial, Event.table :: (List.replicate node.count Event.record
                ++ [Event.record, Event.record, Event.record, Event.record, Event.record]),
              hmem _ _ (by simp), by simp⟩
          · simp only [h3, if_false]
            by_cases h4 : valid_index < (realloc_array a.junk ts (node.capacity * 2)).length
            · simp only [h4, if_true]
              exact ⟨by trivial, Event.table :: (List.replicate node.count Event.record
                  ++ [Event.record, Event.record, Event.record, Event.record, Event.record,
                      Event.record, Event.record]),
                hmem _ _ (by simp), by simp⟩
            · simp only [h4, if_false]
              exact ⟨by trivial, Event.table :: (List.replicate node.count Event.record
                  ++ [Event.record, Event.record, Event.record, Event.record, Event.record,
                      Event.record]),
                hmem _ _ (by simp), by simp⟩
        · simp only [h2, if_false]
          by_cases h4 : valid_index < ts.length
          · simp only [h4, if_true]
            exact ⟨by trivial, Event.table :: (List.replicate node.count Event.record
                ++ [Event.record, Event.record, Event.record, Event.record]),
              hmem _ _ (by simp), by simp⟩
          · simp only [h4, if_false]
            exact ⟨by trivial, Event.table :: (List.replicate node.count Event.record
                ++ [Event.record, Event.record, Event.record]),
              hmem _ _ (by simp), by simp⟩
      · simp only [h1, if_false]
        exact ⟨by trivial, Event.table :: (List.replicate node.count Event.record
            ++ [Event.record, Event.record]),
          hmem _ _ (by simp), by simp⟩

/-! ## Quotas of at most 8 -/

/-- With a quota of at most 8 and every node at its initial capacity, a call
does not reach the growth of the array, has a result, keeps every node at
its initial capacity, and, when it returns 1, has stored the clock reading
after the kept timestamps of the node it worked on. -/
theorem check_small_quota (l : RateLimiterC) (key : CString) (now : Int) (a : Alloc)
    (hinv : l.initial_capacity) (hmax : l.max_requests ≤ 8) :
    growth_attempted l key now a = false ∧
    ∃ l2 r, check_rate_limit_c l key now a = some (l2, r) ∧ (r = 0 ∨ r = 1) ∧
      l2.initial_capacity ∧ l2.max_requests = l.max_requests ∧
      (r = 1 → ∃ l1 before node after node1,
        find_or_create_node l key a = some (l1, before, node, after) ∧
        l2 = store_node l1 (hash_ip key) before node1 after ∧
        node1.ip_address = node.ip_address ∧
        node1.live = survivors (now - l.window_seconds) node.live ++ [now]) := by
  cases hf : find_or_create_node l key a with
  | none =>
    refine ⟨by simp [growth_attempted, hf], l, 0, check_null l key now a hf, Or.inl rfl,
      hinv, rfl, fun h => absurd h (by decide)⟩
  | some res =>
    obtain ⟨l1, before, node, after⟩ := res
    obtain ⟨hmax1, hwin1, -, -, -⟩ := find_or_create_node_some l l1 key a before node after hf
    obtain ⟨-, hnode⟩ := find_or_create_node_mem l l1 key a before node after hf
    have hn : node.wf ∧ node.capacity = 8 := by
      rcases hnode with hmem | hnew
      · exact hinv _ node hmem
      · rw [hnew]; exact ⟨new_node_wf key a.junk, rfl⟩
    obtain ⟨⟨hw1, hw2, hw3⟩, hcap⟩ := hn
    have hc : node.count ≤ node.timestamps.length := by omega
    have hprune := prune_loop_node (now - l.window_seconds) node hc
    have hpc : (pruned_node (now - l.window_seconds) node).count
        = (survivors (now - l.window_seconds) node.live).length := rfl
    have hple := pruned_node_count_le (now - l.window_seconds) node
    have hnogrow : ∀ k : Nat, (k : Int) < l.max_requests → ¬ node.capacity ≤ k := by
      intro k hk
      rw [hcap]
      omega
    refine ⟨?_, ?_⟩
    · unfold growth_attempted
      simp only [hf]
      rw [hwin1, hprune]
      simp only [decide_eq_false_iff_not, not_and, hmax1]
      intro hlt
      exact hnogrow _ hlt
    · obtain ⟨l2, hr⟩ := check_defined l l1 key now a before node after hf ⟨hw1, hw2, hw3⟩
      obtain ⟨node1, hl2, hip, -, hcase⟩ :=
        check_some l l1 l2 key now a before node after _ hf hc hr
      have hstore : ∀ n1 : HT_Node, (n1.wf ∧ n1.capacity = 8) →
          (store_node l1 (hash_ip key) before n1 after).initial_capacity := by
        intro n1 hn1
        exact store_node_forall (fun n => n.wf ∧ n.capacity = 8) l l1 key a before node n1 after
          hf hinv hn1
      have hcfg := (store_node_table l l1 key a before node node1 after hf).2.1
      refine ⟨l2, _, hr, ?_, ?_, by rw [hl2]; exact hcfg, ?_⟩
      · by_cases hlt : ((survivors (now - l.window_seconds) node.live).length : Int)
            < l.max_requests
        · rw [if_pos hlt]; exact Or.inr rfl
        · rw [if_neg hlt]; exact Or.inl rfl
      · rw [hl2]
        apply hstore
        rcases hcase with ⟨-, -, rfl⟩ | ⟨-, hlt, -, hcount, -, hsame⟩ | ⟨-, hlt, hfull, -, -⟩
        · refine ⟨⟨le_trans hple hw1, hw2, ?_⟩, hcap⟩
          rw [pruned_node_length _ _ hc]; exact hw3
        · obtain ⟨h1, h2⟩ := hsame (hnogrow _ hlt)
          have := hnogrow _ hlt
          refine ⟨⟨?_, ?_, ?_⟩, by rw [h1]; exact hcap⟩
          · rw [hcount, h1]; omega
          · rw [h1]; exact hw2
          · rw [h1, h2]; exact hw3
        · exact absurd hfull (hnogrow _ hlt)
      · intro hr1
        rcases hcase with ⟨h0, -, -⟩ | ⟨-, hlt, hlive, -, -, -⟩ | ⟨-, hlt, hfull, -, -⟩
        · rw [h0] at hr1; exact absurd hr1 (by decide)
        · exact ⟨l1, before, node, after, node1, rfl, hl2, hip, hlive⟩
        · exact absurd hfull (hnogrow _ hlt)

theorem run_small_quota (calls : List Call) :
    ∀ l : RateLimiterC, l.initial_capacity → l.max_requests ≤ 8 →
      ∃ l2 rs, run l calls = some (l2, rs) ∧ rs.length = calls.length ∧
        l2.initial_capacity ∧ l2.max_requests = l.max_requests := by
  induction calls with
  | nil =>
    intro l hinv _
    exact ⟨l, [], rfl, rfl, hinv, rfl⟩
  | cons c cs ih =>
    intro l hinv hmax
    obtain ⟨-, l1, r, hr, -, hinv1, hmax1, -⟩ :=
      check_small_quota l c.ip_address c.current_time c.alloc hinv hmax
    obtain ⟨l2, rs, hrun, hlen, hinv2, hmax2⟩ := ih l1 hinv1 (by rw [hmax1]; exact hmax)
    refine ⟨l2, r :: rs, ?_, by simp [hlen], hinv2, by rw [hmax2, hmax1]⟩
    rw [run, hr]
    simp only [hrun]

theorem fresh_limiter_initial_capacity (m w : Int) : (fresh_limiter m w).initial_capacity := by
  intro i node h
  simp [fresh_limiter] at h

/-- C31 (small quotas never grow storage). With `max_requests <= 8`, every
sequence of calls on the limiter `init_limiter` builds has a result,
whatever the keys, clock readings and allocator outcomes, and in the limiter
it leaves every node has capacity 8, 8 allocated slots and at most 8 stored
timestamps. In such a limiter no call reaches the growth of the array
(`capacity *= 2; realloc`), so `realloc` cannot fail in it, and a call that
returns 1 has stored its clock reading in the record. -/
theorem small_quota_never_grows (calloc_ok : Bool) (max_requests window_seconds : Int)
    (hm : max_requests ≤ 8) (l0 : RateLimiterC)
    (hinit : init_limiter calloc_ok max_requests window_seconds = some l0)
    (calls : List Call) :
    ∃ l rs, run l0 calls = some (l, rs) ∧ rs.length = calls.length ∧
      (∀ i, ∀ node ∈ l.table i,
        node.capacity = 8 ∧ node.timestamps.length = 8 ∧ node.count ≤ 8) ∧
      ∀ (key : CString) (now : Int) (a : Alloc),
        growth_attempted l key now a = false ∧
        ∃ l2 r, check_rate_limit_c l key now a = some (l2, r) ∧ (r = 0 ∨ r = 1) ∧
          (r = 1 → ∃ l1 before node after node1,
            find_or_create_node l key a = some (l1, before, node, after) ∧
            l2 = store_node l1 (hash_ip key) before node1 after ∧
            node1.ip_address = node.ip_address ∧
            node1.live = survivors (now - l.window_seconds) node.live ++ [now]) := by
  rw [init_limiter_some calloc_ok _ _ l0 hinit]
  obtain ⟨l, rs, hrun, hlen, hinv, hmax⟩ := run_small_quota calls
    (fresh_limiter max_requests window_seconds) (fresh_limiter_initial_capacity _ _) hm
  have hmax2 : l.max_requests ≤ 8 := by rw [hmax]; exact hm
  refine ⟨l, rs, hrun, hlen, ?_, ?_⟩
  · intro i node hn
    obtain ⟨⟨h1, h2, h3⟩, hcap⟩ := hinv i node hn
    exact ⟨hcap, by omega, by omega⟩
  · intro key now a
    obtain ⟨hg, l2, r, hr, hr01, -, -, hrec⟩ := check_small_quota l key now a hinv hmax2
    exact ⟨hg, l2, r, hr, hr01, hrec⟩

/-- Witness of C31: the seven calls of scenario A with a quota of 5. -/
theorem small_quota_never_grows_witness :
    (5 : Int) ≤ 8 ∧ init_limiter true 5 10 = some (fresh_limiter 5 10) ∧
    ∃ l rs, run (fresh_limiter 5 10) scenario_A_calls = some (l, rs) ∧
      rs.length = scenario_A_calls.length ∧
      (∀ i, ∀ node ∈ l.table i,
        node.capacity = 8 ∧ node.timestamps.length = 8 ∧ node.count ≤ 8) ∧
      ∀ (key : CString) (now : Int) (a : Alloc),
        growth_attempted l key now a = false ∧
        ∃ l2 r, check_rate_limit_c l key now a = some (l2, r) ∧ (r = 0 ∨ r = 1) ∧
          (r = 1 → ∃ l1 before node after node1,
            find_or_create_node l key a = some (l1, before, node, after) ∧
            l2 = store_node l1 (hash_ip key) before node1 after ∧
            node1.ip_address = node.ip_address ∧
            node1.live = survivors (now - l.window_seconds) node.live ++ [now]) :=
  ⟨by decide, rfl,
    small_quota_never_grows true 5 10 (by decide) (fresh_limiter 5 10) rfl scenario_A_calls⟩

/-! ## Well-formedness of the index -/

/-- A call for a key of at most 15 characters keeps every node in the bucket
of its key and the keys of each bucket distinct. -/
theorem check_index_wf (l l2 : RateLimiterC) (key : CString) (now : Int) (a : Alloc) (r : Int)
    (hinv : l.index_wf) (hkey : key.length ≤ MAX_IP_LEN - 1)
    (hr : check_rate_limit_c l key now a = some (l2, r)) : l2.index_wf := by
  cases hf : find_or_create_node l key a with
  | none =>
    rw [check_null l key now a hf] at hr
    simp only [Option.some.injEq, Prod.mk.injEq] at hr
    rw [← hr.1]; exact hinv
  | some res =>
    obtain ⟨l1, before, node, after⟩ := res
    obtain ⟨node1, hl2, hip, -, -⟩ := check_some_live l l1 l2 key now a before node after r hf hr
    obtain ⟨htab, -, -⟩ := store_node_table l l1 key a before node node1 after hf
    obtain ⟨-, -, -, -, hcases⟩ := find_or_create_node_some l l1 key a before node after hf
    have hnip : node.ip_address = key := node_ip_eq l l1 key a before node after hf hkey
    have hmap : (before ++ node1 :: after).map HT_Node.ip_address
        = (before ++ node :: after).map HT_Node.ip_address := by
      simp only [List.map_append, List.map_cons, hip]
    have hchain : ((before ++ node :: after).map HT_Node.ip_address).Nodup ∧
        ∀ m ∈ before ++ after, hash_ip m.ip_address = hash_ip key := by
      rcases hcases with ⟨hfound, -, -⟩ | ⟨hnone, hb, hn, haf, -, -⟩
      · obtain ⟨hch, -, -⟩ := find_node_some key _ _ _ _ hfound
        obtain ⟨hnd, hh⟩ := hinv (hash_ip key)
        rw [hch] at hnd hh
        refine ⟨hnd, ?_⟩
        intro m hm
        apply hh m
        rcases List.mem_append.mp hm with h | h
        · exact List.mem_append_left _ h
        · exact List.mem_append_right _ (List.mem_cons_of_mem _ h)
      · obtain ⟨hnd, hh⟩ := hinv (hash_ip key)
        rw [hb, haf]
        have hnot := (find_node_none key _).mp hnone
        refine ⟨?_, ?_⟩
        · simp only [List.nil_append, List.map_cons, List.nodup_cons]
          refine ⟨?_, hnd⟩
          intro hmem
          obtain ⟨m, hm, hmk⟩ := List.mem_map.mp hmem
          exact hnot m hm (by rw [hmk, hnip])
        · intro m hm
          exact hh m (by simpa using hm)
    rw [hl2]
    intro i
    rw [htab]
    by_cases hi : i = hash_ip key
    · rw [hi, Function.update_same, hmap]
      refine ⟨hchain.1, ?_⟩
      intro m hm
      rcases List.mem_append.mp hm with h | h
      · exact hchain.2 m (List.mem_append_left _ h)
      · rcases List.mem_cons.mp h with h | h
        · rw [h, hip, hnip]
        · exact hchain.2 m (List.mem_append_right _ h)
    · rw [Function.update_noteq hi]
      exact hinv i

theorem fresh_limiter_index_wf (m w : Int) : (fresh_limiter m w).index_wf := by
  intro i
  simp [fresh_limiter]

/-- C32 (index well-formedness for short keys). In every limiter reached from
the one `init_limiter` builds by calls whose keys all have at most 15
characters, whatever the clock readings and allocator outcomes, the keys of
the nodes of each bucket are pairwise distinct and every node lies in the
bucket numbered `hash_ip` of its key; so two nodes anywhere in the table
that carry the same key are in the same bucket at the same place: no two
records carry the same key. -/
theorem index_well_formed (calloc_ok : Bool) (max_requests window_seconds : Int)
    (l0 : RateLimiterC)
    (hinit : init_limiter calloc_ok max_requests window_seconds = some l0)
    (calls : List Call) (hshort : ∀ c ∈ calls, c.ip_address.length ≤ MAX_IP_LEN - 1)
    (l : RateLimiterC) (rs : List Int) (hrun : run l0 calls = some (l, rs)) :
    (∀ i, ((l.table i).map HT_Node.ip_address).Nodup) ∧
    (∀ i, ∀ node ∈ l.table i, hash_ip node.ip_address = i) ∧
    (∀ (i j : Fin HASH_TABLE_SIZE) (p q : Nat) (n1 n2 : HT_Node),
      (l.table i)[p]? = some n1 → (l.table j)[q]? = some n2 →
      n1.ip_address = n2.ip_address → i = j ∧ p = q) := by
  rw [init_limiter_some calloc_ok _ _ l0 hinit] at hrun
  have hinv : l.index_wf :=
    run_preserves (fun l => l.index_wf) (fun c => c.ip_address.length ≤ MAX_IP_LEN - 1)
      (fun l l2 c r hP hQ hc =>
        check_index_wf l l2 c.ip_address c.current_time c.alloc r hP hQ hc)
      calls _ l rs (fresh_limiter_index_wf _ _) hshort hrun
  refine ⟨fun i => (hinv i).1, fun i => (hinv i).2, ?_⟩
  intro i j p q n1 n2 h1 h2 hip
  have m1 : n1 ∈ l.table i := List.getElem?_mem h1
  have m2 : n2 ∈ l.table j := List.getElem?_mem h2
  have hij : i = j := by
    rw [← (hinv i).2 n1 m1, ← (hinv j).2 n2 m2, hip]
  subst hij
  refine ⟨rfl, ?_⟩
  have hnd := (hinv i).1
  have g1 : ((l.table i).map HT_Node.ip_address)[p]? = some n1.ip_address := by
    rw [List.getElem?_map, h1]; rfl
  have g2 : ((l.table i).map HT_Node.ip_address)[q]? = some n1.ip_address := by
    rw [List.getElem?_map, h2, hip]; rfl
  obtain ⟨hp, e1⟩ := List.getElem?_eq_some_iff.mp g1
  obtain ⟨hq, e2⟩ := List.getElem?_eq_some_iff.mp g2
  exact (List.Nodup.getElem_inj_iff hnd).mp (e1.trans e2.symm)

/-- Witness of C32: three calls for two keys on a fresh limiter. -/
theorem index_well_formed_witness :
    init_limiter true 5 10 = some (fresh_limiter 5 10) ∧
    (∀ c ∈ two_key_calls, c.ip_address.length ≤ MAX_IP_LEN - 1) ∧
    run (fresh_limiter 5 10) two_key_calls
      = some (limiter_after_calls (fresh_limiter 5 10) two_key_calls, [1, 1, 1]) ∧
    (∀ i, (((limiter_after_calls (fresh_limiter 5 10) two_key_calls).table i).map
      HT_Node.ip_address).Nodup) ∧
    (∀ i, ∀ node ∈ (limiter_after_calls (fresh_limiter 5 10) two_key_calls).table i,
      hash_ip node.ip_address = i) ∧
    (∀ (i j : Fin HASH_TABLE_SIZE) (p q : Nat) (n1 n2 : HT_Node),
      ((limiter_after_calls (fresh_limiter 5 10) two_key_calls).table i)[p]? = some n1 →
      ((limiter_after_calls (fresh_limiter 5 10) two_key_calls).table j)[q]? = some n2 →
      n1.ip_address = n2.ip_address → i = j ∧ p = q) :=
  ⟨rfl, by decide, rfl,
    index_well_formed true 5 10 (fresh_limiter 5 10) rfl two_key_calls (by decide) _ _ rfl⟩

/-! ## The admission decision and the bounds of the array -/

/-- A well-formed node keeps every call inside its allocation. -/
theorem in_bounds_of_wf (node : HT_Node) (hwf : node.wf) (ws max_requests : Int)
    (grow_ok : Bool) : node.in_bounds ws max_requests grow_ok := by
  obtain ⟨h1, h2, h3⟩ := hwf
  have hle : (survivors ws node.live).length ≤ node.count :=
    le_trans (survivors_length_le ws node.live) (live_length_le node)
  refine ⟨by omega, fun _ => ⟨fun _ => Or.inr (by omega), fun h => by omega⟩⟩

/-- Where the accesses to the array of the node stay inside the allocation the
call has a result, and it is 1 exactly when the kept count is below the
quota. -/
theorem check_defined_in_bounds (l l1 : RateLimiterC) (key : CString) (now : Int) (a : Alloc)
    (before : List HT_Node) (node : HT_Node) (after : List HT_Node)
    (h : find_or_create_node l key a = some (l1, before, node, after))
    (hin : node.in_bounds (now - l.window_seconds) l.max_requests a.grow_ok) :
    ∃ l2, check_rate_limit_c l key now a =
      some (l2, if ((survivors (now - l.window_seconds) node.live).length : Int) < l.max_requests
                then 1 else 0) := by
  obtain ⟨hc, hadm⟩ := hin
  rw [check_eq l l1 key now a before node after h hc]
  have hk : (pruned_node (now - l.window_seconds) node).count
      = (survivors (now - l.window_seconds) node.live).length := rfl
  rw [← hk] at hadm ⊢
  generalize pruned_node (now - l.window_seconds) node = p at hadm ⊢
  by_cases hlt : (p.count : Int) < l.max_requests
  · obtain ⟨hgrow, hplain⟩ := hadm hlt
    simp only [hlt, if_true]
    by_cases hcap : node.capacity ≤ p.count
    · simp only [hcap, if_true]
      by_cases hg : a.grow_ok = false
      · simp only [hg, if_true]; exact ⟨_, rfl⟩
      · have h4 : p.count < node.capacity * 2 := by
          rcases hgrow hcap with h5 | h5
          · exact absurd h5 hg
          · exact h5
        simp only [hg, if_false, h4, if_true]; exact ⟨_, rfl⟩
    · have h4 : p.count < node.timestamps.length := hplain hcap
      simp only [hcap, if_false, h4, if_true]; exact ⟨_, rfl⟩
  · simp only [hlt, if_false]; exact ⟨_, rfl⟩

/-- Where an access to the array of the node falls outside the allocation the
call has no result. -/
theorem check_undefined_out_of_bounds (l l1 : RateLimiterC) (key : CString) (now : Int)
    (a : Alloc) (before : List HT_Node) (node : HT_Node) (after : List HT_Node)
    (h : find_or_create_node l key a = some (l1, before, node, after))
    (hout : ¬ node.in_bounds (now - l.window_seconds) l.max_requests a.grow_ok) :
    check_rate_limit_c l key now a = none := by
  cases hr : check_rate_limit_c l key now a with
  | none => rfl
  | some res =>
    exfalso
    obtain ⟨l2, r⟩ := res
    have hc := check_in_bounds l l1 l2 key now a before node after r h hr
    rw [check_eq l l1 key now a before node after h hc] at hr
    have hk : (pruned_node (now - l.window_seconds) node).count
        = (survivors (now - l.window_seconds) node.live).length := rfl
    apply hout
    refine ⟨hc, ?_⟩
    rw [← hk]
    generalize pruned_node (now - l.window_seconds) node = p at hr ⊢
    intro hlt
    simp only [hlt, if_true] at hr
    refine ⟨?_, ?_⟩
    · intro hcap
      simp only [hcap, if_true] at hr
      by_cases hg : a.grow_ok = false
      · exact Or.inl hg
      · simp only [hg, if_false] at hr
        by_cases h4 : p.count < node.capacity * 2
        · exact Or.inr h4
        · simp [h4] at hr
    · intro hcap
      simp only [hcap, if_false] at hr
      by_cases h4 : p.count < node.timestamps.length
      · exact h4
      · simp [h4] at hr

/-- The node `find_or_create_node` returns is the record found for the key, or
a new node when there is none. -/
theorem find_or_create_node_record (l : RateLimiterC) (key : CString) (a : Alloc)
    (hnode : a.node_ok = true) (hts : a.ts_ok = true) :
    ∃ l1 before node after, find_or_create_node l key a = some (l1, before, node, after) ∧
      node.live = timestamps_of l key ∧
      (record_of l key = some node ∨ (record_of l key = none ∧ node = new_node key a.junk)) := by
  cases hf : find_node key (l.table (hash_ip key)) with
  | some r =>
    obtain ⟨b, n, af⟩ := r
    exact ⟨l, b, n, af, by simp [find_or_create_node, hf], by simp [timestamps_of, record_of, hf],
      Or.inl (by simp [record_of, hf])⟩
  | none =>
    refine ⟨link_node l (hash_ip key) (new_node key a.junk), [], new_node key a.junk,
      l.table (hash_ip key), by simp [find_or_create_node, link_node, hf, hnode, hts], ?_,
      Or.inr ⟨by simp [record_of, hf], rfl⟩⟩
    simp [timestamps_of, record_of, hf, new_node_live]

/-- Admission decision, in every limiter state. For every key and clock
reading, with the allocations of a new record succeeding: when the accesses
of the call to the array of the record of the key stay inside its allocation
(`HT_Node.in_bounds`; always so for a key without record, and for a record
that is well formed), `check_rate_limit_c` returns a result, and it is 1 when
the number of timestamps recorded for the key that are later than
`now - window_seconds` is below `max_requests` and 0 otherwise; when an
access falls outside the allocation the call has no result. -/
theorem admission_decision (l : RateLimiterC) (key : CString) (now : Int) (a : Alloc)
    (hnode : a.node_ok = true) (hts : a.ts_ok = true) :
    ((∀ node, record_of l key = some node →
        node.in_bounds (now - l.window_seconds) l.max_requests a.grow_ok) →
      ∃ l2, check_rate_limit_c l key now a =
        some (l2, if (((timestamps_of l key).countP
                        (fun t => decide (t > now - l.window_seconds)) : Nat) : Int)
                      < l.max_requests
                  then 1 else 0)) ∧
    ((∃ node, record_of l key = some node ∧
        ¬ node.in_bounds (now - l.window_seconds) l.max_requests a.grow_ok) →
      check_rate_limit_c l key now a = none) ∧
    (∀ node, record_of l key = some node → node.wf →
      node.in_bounds (now - l.window_seconds) l.max_requests a.grow_ok) := by
  obtain ⟨l1, before, node, after, hf, hlive, hrec⟩ :=
    find_or_create_node_record l key a hnode hts
  refine ⟨?_, ?_, fun n _ hwf => in_bounds_of_wf n hwf _ _ _⟩
  · intro hin
    have hnin : node.in_bounds (now - l.window_seconds) l.max_requests a.grow_ok := by
      rcases hrec with h | ⟨-, h⟩
      · exact hin node h
      · rw [h]; exact in_bounds_of_wf _ (new_node_wf key a.junk) _ _ _
    obtain ⟨l2, h2⟩ := check_defined_in_bounds l l1 key now a before node after hf hnin
    refine ⟨l2, ?_⟩
    rw [h2, hlive, List.countP_eq_length_filter]
    rfl
  · rintro ⟨n, hn, hout⟩
    rcases hrec with h | ⟨h, -⟩
    · rw [hn] at h
      have e : n = node := Option.some.inj h
      rw [e] at hout
      exact check_undefined_out_of_bounds l l1 key now a before node after hf hout
    · rw [hn] at h
      exact Option.noConfusion h

/-- C2 fails on the code in a limiter left by a failed growth. With a quota
of 9, eight calls for `192.168.1.1` at reading 0 and a ninth in which
`realloc` fails leave its record with 8 timestamps in 8 slots and
`capacity = 16`. For a tenth call at reading 0, allocations succeeding, 8
timestamps are later than `now - window_seconds` and 8 is below 9, so the
claim says the call returns 1; the call writes `timestamps[8]`, outside the
allocation, and has no defined result. At reading 100, where no timestamp is
kept and the write is to `timestamps[0]`, the call returns 1. -/
theorem admission_undefined_after_failed_growth :
    key_main.length ≤ MAX_IP_LEN - 1 ∧
    (run (fresh_limiter 9 10) failed_growth_calls).map Prod.fst = some limiter_failed_growth ∧
    record_of limiter_failed_growth key_main =
      some { ip_address := key_main, timestamps := [0, 0, 0, 0, 0, 0, 0, 0], count := 8,
             capacity := 16 } ∧
    (timestamps_of limiter_failed_growth key_main).countP
      (fun t => decide (t > 0 - limiter_failed_growth.window_seconds)) = 8 ∧
    limiter_failed_growth.max_requests = 9 ∧
    (check_rate_limit_c limiter_failed_growth key_main 0 alloc_ok).isNone = true ∧
    (check_rate_limit_c limiter_failed_growth key_main 100 alloc_ok).map Prod.snd = some 1 := by
  refine ⟨by decide, rfl, by decide, by decide, rfl, by decide, by decide⟩

/-- C11 fails on the code, in its general part, in a limiter left by a failed
growth. In the limiter above (quota 9, window 10 seconds, the record of
`192.168.1.1` holding 8 timestamps 0 in 8 slots with `capacity = 16`) every
timestamp of the record is at most `100 - window_seconds`, so the claim says
the next 9 calls at reading 100 return 1. The first eight do; the ninth
finds `count = 8` below the quota and below `capacity`, does not grow the
array and writes `timestamps[8]`, outside the allocation: the sequence of
nine calls has no defined result. -/
theorem replenishment_undefined_after_failed_growth :
    (run (fresh_limiter 9 10) failed_growth_calls).map Prod.fst = some limiter_failed_growth ∧
    (∀ t ∈ timestamps_of limiter_failed_growth key_main,
      t ≤ 100 - limiter_failed_growth.window_seconds) ∧
    min 9 limiter_failed_growth.max_requests.toNat = 9 ∧
    (run limiter_failed_growth (List.replicate 8 ⟨key_main, 100, alloc_ok⟩)).map Prod.snd
      = some [1, 1, 1, 1, 1, 1, 1, 1] ∧
    (run limiter_failed_growth (List.replicate 9 ⟨key_main, 100, alloc_ok⟩)).isNone = true := by
  refine ⟨rfl, by decide, by decide, by decide, by decide⟩

end RateLimiter

namespace Csrf

/-! ## CSRF token validation -/

theorem two_mul_add_emod (X M c : Int) (hM : 0 < M) (hc0 : 0 ≤ c) (hc1 : c ≤ 1) :
    (2 * X + c) % (2 * M) = 2 * (X % M) + c := by
  have h1 := Int.emod_nonneg X (ne_of_gt hM)
  have h2 := Int.emod_lt_of_pos X hM
  have h3 := Int.ediv_add_emod X M
  have e : 2 * X + c = (2 * (X % M) + c) + (2 * M) * (X / M) := by
    have : 2 * X = 2 * (M * (X / M) + X % M) := by rw [h3]
    rw [this]; ring
  rw [e, Int.add_mul_emod_self_left]
  apply Int.emod_eq_of_lt
  · generalize X % M = t at *; omega
  · generalize X % M = t at *; omega

/-- The low `n` bits of `a ^ b` are zero exactly when `a` and `b` agree on
their low `n` bits. -/
theorem xor_emod_two_pow (n : Nat) :
    ∀ a b : Int, (Int.xor a b) % 2 ^ n = 0 ↔ a % 2 ^ n = b % 2 ^ n := by
  induction n with
  | zero => intro a b; simp
  | succ n ih =>
    intro a b
    have hM : (0 : Int) < 2 ^ n := by positivity
    rw [← Int.bit_decomp a, ← Int.bit_decomp b, Int.lxor_bit]
    simp only [Int.bit_val]
    rw [pow_succ, mul_comm ((2:Int) ^ n) 2]
    have hc : ∀ x : Bool, (0 : Int) ≤ cond x 1 0 ∧ (cond x 1 0 : Int) ≤ 1 := by
      intro x; cases x <;> simp
    rw [two_mul_add_emod _ _ _ hM (hc _).1 (hc _).2, two_mul_add_emod _ _ _ hM (hc _).1 (hc _).2,
      two_mul_add_emod _ _ _ hM (hc _).1 (hc _).2]
    have h1 := Int.emod_nonneg (Int.xor a.div2 b.div2) (ne_of_gt hM)
    have ih2 := ih a.div2 b.div2
    generalize Int.xor a.div2 b.div2 % 2 ^ n = t at *
    generalize a.div2 % 2 ^ n = u at *
    generalize b.div2 % 2 ^ n = v at *
    cases a.bodd <;> cases b.bodd <;> simp <;> omega

/-- The low `n` bits of `a | b` are zero exactly when those of `a` and of `b`
are. -/
theorem lor_emod_two_pow (n : Nat) :
    ∀ a b : Int, (Int.lor a b) % 2 ^ n = 0 ↔ a % 2 ^ n = 0 ∧ b % 2 ^ n = 0 := by
  induction n with
  | zero => intro a b; simp
  | succ n ih =>
    intro a b
    have hM : (0 : Int) < 2 ^ n := by positivity
    rw [← Int.bit_decomp a, ← Int.bit_decomp b, Int.lor_bit]
    simp only [Int.bit_val]
    rw [pow_succ, mul_comm ((2:Int) ^ n) 2]
    have hc : ∀ x : Bool, (0 : Int) ≤ cond x 1 0 ∧ (cond x 1 0 : Int) ≤ 1 := by
      intro x; cases x <;> simp
    rw [two_mul_add_emod _ _ _ hM (hc _).1 (hc _).2, two_mul_add_emod _ _ _ hM (hc _).1 (hc _).2,
      two_mul_add_emod _ _ _ hM (hc _).1 (hc _).2]
    have h1 := Int.emod_nonneg (Int.lor a.div2 b.div2) (ne_of_gt hM)
    have h2 := Int.emod_nonneg a.div2 (ne_of_gt hM)
    have h3 := Int.emod_nonneg b.div2 (ne_of_gt hM)
    have ih2 := ih a.div2 b.div2
    generalize Int.lor a.div2 b.div2 % 2 ^ n = t at *
    generalize a.div2 % 2 ^ n = u at *
    generalize b.div2 % 2 ^ n = v at *
    cases a.bodd <;> cases b.bodd <;> simp <;> omega

/-- One step of the loop: the new `unsigned char` is 0 exactly when the old
one is and the two characters have the same low 8 bits. -/
theorem xor_step_zero (result a b : Int) (h0 : 0 ≤ result) (h1 : result < 256) :
    Int.lor result (Int.xor a b) % 256 = 0 ↔ result = 0 ∧ a % 256 = b % 256 := by
  have e1 := lor_emod_two_pow 8 result (Int.xor a b)
  have e2 := xor_emod_two_pow 8 a b
  have p : (2 : Int) ^ 8 = 256 := by norm_num
  rw [p] at e1 e2
  rw [e1, e2]
  constructor
  · rintro ⟨h, h2⟩; exact ⟨by omega, h2⟩
  · rintro ⟨h, h2⟩; exact ⟨by omega, h2⟩

/-- The loop ends with 0 exactly when it started with 0 and the characters at
the positions visited have the same low 8 bits. -/
theorem xor_loop_zero (r s : List Int) :
    ∀ (n i : Nat) (result : Int), 0 ≤ result → result < 256 →
      (xor_loop r s n i result = 0 ↔
        result = 0 ∧ ∀ j, j < n → r.getD (i + j) 0 % 256 = s.getD (i + j) 0 % 256) := by
  intro n
  induction n with
  | zero => intro i result _ _; simp [xor_loop]
  | succ n ih =>
    intro i result h0 h1
    rw [xor_loop, ih (i + 1) _ (Int.emod_nonneg _ (by decide)) (Int.emod_lt_of_pos _ (by decide)),
      xor_step_zero result _ _ h0 h1]
    constructor
    · rintro ⟨⟨hr, h⟩, hrest⟩
      refine ⟨hr, ?_⟩
      intro j hj
      cases j with
      | zero => simpa using h
      | succ j =>
        have := hrest j (by omega)
        rw [show i + 1 + j = i + (j + 1) by omega] at this
        exact this
    · rintro ⟨hr, h⟩
      refine ⟨⟨hr, by simpa using h 0 (by omega)⟩, ?_⟩
      intro j hj
      have := h (j + 1) (by omega)
      rw [show i + (j + 1) = i + 1 + j by omega] at this
      exact this

/-- Two lists of 32 characters of the type `char` whose characters have the
same low 8 bits position by position are equal. -/
theorem tokens_eq_of_low_bits (char_min : Int) (r s : List Int)
    (hr : ∀ c ∈ r, is_char char_min c) (hs : ∀ c ∈ s, is_char char_min c)
    (hlr : r.length = 32) (hls : s.length = 32)
    (h : ∀ j, j < 32 → r.getD (0 + j) 0 % 256 = s.getD (0 + j) 0 % 256) : r = s := by
  apply List.ext_getElem (by rw [hlr, hls])
  intro j h1 h2
  have hj := h j (by omega)
  rw [Nat.zero_add, List.getD_eq_getElem _ _ h1, List.getD_eq_getElem _ _ h2] at hj
  have ha := hr _ (List.getElem_mem h1)
  have hb := hs _ (List.getElem_mem h2)
  unfold is_char at ha hb
  omega

/-- C17 (CSRF token validation). For tokens whose characters are values of
the type `char`: the C `validate_token` returns 1 exactly when both tokens
have length 32 and are equal character for character, and 0 otherwise; it
returns 0 when a token is `NULL`; the C++ `CsrfToken::validate_token`
returns true under the same condition. So a 32-character token validates
against itself, and a 32-character token differing from the stored one is
rejected. -/
theorem validate_token_correct (char_min : Int) (received stored : List Int)
    (hr : ∀ c ∈ received, is_char char_min c) (hs : ∀ c ∈ stored, is_char char_min c) :
    (validate_token (some received) (some stored) = 1 ↔
      received.length = 32 ∧ stored.length = 32 ∧ received = stored) ∧
    (validate_token (some received) (some stored) = 1 ∨
      validate_token (some received) (some stored) = 0) ∧
    validate_token none (some stored) = 0 ∧ validate_token (some received) none = 0 ∧
    validate_token none none = 0 ∧
    (CsrfToken.validate_token received stored = true ↔
      received.length = 32 ∧ stored.length = 32 ∧ received = stored) ∧
    (received.length = 32 → validate_token (some received) (some received) = 1 ∧
      CsrfToken.validate_token received received = true) ∧
    (received.length = 32 → stored.length = 32 → received ≠ stored →
      validate_token (some received) (some stored) = 0 ∧
      CsrfToken.validate_token received stored = false) := by
  have key : ∀ r s : List Int, (∀ c ∈ r, is_char char_min c) → (∀ c ∈ s, is_char char_min c) →
      r.length = 32 → s.length = 32 → (xor_loop r s 32 0 0 = 0 ↔ r = s) := by
    intro r s hr2 hs2 hlr hls
    rw [xor_loop_zero r s 32 0 0 (by decide) (by decide)]
    constructor
    · rintro ⟨-, h⟩
      exact tokens_eq_of_low_bits char_min r s hr2 hs2 hlr hls h
    · rintro rfl
      exact ⟨rfl, fun j _ => rfl⟩
  have hC : ∀ r s : List Int, (∀ c ∈ r, is_char char_min c) → (∀ c ∈ s, is_char char_min c) →
      (validate_token (some r) (some s) = 1 ↔ r.length = 32 ∧ s.length = 32 ∧ r = s) ∧
      (validate_token (some r) (some s) = 1 ∨ validate_token (some r) (some s) = 0) := by
    intro r s hr2 hs2
    simp only [validate_token]
    by_cases hl : r.length ≠ 32 ∨ s.length ≠ 32
    · rw [if_pos hl]
      refine ⟨⟨fun h => absurd h (by decide), fun h => ?_⟩, Or.inr rfl⟩
      rcases hl with hl | hl
      · exact absurd h.1 hl
      · exact absurd h.2.1 hl
    · rw [if_neg hl]
      have hlr : r.length = 32 := by by_contra hc; exact hl (Or.inl hc)
      have hls : s.length = 32 := by by_contra hc; exact hl (Or.inr hc)
      have hk := key r s hr2 hs2 hlr hls
      by_cases hx : xor_loop r s 32 0 0 = 0
      · rw [if_pos hx]
        exact ⟨⟨fun _ => ⟨hlr, hls, hk.mp hx⟩, fun _ => rfl⟩, Or.inl rfl⟩
      · rw [if_neg hx]
        exact ⟨⟨fun h => absurd h (by decide), fun h => absurd (hk.mpr h.2.2) hx⟩, Or.inr rfl⟩
  have hCpp : ∀ r s : List Int, (∀ c ∈ r, is_char char_min c) → (∀ c ∈ s, is_char char_min c) →
      (CsrfToken.validate_token r s = true ↔ r.length = 32 ∧ s.length = 32 ∧ r = s) := by
    intro r s hr2 hs2
    simp only [CsrfToken.validate_token]
    by_cases hl : r.length ≠ 32 ∨ s.length ≠ 32
    · rw [if_pos hl]
      refine ⟨fun h => absurd h (by decide), fun h => ?_⟩
      rcases hl with hl | hl
      · exact absurd h.1 hl
      · exact absurd h.2.1 hl
    · rw [if_neg hl]
      have hlr : r.length = 32 := by by_contra hc; exact hl (Or.inl hc)
      have hls : s.length = 32 := by by_contra hc; exact hl (Or.inr hc)
      have hd : (if r.length ≠ s.length then (1 : Int) else 0) = 0 := by
        rw [if_neg]; rw [hlr, hls]; simp
      rw [hd, decide_eq_true_eq, key r s hr2 hs2 hlr hls]
      exact ⟨fun h => ⟨hlr, hls, h⟩, fun h => h.2.2⟩
  refine ⟨(hC received stored hr hs).1, (hC received stored hr hs).2, rfl, rfl, rfl,
    hCpp received stored hr hs, ?_, ?_⟩
  · intro hl
    exact ⟨(hC received received hr hr).1.mpr ⟨hl, hl, rfl⟩,
      (hCpp received received hr hr).mpr ⟨hl, hl, rfl⟩⟩
  · intro hlr hls hne
    constructor
    · rcases (hC received stored hr hs).2 with h | h
      · exact absurd ((hC received stored hr hs).1.mp h).2.2 hne
      · exact h
    · cases hv : CsrfToken.validate_token received stored with
      | false => rfl
      | true => exact absurd ((hCpp received stored hr hs).mp hv).2.2 hne

/-- Witness of C17: the two tokens of the `main` functions, `char` signed. -/
theorem validate_token_correct_witness :
    (∀ c ∈ wrong_token, is_char (-128) c) ∧ (∀ c ∈ attack_token, is_char (-128) c) ∧
    ((validate_token (some wrong_token) (some attack_token) = 1 ↔
      wrong_token.length = 32 ∧ attack_token.length = 32 ∧ wrong_token = attack_token) ∧
    (validate_token (some wrong_token) (some attack_token) = 1 ∨
      validate_token (some wrong_token) (some attack_token) = 0) ∧
    validate_token none (some attack_token) = 0 ∧ validate_token (some wrong_token) none = 0 ∧
    validate_token none none = 0 ∧
    (CsrfToken.validate_token wrong_token attack_token = true ↔
      wrong_token.length = 32 ∧ attack_token.length = 32 ∧ wrong_token = attack_token) ∧
    (wrong_token.length = 32 → validate_token (some wrong_token) (some wrong_token) = 1 ∧
      CsrfToken.validate_token wrong_token wrong_token = true) ∧
    (wrong_token.length = 32 → attack_token.length = 32 → wrong_token ≠ attack_token →
      validate_token (some wrong_token) (some attack_token) = 0 ∧
      CsrfToken.validate_token wrong_token attack_token = false)) :=
  have h1 : ∀ c ∈ wrong_token, is_char (-128) c := by
    unfold is_char; decide
  have h2 : ∀ c ∈ attack_token, is_char (-128) c := by
    unfold is_char; decide
  ⟨h1, h2, validate_token_correct (-128) wrong_token attack_token h1 h2⟩

end Csrf

namespace SecurityLog

/-! ## Log sanitization -/

/-- The chain of tests of the two loops, with what is done with the output
left open: the output is extended by `log_escape c`. -/
theorem escape_step (c : Int) (output : List Int) (k : List Int → List Int) :
    (if c = 10 then k (output ++ [92, 110])
      else if c = 13 then k (output ++ [92, 114])
      else if c = 9 then k (output ++ [92, 116])
      else if c ≥ 0 ∧ c < 32 then k (output ++ [32])
      else k (output ++ [c])) = k (output ++ log_escape c) := by
  unfold log_escape
  by_cases h1 : c = 10
  · simp [h1]
  · by_cases h2 : c = 13
    · simp [h2]
    · by_cases h3 : c = 9
      · simp [h3]
      · by_cases h4 : c ≥ 0 ∧ c < 32
        · have h5 : 0 ≤ c ∧ c ≤ 31 := by omega
          simp only [h1, h2, h3, h4, h5, if_false, if_true, and_self]
        · have h5 : ¬ (0 ≤ c ∧ c ≤ 31) := by omega
          simp only [h1, h2, h3, h4, h5, if_false]

theorem write_sanitized_loop_eq (input : List Int) :
    ∀ file : List Int, write_sanitized_loop input file = file ++ input.flatMap log_escape := by
  induction input with
  | nil => intro file; simp [write_sanitized_loop]
  | cons c input ih =>
    intro file
    rw [write_sanitized_loop, escape_step c file (write_sanitized_loop input), ih,
      List.flatMap_cons, List.append_assoc]

theorem sanitize_foldl_eq (input : List Int) :
    ∀ output : List Int,
      input.foldl
        (fun output c =>
          if c = 10 then output ++ [92, 110]
          else if c = 13 then output ++ [92, 114]
          else if c = 9 then output ++ [92, 116]
          else if c ≥ 0 ∧ c < 32 then output ++ [32]
          else output ++ [c])
        output = output ++ input.flatMap log_escape := by
  induction input with
  | nil => intro output; simp
  | cons c input ih =>
    intro output
    rw [List.foldl_cons, escape_step c output (fun x => x), ih, List.flatMap_cons,
      List.append_assoc]

theorem log_escape_no_control (c : Int) : ∀ d ∈ log_escape c, ¬ (0 ≤ d ∧ d ≤ 31) := by
  intro d hd
  unfold log_escape at hd
  by_cases h1 : c = 10
  · simp [h1] at hd; omega
  · by_cases h2 : c = 13
    · simp [h2] at hd; omega
    · by_cases h3 : c = 9
      · simp [h3] at hd; omega
      · by_cases h4 : 0 ≤ c ∧ c ≤ 31
        · simp [h1, h2, h3, h4] at hd; omega
        · simp only [h1, h2, h3, h4, if_false, List.mem_singleton] at hd
          rw [hd]; exact h4

/-- C20 (log sanitization). For every input string, the text emitted by the C
`write_sanitized` and the text returned by the C++ `sanitize` are the same:
the characters of the input in order, with newline, carriage return and tab
replaced by the two characters backslash `n`, backslash `r`, backslash `t`,
every other character of code 0 to 31 replaced by one space, and every other
character kept. That text has no character of code 0 to 31. For a `NULL`
input `write_sanitized` writes nothing. -/
theorem log_sanitization (input file : List Int) :
    write_sanitized file (some input) = file ++ input.flatMap log_escape ∧
    write_sanitized file none = file ∧
    sanitize input = input.flatMap log_escape ∧
    write_sanitized [] (some input) = sanitize input ∧
    (∀ d ∈ sanitize input, ¬ (0 ≤ d ∧ d ≤ 31)) ∧
    (∀ d ∈ input.flatMap log_escape, d ≠ 10 ∧ d ≠ 13) := by
  have hc : write_sanitized file (some input) = file ++ input.flatMap log_escape :=
    write_sanitized_loop_eq input file
  have hcpp : sanitize input = input.flatMap log_escape := by
    unfold sanitize
    rw [sanitize_foldl_eq]
    rfl
  have hno : ∀ d ∈ input.flatMap log_escape, ¬ (0 ≤ d ∧ d ≤ 31) := by
    intro d hd
    obtain ⟨c, -, hdc⟩ := List.mem_flatMap.mp hd
    exact log_escape_no_control c d hdc
  refine ⟨hc, rfl, hcpp, ?_, ?_, ?_⟩
  · rw [hcpp]
    exact write_sanitized_loop_eq input []
  · rw [hcpp]; exact hno
  · intro d hd
    have := hno d hd
    constructor <;> omega

end SecurityLog

namespace XssFilter

/-! ## HTML output encoding -/

theorem c_switch_step (c : Int) (output : List Int) (k : List Int → List Int) :
    (if c = 38 then k (output ++ amp)
      else if c = 60 then k (output ++ lt)
      else if c = 62 then k (output ++ gt)
      else if c = 34 then k (output ++ quot)
      else if c = 39 then k (output ++ apos)
      else k (output ++ [c])) = k (output ++ html_entity c) := by
  unfold html_entity
  by_cases h1 : c = 38
  · simp [h1]
  · by_cases h2 : c = 60
    · simp [h2]
    · by_cases h3 : c = 62
      · simp [h3]
      · by_cases h4 : c = 34
        · simp [h4]
        · by_cases h5 : c = 39
          · simp [h5]
          · simp only [h1, h2, h3, h4, h5, if_false]

theorem cpp_switch_step (c : Int) (buffer : List Int) :
    (if c = 38 then buffer ++ amp
      else if c = 34 then buffer ++ quot
      else if c = 39 then buffer ++ apos
      else if c = 60 then buffer ++ lt
      else if c = 62 then buffer ++ gt
      else buffer ++ [c]) = buffer ++ html_entity c := by
  unfold html_entity
  by_cases h1 : c = 38
  · simp [h1]
  · by_cases h2 : c = 60
    · simp [h2]
    · by_cases h3 : c = 62
      · simp [h3]
      · by_cases h4 : c = 34
        · simp [h4]
        · by_cases h5 : c = 39
          · simp [h5]
          · simp only [h1, h2, h3, h4, h5, if_false]

theorem html_encode_loop_eq (input : List Int) :
    ∀ output : List Int, html_encode_loop input output = output ++ input.flatMap html_entity := by
  induction input with
  | nil => intro output; simp [html_encode_loop]
  | cons c input ih =>
    intro output
    rw [html_encode_loop, c_switch_step c output (html_encode_loop input), ih,
      List.flatMap_cons, List.append_assoc]

theorem cpp_html_encode_foldl_eq (data : List Int) :
    ∀ buffer : List Int,
      data.foldl
        (fun buffer c =>
          if c = 38 then buffer ++ amp
          else if c = 34 then buffer ++ quot
          else if c = 39 then buffer ++ apos
          else if c = 60 then buffer ++ lt
          else if c = 62 then buffer ++ gt
          else buffer ++ [c])
        buffer = buffer ++ data.flatMap html_entity := by
  induction data with
  | nil => intro buffer; simp
  | cons c data ih =>
    intro buffer
    rw [List.foldl_cons, cpp_switch_step c buffer, ih, List.flatMap_cons, List.append_assoc]

/-- What a character becomes is an entity, or the character itself when it is
none of the five special characters. -/
theorem html_entity_cases (c : Int) :
    html_entity c ∈ entities ∨
      (html_entity c = [c] ∧ c ≠ 38 ∧ c ≠ 60 ∧ c ≠ 62 ∧ c ≠ 34 ∧ c ≠ 39) := by
  unfold html_entity entities
  by_cases h1 : c = 38
  · simp [h1]
  · by_cases h2 : c = 60
    · simp [h2]
    · by_cases h3 : c = 62
      · simp [h3]
      · by_cases h4 : c = 34
        · simp [h4]
        · by_cases h5 : c = 39
          · simp [h5]
          · right
            simp only [h1, h2, h3, h4, h5, if_false, ne_eq, not_false_eq_true, and_self]

/-- In an entity the only `&` is the first character, there is none of the
characters `<`, `>`, `"`, `'`, and there are at most 6 characters. -/
theorem entity_shape (e : List Int) (he : e ∈ entities) :
    (∀ i : Nat, e[i]? = some 38 → i = 0) ∧ (∀ d ∈ e, d ≠ 60 ∧ d ≠ 62 ∧ d ≠ 34 ∧ d ≠ 39) ∧
      e.length ≤ 6 ∧ 0 < e.length := by
  simp only [entities, List.mem_cons, List.mem_singleton, List.not_mem_nil, or_false] at he
  rcases he with rfl | rfl | rfl | rfl | rfl
  all_goals
    refine ⟨?_, by decide, by decide, by decide⟩
    intro i hi
    rcases i with _ | _ | _ | _ | _ | _ | i <;> simp [amp, lt, gt, quot, apos] at hi ⊢

/-- Every `&` of the encoded text starts an entity. -/
theorem amp_starts_entity (input : List Int) :
    ∀ i : Nat, (input.flatMap html_entity)[i]? = some 38 →
      ∃ e ∈ entities, e <+: (input.flatMap html_entity).drop i := by
  induction input with
  | nil => intro i h; simp at h
  | cons c input ih =>
    intro i h
    rw [List.flatMap_cons] at h ⊢
    by_cases hi : i < (html_entity c).length
    · rw [List.getElem?_append_left hi] at h
      rcases html_entity_cases c with he | ⟨he, hc, -⟩
      · have h0 := (entity_shape _ he).1 i h
        subst h0
        exact ⟨html_entity c, he, by simp⟩
      · rw [he] at h hi
        have h0 : i = 0 := by simpa using hi
        subst h0
        simp at h
        exact absurd h hc
    · have hle : (html_entity c).length ≤ i := by omega
      rw [List.getElem?_append_right hle] at h
      obtain ⟨e, he, hpre⟩ := ih _ h
      refine ⟨e, he, ?_⟩
      have hd : (html_entity c ++ input.flatMap html_entity).drop i
          = (input.flatMap html_entity).drop (i - (html_entity c).length) := by
        rw [List.drop_append_eq_append_drop, List.drop_of_length_le hle, List.nil_append]
      rw [hd]
      exact hpre

theorem encoded_no_special (input : List Int) :
    ∀ d ∈ input.flatMap html_entity, d ≠ 60 ∧ d ≠ 62 ∧ d ≠ 34 ∧ d ≠ 39 := by
  intro d hd
  obtain ⟨c, -, hdc⟩ := List.mem_flatMap.mp hd
  rcases html_entity_cases c with he | ⟨he, -, h2, h3, h4, h5⟩
  · exact (entity_shape _ he).2.1 d hdc
  · rw [he] at hdc
    have : d = c := by simpa using hdc
    subst this
    exact ⟨h2, h3, h4, h5⟩

theorem encoded_length (input : List Int) :
    (input.flatMap html_entity).length ≤ input.length * 6 := by
  induction input with
  | nil => simp
  | cons c input ih =>
    rw [List.flatMap_cons, List.length_append, List.length_cons]
    have hc : (html_entity c).length ≤ 6 := by
      rcases html_entity_cases c with he | ⟨he, -⟩
      · exact (entity_shape _ he).2.2.1
      · rw [he]; simp
    omega

/-- C18 (HTML output encoding). For every input string, the C `html_encode`
(when `malloc` succeeds) and the C++ `html_encode` give the same text: the
characters of the input in order, each of `&`, `<`, `>`, `"`, `'` replaced
by its entity `&amp;`, `&lt;`, `&gt;`, `&quot;`, `&apos;` and every other
character kept. That text has none of the characters `<`, `>`, `"`, `'`,
every `&` in it is the first character of one of the five entities, and
with its terminator it fits the `6 * len + 1` bytes the C function
allocates. When `malloc` fails the C function has no result. -/
theorem html_encoding (input : List Int) :
    html_encode true input = some (input.flatMap html_entity) ∧
    html_encode false input = none ∧
    Cpp.html_encode input = input.flatMap html_entity ∧
    (∀ d ∈ input.flatMap html_entity, d ≠ 60 ∧ d ≠ 62 ∧ d ≠ 34 ∧ d ≠ 39) ∧
    (∀ i : Nat, (input.flatMap html_entity)[i]? = some 38 →
      ∃ e ∈ entities, e <+: (input.flatMap html_entity).drop i) ∧
    (input.flatMap html_entity).length + 1 ≤ input.length * 6 + 1 := by
  refine ⟨?_, rfl, ?_, encoded_no_special input, amp_starts_entity input, ?_⟩
  · simp [html_encode, html_encode_loop_eq]
  · unfold Cpp.html_encode
    rw [cpp_html_encode_foldl_eq]
    rfl
  · have := encoded_length input
    omega

/-! ## Tag and protocol stripping -/

/-- The inner loop of `strcasestr_custom` succeeds exactly when the needle is,
case-insensitively, a prefix of the haystack. -/
theorem match_here_iff (n : List Int) :
    ∀ h : List Int, match_here h n = true ↔ n.map lower <+: h.map lower := by
  induction n with
  | nil => intro h; simp [match_here]
  | cons nc n ih =>
    intro h
    cases h with
    | nil => simp [match_here]
    | cons hc h =>
      rw [match_here, List.map_cons, List.map_cons, List.cons_prefix_cons]
      by_cases hl : lower hc = lower nc
      · rw [if_pos hl, ih h]
        exact ⟨fun hp => ⟨hl.symm, hp⟩, fun hp => hp.2⟩
      · rw [if_neg hl]
        exact ⟨fun hf => absurd hf (by decide), fun hp => absurd hp.1.symm hl⟩

/-- When the outer loop returns `NULL` the needle does not occur. -/
theorem strcasestr_loop_none (needle : List Int) (hne : needle ≠ []) :
    ∀ haystack : List Int, strcasestr_loop needle haystack = none → ¬ occurs needle haystack := by
  intro haystack
  induction haystack with
  | nil =>
    intro _ hocc
    unfold occurs at hocc
    have := List.eq_nil_of_infix_nil hocc
    cases needle with
    | nil => exact hne rfl
    | cons a l => simp at this
  | cons c haystack ih =>
    intro h hocc
    rw [strcasestr_loop] at h
    by_cases hm : lower c = lower (needle.headD 0) ∧ match_here (c :: haystack) needle = true
    · rw [if_pos hm] at h; exact Option.noConfusion h
    · rw [if_neg hm] at h
      have hrest : strcasestr_loop needle haystack = none := by
        cases hr : strcasestr_loop needle haystack with
        | none => rfl
        | some k => rw [hr] at h; exact Option.noConfusion h
      unfold occurs at hocc
      rw [List.map_cons, List.infix_cons_iff] at hocc
      rcases hocc with hpre | hinf
      · apply hm
        have hmh : match_here (c :: haystack) needle = true :=
          (match_here_iff needle (c :: haystack)).mpr (by rw [List.map_cons]; exact hpre)
        refine ⟨?_, hmh⟩
        cases needle with
        | nil => exact absurd rfl hne
        | cons a l =>
          rw [List.map_cons, List.cons_prefix_cons] at hpre
          exact hpre.1.symm
      · exact ih hrest hinf

/-- When the outer loop returns a position, the position is inside the
haystack and the needle is, case-insensitively, a prefix of the haystack
from there. -/
theorem strcasestr_loop_some (needle : List Int) :
    ∀ (haystack : List Int) (k : Nat), strcasestr_loop needle haystack = some k →
      k < haystack.length ∧ match_here (haystack.drop k) needle = true := by
  intro haystack
  induction haystack with
  | nil => intro k h; simp [strcasestr_loop] at h
  | cons c haystack ih =>
    intro k h
    rw [strcasestr_loop] at h
    by_cases hm : lower c = lower (needle.headD 0) ∧ match_here (c :: haystack) needle = true
    · rw [if_pos hm] at h
      simp only [Option.some.injEq] at h
      subst h
      exact ⟨by simp, hm.2⟩
    · rw [if_neg hm] at h
      cases hr : strcasestr_loop needle haystack with
      | none => rw [hr] at h; exact Option.noConfusion h
      | some j =>
        rw [hr] at h
        simp only [Option.some.injEq] at h
        subst h
        obtain ⟨h1, h2⟩ := ih j hr
        exact ⟨by simp; omega, by simpa using h2⟩

theorem strcasestr_custom_none (haystack needle : List Int) (hne : needle ≠ [])
    (h : strcasestr_custom haystack needle = none) : ¬ occurs needle haystack := by
  unfold strcasestr_custom at h
  rw [if_neg hne] at h
  exact strcasestr_loop_none needle hne haystack h

theorem strcasestr_custom_some (haystack needle : List Int) (hne : needle ≠ []) (k : Nat)
    (h : strcasestr_custom haystack needle = some k) :
    k < haystack.length ∧ match_here (haystack.drop k) needle = true := by
  unfold strcasestr_custom at h
  rw [if_neg hne] at h
  exact strcasestr_loop_some needle haystack k h

/-- A pattern that occurs in a list around an element that is not in the
pattern occurs before or after that element. -/
theorem infix_append_cons (P A B : List Int) (x : Int) (hx : x ∉ P)
    (h : P <:+: A ++ x :: B) : P <:+: A ∨ P <:+: B := by
  obtain ⟨pre, post, hpp⟩ := h
  rcases List.append_eq_append_iff.mp hpp with ⟨a2, hA, -⟩ | ⟨c2, hpP, hxB⟩
  · left
    rw [hA]
    exact ⟨pre, a2, rfl⟩
  · cases c2 with
    | nil =>
      left
      rw [List.append_nil] at hpP
      rw [← hpP]
      exact ⟨pre, [], by simp⟩
    | cons y c3 =>
      rw [List.cons_append] at hxB
      have hy : x = y := (List.cons.inj hxB).1
      have hB : B = c3 ++ post := (List.cons.inj hxB).2
      subst hy
      rcases List.append_eq_append_iff.mp hpP with ⟨a3, -, hP⟩ | ⟨c4, -, hxc⟩
      · exfalso
        apply hx
        rw [hP]
        simp
      · cases c4 with
        | nil =>
          exfalso
          apply hx
          rw [List.nil_append] at hxc
          rw [← hxc]
          simp
        | cons z c5 =>
          right
          rw [List.cons_append] at hxc
          have hc3 : c3 = c5 ++ P := (List.cons.inj hxc).2
          rw [hB, hc3]
          exact ⟨c5, post, rfl⟩

/-- Overwriting one element of a list by a value that is not in a pattern
creates no occurrence of the pattern. -/
theorem infix_of_infix_set (P L : List Int) (i : Nat) (x : Int) (hx : x ∉ P)
    (h : P <:+: L.set i x) : P <:+: L := by
  rw [List.set_eq_take_append_cons_drop] at h
  by_cases hi : i < L.length
  · rw [if_pos hi] at h
    rcases infix_append_cons P _ _ x hx h with h1 | h1
    · exact List.IsInfix.trans h1 (List.take_prefix i L).isInfix
    · exact List.IsInfix.trans h1 (List.drop_suffix (i + 1) L).isInfix
  · rw [if_neg hi] at h
    exact h

/-- Overwriting a character of the buffer by a character whose lower case is
not in the pattern creates no case-insensitive occurrence of the pattern. -/
theorem not_occurs_set (pattern buffer : List Int) (i : Nat) (v : Int)
    (hv : lower v ∉ pattern.map lower) (h : ¬ occurs pattern buffer) :
    ¬ occurs pattern (buffer.set i v) := by
  intro hocc
  apply h
  unfold occurs at hocc ⊢
  rw [List.map_set] at hocc
  exact infix_of_infix_set _ _ i _ hv hocc

/-- A property kept by every write of the value `v` is kept by a sequence of
such writes. -/
theorem fold_set_preserves (Q : List Int → Prop) (v : Int)
    (hQ : ∀ b i, Q b → Q (b.set i v)) (f : Nat → Nat) :
    ∀ (idx : List Nat) (b : List Int), Q b →
      Q (idx.foldl (fun buffer i => buffer.set (f i) v) b) := by
  intro idx
  induction idx with
  | nil => intro b hb; exact hb
  | cons j idx ih =>
    intro b hb
    rw [List.foldl_cons]
    exact ih _ (hQ b (f j) hb)

theorem mask_preserves (Q : List Int → Prop) (hQ : ∀ b i, Q b → Q (b.set i 32))
    (input : List Int) (start length : Nat) (h : Q input) :
    Q (mask_substring input start length) :=
  fold_set_preserves Q 32 hQ (fun i => start + i) _ input h

/-- Masking at least one character first blanks the character at `start`. -/
theorem mask_succ (input : List Int) (start n : Nat) :
    mask_substring input start (n + 1) =
      (List.range n).foldl (fun buffer i => buffer.set (start + (i + 1)) 32)
        (input.set start 32) := by
  unfold mask_substring
  rw [List.range_succ_eq_map, List.foldl_cons, List.foldl_map]
  rfl

theorem countP_set_le (p : Int → Bool) (v : Int) (hv : p v = false) :
    ∀ (b : List Int) (i : Nat), (b.set i v).countP p ≤ b.countP p := by
  intro b
  induction b with
  | nil => intro i; simp
  | cons c b ih =>
    intro i
    cases i with
    | zero =>
      rw [List.set_cons_zero, List.countP_cons, List.countP_cons, hv]
      simp
    | succ i =>
      rw [List.set_cons_succ, List.countP_cons, List.countP_cons]
      have := ih i
      omega

theorem countP_set_lt (p : Int → Bool) (v : Int) (hv : p v = false) :
    ∀ (b : List Int) (i : Nat) (c : Int), b[i]? = some c → p c = true →
      (b.set i v).countP p < b.countP p := by
  intro b
  induction b with
  | nil => intro i c h; simp at h
  | cons d b ih =>
    intro i c h hc
    cases i with
    | zero =>
      simp only [List.getElem?_cons_zero, Option.some.injEq] at h
      subst h
      rw [List.set_cons_zero, List.countP_cons, List.countP_cons, hv, hc]
      simp
    | succ i =>
      simp only [List.getElem?_cons_succ] at h
      rw [List.set_cons_succ, List.countP_cons, List.countP_cons]
      have := ih i c h hc
      omega

/-- Masking at least one character, the first of which satisfies `p` while the
space does not, lowers the number of characters that satisfy `p`. -/
theorem mask_countP_lt (p : Int → Bool) (hv : p 32 = false) (input : List Int)
    (start n : Nat) (c : Int) (h : input[start]? = some c) (hc : p c = true) :
    (mask_substring input start (n + 1)).countP p < input.countP p := by
  rw [mask_succ]
  have h1 := countP_set_lt p 32 hv input start c h hc
  have h2 := fold_set_preserves (fun b => b.countP p ≤ (input.set start 32).countP p) 32
    (fun b i hb => Nat.le_trans (countP_set_le p 32 hv b i) hb)
    (fun i => start + (i + 1)) (List.range n) (input.set start 32) (Nat.le_refl _)
  exact Nat.lt_of_le_of_lt h2 h1

/-- At a position `strcasestr_custom` returned there is a character equal,
case-insensitively, to the first character of the needle. -/
theorem found_first_char (haystack : List Int) (t : Int) (rest : List Int) (k : Nat)
    (h : strcasestr_custom haystack (t :: rest) = some k) :
    k < haystack.length ∧ ∃ c, haystack[k]? = some c ∧ lower c = lower t := by
  obtain ⟨hk, hm⟩ := strcasestr_custom_some haystack (t :: rest) (by simp) k h
  refine ⟨hk, haystack[k], by simp [hk], ?_⟩
  rw [List.drop_eq_getElem_cons hk, match_here] at hm
  by_cases hl : lower haystack[k] = lower t
  · exact hl
  · rw [if_neg hl] at hm
    exact absurd hm (by decide)

/-- The tag loop for one tag, given more iterations than the buffer has
characters `<`, ends; the opening tag then does not occur, and every
property of the buffer kept by writing a space still holds. -/
theorem strip_tag_loop_spec (tag : List Int) :
    ∀ (fuel : Nat) (b : List Int),
      b.countP (fun c => decide (lower c = 60)) < fuel →
      ∃ out, strip_tag_loop tag fuel b = some out ∧ ¬ occurs (open_tag tag) out ∧
        ∀ Q : List Int → Prop, (∀ b i, Q b → Q (b.set i 32)) → Q b → Q out := by
  intro fuel
  induction fuel with
  | zero => intro b h; exact absurd h (Nat.not_lt_zero _)
  | succ fuel ih =>
    intro b hfuel
    rw [strip_tag_loop]
    cases hs : strcasestr_custom b (open_tag tag) with
    | none =>
      exact ⟨b, rfl, strcasestr_custom_none b (open_tag tag) (by simp [open_tag]) hs,
        fun Q _ hb => hb⟩
    | some found =>
      obtain ⟨-, c, hc, hlc⟩ := found_first_char b 60 tag found hs
      have hp : (fun c => decide (lower c = 60)) c = true := by
        have h60 : lower 60 = 60 := by decide
        simp only [decide_eq_true_eq]
        rw [hlc, h60]
      have hv : (fun c => decide (lower c = 60)) (32 : Int) = false := by decide
      have hstep : ∀ n : Nat, ∃ out, strip_tag_loop tag fuel (mask_substring b found (n + 1))
          = some out ∧ ¬ occurs (open_tag tag) out ∧
          ∀ Q : List Int → Prop, (∀ b i, Q b → Q (b.set i 32)) → Q b → Q out := by
        intro n
        have hlt := mask_countP_lt (fun c => decide (lower c = 60)) hv b found n c hc hp
        obtain ⟨out, ho, hno, hQ⟩ := ih (mask_substring b found (n + 1)) (by omega)
        exact ⟨out, ho, hno, fun Q hQs hb =>
          hQ Q hQs (mask_preserves Q hQs b found (n + 1) hb)⟩
      cases he : strcasestr_custom (b.drop found) (close_tag tag) with
      | some e =>
        obtain ⟨n, hn⟩ : ∃ n, e + (close_tag tag).length = n + 1 :=
          ⟨e + (close_tag tag).length - 1, by simp [close_tag]; omega⟩
        simp only [he, hn]
        exact hstep n
      | none =>
        have hn : (open_tag tag).length = tag.length + 1 := by simp [open_tag]
        simp only [he, hn]
        exact hstep tag.length

/-- The protocol loop, given more iterations than the buffer has characters
`j` or `J`, ends; `javascript:` then does not occur, and every property of
the buffer kept by writing a space still holds. -/
theorem strip_js_loop_spec :
    ∀ (fuel : Nat) (b : List Int),
      b.countP (fun c => decide (lower c = 106)) < fuel →
      ∃ out, strip_js_loop fuel b = some out ∧ ¬ occurs javascript_colon out ∧
        ∀ Q : List Int → Prop, (∀ b i, Q b → Q (b.set i 32)) → Q b → Q out := by
  intro fuel
  induction fuel with
  | zero => intro b h; exact absurd h (Nat.not_lt_zero _)
  | succ fuel ih =>
    intro b hfuel
    rw [strip_js_loop]
    cases hs : strcasestr_custom b javascript_colon with
    | none =>
      exact ⟨b, rfl, strcasestr_custom_none b javascript_colon (by decide) hs,
        fun Q _ hb => hb⟩
    | some js =>
      obtain ⟨-, c, hc, hlc⟩ := found_first_char b 106 _ js hs
      have hp : (fun c => decide (lower c = 106)) c = true := by
        have h106 : lower 106 = 106 := by decide
        simp only [decide_eq_true_eq]
        rw [hlc, h106]
      have hv : (fun c => decide (lower c = 106)) (32 : Int) = false := by decide
      have hlt := mask_countP_lt (fun c => decide (lower c = 106)) hv b js 9 c hc hp
      obtain ⟨out, ho, hno, hQ⟩ := ih (mask_substring b js (9 + 1)) (by omega)
      exact ⟨out, ho, hno, fun Q hQs hb => hQ Q hQs (mask_preserves Q hQs b js (9 + 1) hb)⟩

/-- The body of the event-handler loop keeps every property of the buffer
kept by writing an `n` and by writing an `o`. -/
theorem event_edit_preserves (Q : List Int → Prop) (hn : ∀ b i, Q b → Q (b.set i 110))
    (ho : ∀ b i, Q b → Q (b.set i 111)) (input : List Int) (p : Nat) (h : Q input) :
    Q (event_edit input p) := by
  unfold event_edit
  split
  · split
    · split
      · exact ho _ _ (hn _ _ h)
      · exact h
    · exact h
  · exact h

/-- The event-handler loop started at offset `p`, given more iterations than
the buffer has characters from `p` on, ends, and every property of the
buffer kept by writing an `n` and by writing an `o` still holds. -/
theorem event_loop_spec :
    ∀ (fuel p : Nat) (b : List Int), b.length - p < fuel →
      ∃ out, event_loop fuel p b = some out ∧
        ∀ Q : List Int → Prop, (∀ b i, Q b → Q (b.set i 110)) →
          (∀ b i, Q b → Q (b.set i 111)) → Q b → Q out := by
  intro fuel
  induction fuel with
  | zero => intro p b h; exact absurd h (Nat.not_lt_zero _)
  | succ fuel ih =>
    intro p b hfuel
    rw [event_loop]
    cases hs : strcasestr_custom (b.drop p) space_on with
    | none => exact ⟨b, rfl, fun Q _ _ hb => hb⟩
    | some k =>
      obtain ⟨hk, -⟩ := strcasestr_custom_some (b.drop p) space_on (by decide) k hs
      rw [List.length_drop] at hk
      have hlen : (event_edit b (p + k)).length = b.length :=
        event_edit_preserves (fun x => x.length = b.length)
          (fun x i hx => by simpa using hx)
          (fun x i hx => by simpa using hx) b (p + k) rfl
      obtain ⟨out, ho, hQ⟩ := ih (p + k + 1) (event_edit b (p + k)) (by rw [hlen]; omega)
      exact ⟨out, ho, fun Q hQn hQo hb =>
        hQ Q hQn hQo (event_edit_preserves Q hQn hQo b (p + k) hb)⟩

/-- C19 (tag and protocol stripping). For every NUL-terminated input, the C
`sanitize_input_v2` returns (each of its loops ends within as many
iterations as the buffer has characters, plus one), the buffer keeps its
length, and it then contains no case-insensitive occurrence of `<script`,
of `<iframe` or of `javascript:`. -/
theorem sanitize_input_v2_strips (input : List Int) :
    ∃ out, sanitize_input_v2 input = some out ∧ out.length = input.length ∧
      ¬ occurs lt_script out ∧ ¬ occurs lt_iframe out ∧ ¬ occurs javascript_colon out := by
  have hlen32 : ∀ n : Nat, ∀ (b : List Int) (i : Nat), b.length = n → (b.set i 32).length = n :=
    fun n b i hb => by rw [List.length_set]; exact hb
  have hcount : ∀ (p : Int → Bool) (b : List Int), b.countP p < b.length + 1 :=
    fun p b => Nat.lt_succ_of_le (List.countP_le_length p)
  -- the tag pass, `script` then `iframe`
  obtain ⟨b1, h1, hs1, hQ1⟩ := strip_tag_loop_spec [115, 99, 114, 105, 112, 116]
    (input.length + 1) input (hcount _ input)
  obtain ⟨b2, h2, hi2, hQ2⟩ := strip_tag_loop_spec [105, 102, 114, 97, 109, 101]
    (b1.length + 1) b1 (hcount _ b1)
  have hl1 : b1.length = input.length := hQ1 (fun b => b.length = input.length) (hlen32 _) rfl
  have hl2 : b2.length = input.length := hQ2 (fun b => b.length = input.length) (hlen32 _) hl1
  have hs2 : ¬ occurs lt_script b2 :=
    hQ2 (fun b => ¬ occurs lt_script b)
      (fun b i hb => not_occurs_set lt_script b i 32 (by decide) hb) hs1
  have htags : strip_tags tags input = some b2 := by
    simp only [strip_tags, tags, h1, h2]
  -- the event-handler pass
  obtain ⟨b3, h3, hQ3⟩ := event_loop_spec (b2.length + 1) 0 b2 (by omega)
  have hl3 : b3.length = input.length :=
    hQ3 (fun b => b.length = input.length)
      (fun b i hb => by simpa using hb)
      (fun b i hb => by simpa using hb) hl2
  have hs3 : ¬ occurs lt_script b3 :=
    hQ3 (fun b => ¬ occurs lt_script b)
      (fun b i hb => not_occurs_set lt_script b i 110 (by decide) hb)
      (fun b i hb => not_occurs_set lt_script b i 111 (by decide) hb) hs2
  have hi3 : ¬ occurs lt_iframe b3 :=
    hQ3 (fun b => ¬ occurs lt_iframe b)
      (fun b i hb => not_occurs_set lt_iframe b i 110 (by decide) hb)
      (fun b i hb => not_occurs_set lt_iframe b i 111 (by decide) hb) hi2
  -- the protocol pass
  obtain ⟨b4, h4, hj4, hQ4⟩ := strip_js_loop_spec (b3.length + 1) b3 (hcount _ b3)
  have hl4 : b4.length = input.length := hQ4 (fun b => b.length = input.length) (hlen32 _) hl3
  have hs4 : ¬ occurs lt_script b4 :=
    hQ4 (fun b => ¬ occurs lt_script b)
      (fun b i hb => not_occurs_set lt_script b i 32 (by decide) hb) hs3
  have hi4 : ¬ occurs lt_iframe b4 :=
    hQ4 (fun b => ¬ occurs lt_iframe b)
      (fun b i hb => not_occurs_set lt_iframe b i 32 (by decide) hb) hi3
  refine ⟨b4, ?_, hl4, hs4, hi4, hj4⟩
  simp only [sanitize_input_v2, htags, h3, h4]

end XssFilter

namespace Cors

/-! ## CORS decision -/

theorem snprintf_headers :
    snprintf MAX_HEADER_SIZE format_before ALLOWED_ORIGIN format_after
      = cors_header_lines.flatten := by
  decide

/-- C21 (CORS decision). `apply_cors` returns 1 exactly when the origin is
`NULL` or equal, character for character, to `https://yourfrontend.com`, and
0 otherwise. When it returns 0 the status is 403 and the headers are empty.
For a `NULL` origin the headers are empty and the status is unchanged. For
the allowed origin the status is unchanged and the headers are the four
lines `Access-Control-Allow-Origin` (with the allowed origin),
`Access-Control-Allow-Methods`, `Access-Control-Allow-Headers` and
`Vary: Origin`, which fit the buffer. The same origin in another letter case
is blocked, as is the origin of the second test of `main`. -/
theorem apply_cors_decision (request_origin : Option (List Int)) (response : HttpResponse) :
    ((apply_cors request_origin response).2 = 1 ↔
      (request_origin = none ∨ request_origin = some ALLOWED_ORIGIN)) ∧
    ((apply_cors request_origin response).2 = 1 ∨ (apply_cors request_origin response).2 = 0) ∧
    ((apply_cors request_origin response).2 = 0 →
      (apply_cors request_origin response).1 = { status_code := 403, headers := [] }) ∧
    (request_origin = none →
      (apply_cors request_origin response).1
        = { status_code := response.status_code, headers := [] }) ∧
    (request_origin = some ALLOWED_ORIGIN →
      (apply_cors request_origin response).1
        = { status_code := response.status_code, headers := cors_header_lines.flatten }) ∧
    cors_header_lines.flatten.length < MAX_HEADER_SIZE ∧
    apply_cors (some (Text.chars "https://YourFrontend.com")) { status_code := 200, headers := [] }
      = ({ status_code := 403, headers := [] }, 0) ∧
    apply_cors (some bad_origin) { status_code := 200, headers := [] }
      = ({ status_code := 403, headers := [] }, 0) := by
  refine ⟨?_, ?_, ?_, ?_, ?_, by decide, by decide, by decide⟩
  · cases request_origin with
    | none => simp [apply_cors]
    | some origin =>
      by_cases h : origin = ALLOWED_ORIGIN
      · simp [apply_cors, h]
      · simp [apply_cors, h]
  · cases request_origin with
    | none => simp [apply_cors]
    | some origin =>
      by_cases h : origin = ALLOWED_ORIGIN
      · simp [apply_cors, h]
      · simp [apply_cors, h]
  · cases request_origin with
    | none => simp [apply_cors]
    | some origin =>
      by_cases h : origin = ALLOWED_ORIGIN
      · simp [apply_cors, h]
      · simp [apply_cors, h]
  · intro h
    rw [h]
    rfl
  · intro h
    rw [h]
    simp only [apply_cors, if_true]
    rw [snprintf_headers]

end Cors

namespace SecureHeaders

/-! ## Security headers: the error contract -/

theorem strlen_append (s rest : List Int) (hs : ∀ c ∈ s, c ≠ 0) :
    strlen (s ++ 0 :: rest) = some s.length := by
  induction s with
  | nil => simp [strlen]
  | cons c s ih =>
    have hc : c ≠ 0 := hs c (List.mem_cons_self _ _)
    have ih2 := ih (fun d hd => hs d (List.mem_cons_of_mem _ hd))
    simp [strlen, hc, ih2]

theorem c_str_append (s rest : List Int) (hs : ∀ c ∈ s, c ≠ 0) :
    c_str (s ++ 0 :: rest) = some s := by
  induction s with
  | nil => simp [c_str]
  | cons c s ih =>
    have hc : c ≠ 0 := hs c (List.mem_cons_self _ _)
    have ih2 := ih (fun d hd => hs d (List.mem_cons_of_mem _ hd))
    simp [c_str, hc, ih2]

/-- The position `strstr` returns is the first one at which the pattern
occurs. -/
theorem strstr_some (needle : List Int) :
    ∀ (s : List Int) (i : Nat), strstr s needle = some i →
      needle <+: s.drop i ∧ i + needle.length ≤ s.length ∧
        ∀ j, j < i → ¬ needle <+: s.drop j := by
  intro s
  induction s with
  | nil =>
    intro i h
    by_cases hn : needle = []
    · simp [strstr, hn] at h
      subst h
      simp [hn]
    · simp [strstr, hn] at h
  | cons c s ih =>
    intro i h
    rw [strstr] at h
    by_cases hp : needle.isPrefixOf (c :: s) = true
    · rw [if_pos hp] at h
      simp only [Option.some.injEq] at h
      subst h
      have hpre : needle <+: c :: s := List.isPrefixOf_iff_prefix.mp hp
      refine ⟨by simpa using hpre, ?_, fun j hj => by omega⟩
      have := hpre.length_le
      simpa using this
    · rw [if_neg hp] at h
      cases hrec : strstr s needle with
      | none => simp [hrec] at h
      | some k =>
        simp only [hrec, Option.map_some', Option.some.injEq] at h
        subst h
        obtain ⟨h1, h2, h3⟩ := ih k hrec
        refine ⟨by simpa using h1, by simp only [List.length_cons]; omega, ?_⟩
        intro j hj
        cases j with
        | zero =>
          intro hpre
          exact hp (List.isPrefixOf_iff_prefix.mpr (by simpa using hpre))
        | succ j =>
          have := h3 j (by omega)
          simpa using this

/-- Where `strstr` returns `NULL` the pattern occurs nowhere. -/
theorem strstr_none (needle : List Int) :
    ∀ s : List Int, strstr s needle = none → ∀ j, ¬ needle <+: s.drop j := by
  intro s
  induction s with
  | nil =>
    intro h j
    by_cases hn : needle = []
    · simp [strstr, hn] at h
    · simp only [List.drop_nil, List.prefix_nil]
      exact hn
  | cons c s ih =>
    intro h j
    rw [strstr] at h
    by_cases hp : needle.isPrefixOf (c :: s) = true
    · rw [if_pos hp] at h
      simp at h
    · rw [if_neg hp] at h
      cases hrec : strstr s needle with
      | some k => simp [hrec] at h
      | none =>
        cases j with
        | zero =>
          intro hpre
          exact hp (List.isPrefixOf_iff_prefix.mpr (by simpa using hpre))
        | succ j =>
          have := ih hrec j
          simpa using this

theorem memmove_gap (A B R : List Int) (h : Nat) (hR : h ≤ R.length) :
    memmove (A ++ B ++ R) (A.length + h) A.length B.length
      = some (A ++ (B ++ R).take h ++ B ++ R.drop h) := by
  unfold memmove
  have hb : A.length + B.length ≤ (A ++ B ++ R).length ∧
      A.length + h + B.length ≤ (A ++ B ++ R).length := by
    simp only [List.length_append]
    omega
  rw [if_pos hb]
  have e1 : (A ++ B ++ R).take (A.length + h) = A ++ (B ++ R).take h := by
    rw [List.append_assoc, List.take_append]
  have e2 : ((A ++ B ++ R).drop A.length).take B.length = B := by
    rw [List.append_assoc, List.drop_left, List.take_left]
  have e3 : (A ++ B ++ R).drop (A.length + h + B.length) = R.drop h := by
    have : A.length + h + B.length = (A ++ B).length + h := by
      simp only [List.length_append]; omega
    rw [this, List.drop_append]
  rw [e1, e2, e3]

theorem memcpy_gap (A G T H : List Int) (hG : G.length = H.length) :
    memcpy (A ++ G ++ T) A.length H H.length = some (A ++ H ++ T) := by
  unfold memcpy
  have hb : H.length ≤ H.length ∧ A.length + H.length ≤ (A ++ G ++ T).length := by
    simp only [List.length_append]
    omega
  rw [if_pos hb]
  have e1 : (A ++ G ++ T).take A.length = A := by
    rw [List.append_assoc, List.take_left]
  have e2 : (A ++ G ++ T).drop (A.length + H.length) = T := by
    have : A.length + H.length = (A ++ G).length := by
      simp only [List.length_append]; omega
    rw [this, List.drop_left]
  rw [e1, e2, List.take_length]

theorem security_headers_no_nul : ∀ c ∈ SECURITY_HEADERS, c ≠ 0 := by
  decide

/-- The result of `inject_secure_headers` on an array that holds the string
`s`, then a NUL, then the bytes `rest`. -/
theorem inject_result (s rest : List Int) (max_size : Nat) (hs : ∀ c ∈ s, c ≠ 0)
    (hsize : max_size ≤ (s ++ 0 :: rest).length)
    (h64 : (s ++ 0 :: rest).length + SECURITY_HEADERS.length < 2 ^ 64) :
    inject_secure_headers (s ++ 0 :: rest) max_size =
      if s.length + SECURITY_HEADERS.length ≥ max_size then some (s ++ 0 :: rest, -1)
      else some (with_headers s ++ 0 :: rest.drop SECURITY_HEADERS.length, 0) := by
  have hlen : (s ++ 0 :: rest).length = s.length + 1 + rest.length := by
    simp only [List.length_append, List.length_cons]; omega
  rw [hlen] at hsize h64
  unfold inject_secure_headers
  rw [strlen_append s rest hs]
  dsimp only
  rw [Nat.mod_eq_of_lt (by omega)]
  by_cases hge : s.length + SECURITY_HEADERS.length ≥ max_size
  · rw [if_pos hge, if_pos hge]
  · rw [if_neg hge, if_neg hge]
    have hrest : SECURITY_HEADERS.length ≤ rest.length := by omega
    rw [List.take_left]
    unfold with_headers
    cases hstr : strstr s crlf_crlf with
    | none =>
      dsimp only
      unfold strcat
      rw [strlen_append s rest hs]
      dsimp only
      rw [if_pos (by rw [hlen]; omega), List.take_left]
      have e : (s ++ 0 :: rest).drop (s.length + SECURITY_HEADERS.length + 1)
          = rest.drop SECURITY_HEADERS.length := by
        have h1 : s ++ 0 :: rest = (s ++ [0]) ++ rest := by simp
        have h2 : s.length + SECURITY_HEADERS.length + 1
            = (s ++ [0]).length + SECURITY_HEADERS.length := by
          simp only [List.length_append, List.length_singleton]; omega
        rw [h1, h2, List.drop_append]
      rw [e]
      simp
    | some i =>
      dsimp only
      obtain ⟨-, hi, -⟩ := strstr_some crlf_crlf s i hstr
      have hi4 : i + 4 ≤ s.length := hi
      have hA : (s.take (i + 2)).length = i + 2 := by
        rw [List.length_take]; omega
      have hB0 : ∀ c ∈ s.drop (i + 2), c ≠ 0 := fun c hc => hs c (List.mem_of_mem_drop hc)
      have hmem : s ++ 0 :: rest = s.take (i + 2) ++ (s.drop (i + 2) ++ [0]) ++ rest := by
        simp only [List.append_assoc, List.singleton_append]
        rw [← List.append_assoc, List.take_append_drop]
      have hdrop : (s ++ 0 :: rest).drop (i + 2) = s.drop (i + 2) ++ 0 :: rest := by
        rw [List.drop_append_of_le_length (by omega)]
      rw [hdrop, strlen_append _ rest hB0]
      dsimp only
      have hmove := memmove_gap (s.take (i + 2)) (s.drop (i + 2) ++ [0]) rest
        SECURITY_HEADERS.length hrest
      rw [hA] at hmove
      have hBlen : (s.drop (i + 2) ++ [0]).length = (s.drop (i + 2)).length + 1 := by
        simp
      rw [hBlen, ← hmem] at hmove
      rw [hmove]
      dsimp only
      have hG : ((s.drop (i + 2) ++ [0] ++ rest).take SECURITY_HEADERS.length).length
          = SECURITY_HEADERS.length := by
        rw [List.length_take]
        simp only [List.length_append]
        omega
      have hcpy := memcpy_gap (s.take (i + 2))
        ((s.drop (i + 2) ++ [0] ++ rest).take SECURITY_HEADERS.length)
        (s.drop (i + 2) ++ [0] ++ rest.drop SECURITY_HEADERS.length) SECURITY_HEADERS hG
      rw [hA] at hcpy
      have hshape : s.take (i + 2) ++ (s.drop (i + 2) ++ [0] ++ rest).take SECURITY_HEADERS.length
            ++ (s.drop (i + 2) ++ [0]) ++ rest.drop SECURITY_HEADERS.length
          = s.take (i + 2) ++ (s.drop (i + 2) ++ [0] ++ rest).take SECURITY_HEADERS.length
            ++ (s.drop (i + 2) ++ [0] ++ rest.drop SECURITY_HEADERS.length) := by
        simp only [List.append_assoc]
      rw [hshape, hcpy]
      simp

theorem with_headers_length (s : List Int) :
    (with_headers s).length = s.length + SECURITY_HEADERS.length := by
  unfold with_headers
  cases hstr : strstr s crlf_crlf with
  | none => simp
  | some i =>
    obtain ⟨-, hi, -⟩ := strstr_some crlf_crlf s i hstr
    have hi4 : i + 4 ≤ s.length := hi
    simp only [List.length_append, List.length_take, List.length_drop]
    omega

theorem with_headers_no_nul (s : List Int) (hs : ∀ c ∈ s, c ≠ 0) :
    ∀ c ∈ with_headers s, c ≠ 0 := by
  intro c hc
  unfold with_headers at hc
  cases hstr : strstr s crlf_crlf with
  | none =>
    rw [hstr] at hc
    rcases List.mem_append.mp hc with h | h
    · exact hs c h
    · exact security_headers_no_nul c h
  | some i =>
    rw [hstr] at hc
    rcases List.mem_append.mp hc with h | h
    · rcases List.mem_append.mp h with h | h
      · exact hs c (List.mem_of_mem_take h)
      · exact security_headers_no_nul c h
    · exact hs c (List.mem_of_mem_drop h)

/-- C22 (error contract of the header injection). Let the array hold the
string `s` (bytes other than NUL), a NUL, and then the bytes `rest`, let
`max_size` be at most the size of the array, and let sizes fit `size_t`.
Then `inject_secure_headers` returns -1 exactly when
`strlen(buffer) + strlen(SECURITY_HEADERS) >= max_size`, and then leaves the
array as it was; otherwise it returns 0, the array keeps its size, and the
string it then holds has length `strlen(buffer) + strlen(SECURITY_HEADERS)`,
which is below `max_size`: the string and its NUL lie within the first
`max_size` bytes. -/
theorem inject_error_contract (s rest : List Int) (max_size : Nat) (hs : ∀ c ∈ s, c ≠ 0)
    (hsize : max_size ≤ (s ++ 0 :: rest).length)
    (h64 : (s ++ 0 :: rest).length + SECURITY_HEADERS.length < 2 ^ 64) :
    ∃ buffer1 r, inject_secure_headers (s ++ 0 :: rest) max_size = some (buffer1, r) ∧
      (r = -1 ↔ s.length + SECURITY_HEADERS.length ≥ max_size) ∧
      (r = -1 → buffer1 = s ++ 0 :: rest) ∧
      (r ≠ -1 → r = 0 ∧ buffer1.length = (s ++ 0 :: rest).length ∧
        ∃ s1, c_str buffer1 = some s1 ∧ s1.length = s.length + SECURITY_HEADERS.length ∧
          s1.length < max_size ∧ buffer1.take (s1.length + 1) = s1 ++ [0]) := by
  have hres := inject_result s rest max_size hs hsize h64
  by_cases hge : s.length + SECURITY_HEADERS.length ≥ max_size
  · rw [if_pos hge] at hres
    exact ⟨_, _, hres, ⟨fun _ => hge, fun _ => rfl⟩, fun _ => rfl, fun h => absurd rfl h⟩
  · rw [if_neg hge] at hres
    have hlen : (s ++ 0 :: rest).length = s.length + 1 + rest.length := by
      simp only [List.length_append, List.length_cons]; omega
    have hwl := with_headers_length s
    refine ⟨_, _, hres, ⟨fun h => absurd h (by decide), fun h => absurd h hge⟩,
      fun h => absurd h (by decide), fun _ => ⟨rfl, ?_, with_headers s, ?_, hwl, ?_, ?_⟩⟩
    · simp only [List.length_append, List.length_cons, List.length_drop, hwl]
      rw [hlen] at hsize
      omega
    · exact c_str_append _ _ (with_headers_no_nul s hs)
    · rw [hwl]; omega
    · have e : with_headers s ++ 0 :: rest.drop SECURITY_HEADERS.length
          = (with_headers s ++ [0]) ++ rest.drop SECURITY_HEADERS.length := by simp
      have e2 : (with_headers s).length + 1 = (with_headers s ++ [0]).length := by simp
      rw [e, e2, List.take_left]

theorem response_buffer_length :
    (response_text ++ 0 :: response_rest).length = BUFFER_SIZE := by
  have h : response_text.length = 65 := by decide
  simp only [List.length_append, List.length_cons, response_rest, List.length_replicate, h]
  rfl

/-- Witness of C22: the array of 4096 bytes of the demonstration. -/
theorem inject_error_contract_witness :
    (∀ c ∈ response_text, c ≠ 0) ∧
    BUFFER_SIZE ≤ (response_text ++ 0 :: response_rest).length ∧
    (response_text ++ 0 :: response_rest).length + SECURITY_HEADERS.length < 2 ^ 64 ∧
    ∃ buffer1 r,
      inject_secure_headers (response_text ++ 0 :: response_rest) BUFFER_SIZE
        = some (buffer1, r) ∧
      (r = -1 ↔ response_text.length + SECURITY_HEADERS.length ≥ BUFFER_SIZE) ∧
      (r = -1 → buffer1 = response_text ++ 0 :: response_rest) ∧
      (r ≠ -1 → r = 0 ∧ buffer1.length = (response_text ++ 0 :: response_rest).length ∧
        ∃ s1, c_str buffer1 = some s1 ∧
          s1.length = response_text.length + SECURITY_HEADERS.length ∧
          s1.length < BUFFER_SIZE ∧ buffer1.take (s1.length + 1) = s1 ++ [0]) :=
  ⟨by decide, by rw [response_buffer_length], by rw [response_buffer_length]; decide,
    inject_error_contract response_text response_rest BUFFER_SIZE (by decide)
      (by rw [response_buffer_length]) (by rw [response_buffer_length]; decide)⟩

/-! ## Security headers: placement -/

/-- The call of `strstr` returns the first position at which the pattern
occurs. -/
theorem strstr_first (needle s : List Int) (i : Nat) (hocc : needle <+: s.drop i)
    (hfirst : ∀ j, j < i → ¬ needle <+: s.drop j) : strstr s needle = some i := by
  cases h : strstr s needle with
  | none => exact absurd hocc (strstr_none needle s h i)
  | some k =>
    obtain ⟨h1, -, h3⟩ := strstr_some needle s k h
    rcases Nat.lt_trichotomy k i with hlt | heq | hgt
    · exact absurd h1 (hfirst k hlt)
    · rw [heq]
    · exact absurd hocc (h3 i hgt)

/-- C33 (header placement). Let the array hold the string `s`, a NUL and the
bytes `rest`, with `max_size` at most the size of the array, sizes fitting
`size_t`, and `strlen(buffer) + strlen(SECURITY_HEADERS) < max_size`. Then
`inject_secure_headers` returns 0, and the string the array holds afterwards
is: when `"\r\n\r\n"` occurs in `s`, first at index `i`, the characters
`s[0 .. i+2)`, then `SECURITY_HEADERS`, then `s[i+2 ..)`, which begins with
the CR LF of the blank line and is followed by nothing else; when
`"\r\n\r\n"` does not occur in `s`, the string `s` followed by
`SECURITY_HEADERS`. -/
theorem header_placement (s rest : List Int) (max_size : Nat) (hs : ∀ c ∈ s, c ≠ 0)
    (hsize : max_size ≤ (s ++ 0 :: rest).length)
    (h64 : (s ++ 0 :: rest).length + SECURITY_HEADERS.length < 2 ^ 64)
    (hok : s.length + SECURITY_HEADERS.length < max_size) :
    ∃ buffer1 s1, inject_secure_headers (s ++ 0 :: rest) max_size = some (buffer1, 0) ∧
      c_str buffer1 = some s1 ∧
      (∀ i, crlf_crlf <+: s.drop i → (∀ j, j < i → ¬ crlf_crlf <+: s.drop j) →
        s1 = s.take (i + 2) ++ SECURITY_HEADERS ++ s.drop (i + 2) ∧
        s1.take (i + 2) = s.take (i + 2) ∧
        s1.drop (i + 2 + SECURITY_HEADERS.length) = s.drop (i + 2) ∧
        crlf <+: s.drop (i + 2)) ∧
      ((∀ j, ¬ crlf_crlf <+: s.drop j) → s1 = s ++ SECURITY_HEADERS) := by
  have hres := inject_result s rest max_size hs hsize h64
  rw [if_neg (by omega)] at hres
  refine ⟨_, with_headers s, hres, c_str_append _ _ (with_headers_no_nul s hs), ?_, ?_⟩
  · intro i hocc hfirst
    have hstr := strstr_first crlf_crlf s i hocc hfirst
    have hw : with_headers s = s.take (i + 2) ++ SECURITY_HEADERS ++ s.drop (i + 2) := by
      unfold with_headers
      rw [hstr]
    obtain ⟨-, hi, -⟩ := strstr_some crlf_crlf s i hstr
    have hi4 : i + 4 ≤ s.length := hi
    have hA : (s.take (i + 2)).length = i + 2 := by
      rw [List.length_take]; omega
    refine ⟨hw, ?_, ?_, ?_⟩
    · rw [hw, List.append_assoc]
      exact List.take_left' hA
    · rw [hw]
      have e : i + 2 + SECURITY_HEADERS.length
          = (s.take (i + 2) ++ SECURITY_HEADERS).length := by
        rw [List.length_append, hA]
      rw [e, List.drop_left]
    · obtain ⟨t, ht⟩ := hocc
      have hd : s.drop (i + 2) = (s.drop i).drop 2 := by
        rw [List.drop_drop]
      rw [hd, ← ht]
      exact ⟨t, rfl⟩
  · intro hnone
    unfold with_headers
    cases hstr : strstr s crlf_crlf with
    | none => rfl
    | some i => exact absurd (strstr_some crlf_crlf s i hstr).1 (hnone i)

theorem body_buffer_length : (response_with_body ++ 0 :: body_rest).length = 512 := by
  have h : response_with_body.length = 80 := by decide
  simp only [List.length_append, List.length_cons, body_rest, List.length_replicate, h]

/-- Witness of C33: an array of 512 bytes holding a response with its blank
line and a body. -/
theorem header_placement_witness :
    (∀ c ∈ response_with_body, c ≠ 0) ∧
    512 ≤ (response_with_body ++ 0 :: body_rest).length ∧
    (response_with_body ++ 0 :: body_rest).length + SECURITY_HEADERS.length < 2 ^ 64 ∧
    response_with_body.length + SECURITY_HEADERS.length < 512 ∧
    crlf_crlf <+: response_with_body.drop 63 ∧
    (∀ j, j < 63 → ¬ crlf_crlf <+: response_with_body.drop j) ∧
    ∃ buffer1 s1,
      inject_secure_headers (response_with_body ++ 0 :: body_rest) 512 = some (buffer1, 0) ∧
      c_str buffer1 = some s1 ∧
      (∀ i, crlf_crlf <+: response_with_body.drop i →
        (∀ j, j < i → ¬ crlf_crlf <+: response_with_body.drop j) →
        s1 = response_with_body.take (i + 2) ++ SECURITY_HEADERS ++ response_with_body.drop (i + 2) ∧
        s1.take (i + 2) = response_with_body.take (i + 2) ∧
        s1.drop (i + 2 + SECURITY_HEADERS.length) = response_with_body.drop (i + 2) ∧
        crlf <+: response_with_body.drop (i + 2)) ∧
      ((∀ j, ¬ crlf_crlf <+: response_with_body.drop j) →
        s1 = response_with_body ++ SECURITY_HEADERS) :=
  ⟨by decide, by rw [body_buffer_length], by rw [body_buffer_length]; decide, by decide,
    by decide, by decide,
    header_placement response_with_body body_rest 512 (by decide)
      (by rw [body_buffer_length]) (by rw [body_buffer_length]; decide) (by decide)⟩

end SecureHeaders
